import Mathlib

/-!
Shallow embedding of the weighted-graph core of `lab1-unit-tests`
(`src/Graph.h`, `src/Graph.inl`): the adjacency-list graph store, its
mutation operations, the three MST algorithms (Prim, Kruskal, Boruvka)
and Dijkstra's shortest path.

The C++ class is `Graph<VertexType>` with
`map<VertexType, list<pair<VertexType,int>>> adjList` and a `directed`
flag.  Vertices are embedded as `Nat` (the tests instantiate
`VertexType = int`), weights as `Int`.  `std::map` is embedded as an
association list whose keys are kept in strictly ascending order, which
reproduces the map's iteration order; `std::list` is a plain `List`.
Loops that are not structurally recursive in the C++ (`while` over a
priority queue, union-find with path compression, parent-pointer path
restoration) are embedded with explicit fuel and return `Option`,
`none` marking fuel exhaustion; sufficient fuel is supplied at the
entry points exactly where the C++ loop provably terminates.
-/

namespace Lab1

/-- One vertex's neighbor list: `list<pair<VertexType,int>>`.
Vertices are `Nat`, weights are `Int`. -/
abbrev Nbrs := List (Nat × Int)

/-- The adjacency map `map<VertexType, list<pair<VertexType,int>>>`,
as a key-sorted association list. -/
abbrev Adj := List (Nat × Nbrs)

/-- The vertex set, in map iteration order. -/
def keys (a : Adj) : List Nat := a.map Prod.fst

/-- `std::map::find` / `at`: the neighbor list stored for `u`, if present. -/
def lookupA (u : Nat) : Adj → Option Nbrs
  | [] => none
  | (k, ns) :: t => if u = k then some ns else lookupA u t

/-- The neighbor list of `u`, empty when `u` is not a key. -/
def adjOf (a : Adj) (u : Nat) : Nbrs := (lookupA u a).getD []

/-- `std::map::try_emplace(v)` (also `operator[]`'s insert-if-absent
effect): insert key `v` with an empty list at its sorted position,
leave the map unchanged when `v` is already a key. -/
def tryEmplace (v : Nat) : Adj → Adj
  | [] => [(v, [])]
  | (k, ns) :: t =>
    if v < k then (v, []) :: (k, ns) :: t
    else if v = k then (k, ns) :: t
    else (k, ns) :: tryEmplace v t

/-- `adjList[u].push_back(e)`: append `e` to `u`'s list, inserting the
key at its sorted position if absent (`operator[]` semantics). -/
def pushBackAt (u : Nat) (e : Nat × Int) : Adj → Adj
  | [] => [(u, [e])]
  | (k, ns) :: t =>
    if u < k then (u, [e]) :: (k, ns) :: t
    else if u = k then (k, ns ++ [e]) :: t
    else (k, ns) :: pushBackAt u e t

/-- `neighbors.remove_if(edge.first == target)`: drop every entry of a
neighbor list that targets `target`, preserving the order of the rest. -/
def dropTarget (target : Nat) (ns : Nbrs) : Nbrs :=
  ns.filter (fun e => e.1 ≠ target)

/-- The `remove_edge` body for one direction: if `u` is a key, replace
its list by the list with all entries targeting `v` removed; no-op
when `u` is absent. -/
def eraseEdgesAt (u target : Nat) (a : Adj) : Adj :=
  a.map (fun p => if p.1 = u then (p.1, dropTarget target p.2) else p)

/-- The graph: `adjList` plus the `directed` flag fixed at construction. -/
structure Graph where
  adjList : Adj
  directed : Bool

/-- `Graph::add_vertex`: `adjList.try_emplace(v)`. -/
def Graph.add_vertex (g : Graph) (v : Nat) : Graph :=
  { g with adjList := tryEmplace v g.adjList }

/-- `Graph::add_edge`: ensure both endpoints exist, push `(v,w)` onto
`u`'s list, and if the graph is undirected and `u ≠ v` also push the
mirror `(u,w)` onto `v`'s list. -/
def Graph.add_edge (g : Graph) (u v : Nat) (w : Int) : Graph :=
  let g1 := (g.add_vertex u).add_vertex v
  let a1 := pushBackAt u (v, w) g1.adjList
  let a2 := if g.directed = false ∧ u ≠ v then pushBackAt v (u, w) a1 else a1
  { g with adjList := a2 }

/-- `Graph::remove_edge`: remove every entry `u → v`, and if the graph
is undirected and `u ≠ v` also every entry `v → u`. -/
def Graph.remove_edge (g : Graph) (u v : Nat) : Graph :=
  let a1 := eraseEdgesAt u v g.adjList
  let a2 := if g.directed = false ∧ u ≠ v then eraseEdgesAt v u a1 else a1
  { g with adjList := a2 }

/-- `Graph::remove_vertex`: erase `v`'s entry and strip every other
neighbor list of entries targeting `v`. -/
def Graph.remove_vertex (g : Graph) (v : Nat) : Graph :=
  let a1 := (g.adjList.filter (fun p => p.1 ≠ v)).map
    (fun p => (p.1, dropTarget v p.2))
  { g with adjList := a1 }

/-- The `std::map` key invariant: keys strictly ascending (hence unique). -/
def SortedA (a : Adj) : Prop := List.Pairwise (· < ·) (keys a)

/-- Every edge target is itself a registered vertex.  This holds for
every graph built through the public mutation API. -/
def ClosedA (a : Adj) : Prop := ∀ p ∈ a, ∀ e ∈ p.2, e.1 ∈ keys a

/-- Well-formedness of a graph value: the `std::map` key invariant plus
target-closure, both maintained by the mutation API. -/
structure Graph.Wf (g : Graph) : Prop where
  sorted : SortedA g.adjList
  closed : ClosedA g.adjList

instance : DecidablePred SortedA := fun a =>
  inferInstanceAs (Decidable (List.Pairwise (· < ·) (keys a)))

instance : DecidablePred ClosedA := fun a =>
  inferInstanceAs (Decidable (∀ p ∈ a, ∀ e ∈ p.2, e.1 ∈ keys a))

instance (g : Graph) : Decidable g.Wf :=
  decidable_of_iff (SortedA g.adjList ∧ ClosedA g.adjList)
    ⟨fun h => ⟨h.1, h.2⟩, fun h => ⟨h.sorted, h.closed⟩⟩

/-- A small concrete undirected graph (`1 — 2` with weight 5), used to
instantiate hypotheses of the claim theorems on concrete inputs. -/
def gW : Graph := ⟨[(1, [(2, 5)]), (2, [(1, 5)])], false⟩

/-- A concrete undirected graph with an isolated vertex `3`
(no path from `1` to `3`). -/
def gW2 : Graph := ⟨[(1, [(2, 5)]), (2, [(1, 5)]), (3, [])], false⟩

/-- A concrete directed graph. -/
def gW3 : Graph := ⟨[(1, [(2, 3)]), (2, [])], true⟩

/-! ### Dijkstra (`Graph::shortest_path`) -/

/-- The local maps of `shortest_path` (`map<VertexType,double> dist`,
`map<VertexType,VertexType> parent`), as association lists.  `⊤` plays
the role of `numeric_limits<double>::infinity()`; finite distances are
exact integers (the C++ tracks them in `double`, exact for the integer
sums involved). -/
abbrev DistMap := List (Nat × WithTop Int)

abbrev ParMap := List (Nat × Nat)

/-- Association-list lookup for the local maps. -/
def lookupM {α : Type} (k : Nat) : List (Nat × α) → Option α
  | [] => none
  | (k2, x) :: t => if k = k2 then some x else lookupM k t

/-- `map::operator[]` read: absent keys read as the value-initialized
default (`0.0` for `double`, `0` for `int`).  The default-insertion
side effect of `operator[]` on these call-local maps is observationally
irrelevant (later reads of the inserted key return the same default),
so the insertion is not threaded. -/
def getM {α : Type} (d : α) (k : Nat) (m : List (Nat × α)) : α := (lookupM k m).getD d

/-- `map::operator[] = x`: overwrite the binding of `k`, or append it. -/
def setM {α : Type} (k : Nat) (x : α) : List (Nat × α) → List (Nat × α)
  | [] => [(k, x)]
  | (k2, y) :: t => if k = k2 then (k, x) :: t else (k2, y) :: setM k x t

/-- The strict-weak order used by
`priority_queue<P, vector<P>, greater<P>>` with `P = pair<double,VertexType>`:
lexicographic comparison, smallest element popped first. -/
def pqLeB (x y : WithTop Int × Nat) : Bool :=
  decide (x.1 < y.1 ∨ (x.1 = y.1 ∧ x.2 ≤ y.2))

/-- `pq.push`: the priority queue as a lexicographically sorted list
whose head is `pq.top()`. -/
def pqPush (e : WithTop Int × Nat) : List (WithTop Int × Nat) → List (WithTop Int × Nat)
  | [] => [e]
  | x :: t => if pqLeB e x then e :: x :: t else x :: pqPush e t

/-- One relaxation of the edge `(v,w)` out of `u`:
`if (dist[u] + w < dist[v]) { dist[v] = dist[u] + w; parent[v] = u; pq.push({dist[v], v}); }`. -/
def relaxStep (u : Nat) (st : DistMap × ParMap × List (WithTop Int × Nat))
    (vw : Nat × Int) : DistMap × ParMap × List (WithTop Int × Nat) :=
  if getM 0 u st.1 + (vw.2 : WithTop Int) < getM 0 vw.1 st.1 then
    let dist2 := setM vw.1 (getM 0 u st.1 + (vw.2 : WithTop Int)) st.1
    (dist2, setM vw.1 u st.2.1, pqPush (getM 0 vw.1 dist2, vw.1) st.2.2)
  else st

/-- The main Dijkstra loop.  Note `adjList[u]` is `operator[]` on the
member map, so a missing `u` is inserted with an empty neighbor list:
the adjacency is threaded through the loop.  The pop is skipped iff
`d > dist[u]` (stale entry). -/
def dijkstraLoop : Nat → Adj → DistMap → ParMap → List (WithTop Int × Nat) →
    Option (Adj × DistMap × ParMap)
  | 0, _, _, _, _ => none
  | _ + 1, a, dist, par, [] => some (a, dist, par)
  | fuel + 1, a, dist, par, (d, u) :: pq =>
    if getM 0 u dist < d then dijkstraLoop fuel a dist par pq
    else
      let a2 := tryEmplace u a
      let st := (adjOf a2 u).foldl (relaxStep u) (dist, par, pq)
      dijkstraLoop fuel a2 st.1 st.2.1 st.2.2

/-- The path-restoration loop
`for (v = end; v != start; v = parent[v]) path.push_back(v);`. -/
def restoreLoop : Nat → ParMap → Nat → Nat → List Nat → Option (List Nat)
  | 0, _, _, _, _ => none
  | fuel + 1, par, s, v, path =>
    if v = s then some path
    else restoreLoop fuel par s (getM 0 v par) (path ++ [v])

/-- `static_cast<int>` of a finite distance (the value is an exact
integer in this embedding, so truncation is the identity). -/
def untopZ : WithTop Int → Int
  | none => 0
  | some c => c

/-- `Graph::shortest_path(start, end)`.  Returns the possibly mutated
graph (`adjList[u]` inserts missing vertices) together with the path
and the total distance; `none` only on fuel exhaustion (the C++ loop
diverges on graphs with negative cycles reachable from `start`). -/
def Graph.shortest_path (fuel : Nat) (g : Graph) (s e : Nat) :
    Option (Graph × List Nat × Int) :=
  let dist0 := setM s (0 : WithTop Int) (g.adjList.map (fun p => (p.1, (⊤ : WithTop Int))))
  let par0 : ParMap := [(s, s)]
  match dijkstraLoop fuel g.adjList dist0 par0 [((0 : WithTop Int), s)] with
  | none => none
  | some (a2, dist, par) =>
    if getM 0 e dist = ⊤ then some ({ g with adjList := a2 }, [], -1)
    else
      match restoreLoop fuel par s e [] with
      | none => none
      | some p =>
        some ({ g with adjList := a2 }, (p ++ [s]).reverse, untopZ (getM 0 e dist))

/-! ### DSU (union-find of `Graph.h`) -/

/-- The `DSU` struct: `vector<int> parent, rank`. -/
structure DSU where
  parent : List Nat
  rnk : List Nat

/-- `DSU(int n)`: `parent[i] = i`, `rank[i] = 0`. -/
def DSU.init (n : Nat) : DSU := ⟨List.range n, List.replicate n 0⟩

/-- `find_set` with path compression, fuel-bounded (the C++ recursion
terminates because the parent pointers form a forest). -/
def findSet : Nat → List Nat → Nat → Option (Nat × List Nat)
  | 0, _, _ => none
  | fuel + 1, par, v =>
    let pv := par.getD v v
    if v = pv then some (v, par)
    else
      match findSet fuel par pv with
      | none => none
      | some (r, par2) => some (r, par2.set v r)

/-- `union_sets(a,b)`: find both roots, return `false` when equal,
otherwise attach by rank (bumping on ties) and return `true`. -/
def unionSets (fuel : Nat) (d : DSU) (a b : Nat) : Option (Bool × DSU) :=
  match findSet fuel d.parent a with
  | none => none
  | some (ra, par1) =>
    match findSet fuel par1 b with
    | none => none
    | some (rb, par2) =>
      if ra ≠ rb then
        let x := if d.rnk.getD ra 0 < d.rnk.getD rb 0 then rb else ra
        let y := if d.rnk.getD ra 0 < d.rnk.getD rb 0 then ra else rb
        let par3 := par2.set y x
        let rnk2 := if d.rnk.getD x 0 = d.rnk.getD y 0
          then d.rnk.set x (d.rnk.getD x 0 + 1) else d.rnk
        some (true, ⟨par3, rnk2⟩)
      else some (false, ⟨par2, d.rnk⟩)

/-! ### Prim (`Graph::mst_prim`) -/

/-- The strict-weak order of
`priority_queue<Edge, vector<Edge>, greater<Edge>>` with
`Edge = pair<int, pair<V,V>>`: lexicographic, smallest popped first. -/
def pqLeP (x y : Int × Nat × Nat) : Bool :=
  decide (x.1 < y.1 ∨ (x.1 = y.1 ∧ (x.2.1 < y.2.1 ∨ (x.2.1 = y.2.1 ∧ x.2.2 ≤ y.2.2))))

/-- Prim's priority queue as a sorted list with `pq.top()` at the head. -/
def pqPushP (e : Int × Nat × Nat) : List (Int × Nat × Nat) → List (Int × Nat × Nat)
  | [] => [e]
  | x :: t => if pqLeP e x then e :: x :: t else x :: pqPushP e t

/-- Total number of adjacency entries; used to bound Prim's loop. -/
def totalDeg (a : Adj) : Nat := (a.map (fun p => p.2.length)).sum

/-- Prim's main loop: pop the minimum edge `(w,(u,v))`, discard it when
`v` is already in the tree, otherwise admit it and push `v`'s edges to
vertices not yet in the tree. -/
def primLoop (a : Adj) : Nat → List (Int × Nat × Nat) → List Nat →
    List (Nat × Nat) → Int → Option (List (Nat × Nat) × Int)
  | 0, _, _, _, _ => none
  | _ + 1, [], _, es, tot => some (es, tot)
  | fuel + 1, (w, u, v) :: pq, inMST, es, tot =>
    if v ∈ inMST then primLoop a fuel pq inMST es tot
    else
      let inMST2 := v :: inMST
      let pq2 := (adjOf a v).foldl
        (fun q tw => if tw.1 ∈ inMST2 then q else pqPushP (tw.2, v, tw.1) q) pq
      primLoop a fuel pq2 inMST2 (es ++ [(u, v)]) (tot + w)

/-- `Graph::mst_prim`: guards for the empty and directed cases, then
runs the loop from the first vertex in key order, seeding the queue
with all of its edges. -/
def Graph.mst_prim (g : Graph) : Option (List (Nat × Nat) × Int) :=
  match g.adjList with
  | [] => some ([], 0)
  | (start, ns) :: _ =>
    if g.directed then some ([], 0)
    else
      primLoop g.adjList (1 + 2 * totalDeg g.adjList)
        (ns.foldl (fun q vw => pqPushP (vw.2, start, vw.1) q) []) [start] [] 0

/-! ### Kruskal (`Graph::mst_kruskal`) -/

/-- Edge collection shared by Kruskal and Boruvka: every adjacency
entry `(u,(v,w))` with `u ≠ v` whose mirror ordered pair `(v,u)` has
not been recorded yet is kept (so parallel same-direction copies are
all kept, mirror copies are skipped). -/
def collectEdges (a : Adj) : List (Int × Nat × Nat) :=
  (a.foldl (fun acc p =>
    p.2.foldl (fun acc2 vw =>
      if p.1 ≠ vw.1 ∧ (vw.1, p.1) ∉ acc2.2 then
        (acc2.1 ++ [(vw.2, p.1, vw.1)], acc2.2 ++ [(p.1, vw.1)])
      else acc2) acc)
    (([], []) : List (Int × Nat × Nat) × List (Nat × Nat))).1

/-- Stable insertion sort by weight, a deterministic refinement of the
`std::sort`-by-weight whose tie order is unspecified. -/
def insertByWeight (e : Int × Nat × Nat) : List (Int × Nat × Nat) → List (Int × Nat × Nat)
  | [] => [e]
  | x :: t => if e.1 < x.1 then e :: x :: t else x :: insertByWeight e t

def sortByWeight (l : List (Int × Nat × Nat)) : List (Int × Nat × Nat) :=
  l.foldr insertByWeight []

/-- The dense re-indexing `vertexToIndex`: position in key order. -/
def vIndex (a : Adj) (v : Nat) : Nat := (keys a).indexOf v

/-- Kruskal's main loop over the sorted edges, threading the DSU. -/
def kruskalFold (a : Adj) (n : Nat) : List (Int × Nat × Nat) → DSU →
    List (Nat × Nat) → Int → Option (List (Nat × Nat) × Int × DSU)
  | [], d, es, tot => some (es, tot, d)
  | (w, u, v) :: rest, d, es, tot =>
    match findSet n d.parent (vIndex a u) with
    | none => none
    | some (su, par1) =>
      match findSet n par1 (vIndex a v) with
      | none => none
      | some (sv, par2) =>
        let d2 : DSU := ⟨par2, d.rnk⟩
        if su ≠ sv then
          match unionSets n d2 su sv with
          | none => none
          | some (_, d3) => kruskalFold a n rest d3 (es ++ [(u, v)]) (tot + w)
        else kruskalFold a n rest d2 es tot

def Graph.mst_kruskal (g : Graph) : Option (List (Nat × Nat) × Int) :=
  if g.adjList = [] then some ([], 0)
  else if g.directed then some ([], 0)
  else
    (kruskalFold g.adjList g.adjList.length (sortByWeight (collectEdges g.adjList))
      (DSU.init g.adjList.length) [] 0).map (fun r => (r.1, r.2.1))

/-! ### Boruvka (`Graph::mst_boruvka`) -/

/-- `cheapest[set] == -1 || get<0>(edges[cheapest[set]]) > w`. -/
def cheaperAt (edges : List (Int × Nat × Nat)) (ch : List (Option Nat))
    (setIdx : Nat) (w : Int) : Bool :=
  match ch.getD setIdx none with
  | none => true
  | some j => decide ((edges.getD j (0, 0, 0)).1 > w)

/-- One step of the per-round scan. -/
def boruvkaScanStep (a : Adj) (n : Nat) (edges : List (Int × Nat × Nat))
    (acc : Option (DSU × List (Option Nat))) (ie : Nat × (Int × Nat × Nat)) :
    Option (DSU × List (Option Nat)) :=
  match acc with
  | none => none
  | some (d, ch) =>
    match findSet n d.parent (vIndex a ie.2.2.1) with
    | none => none
    | some (s1, par1) =>
      match findSet n par1 (vIndex a ie.2.2.2) with
      | none => none
      | some (s2, par2) =>
        let d2 : DSU := ⟨par2, d.rnk⟩
        if s1 = s2 then some (d2, ch)
        else
          let ch1 := if cheaperAt edges ch s1 ie.2.1 then ch.set s1 (some ie.1) else ch
          let ch2 := if cheaperAt edges ch1 s2 ie.2.1 then ch1.set s2 (some ie.1) else ch1
          some (d2, ch2)

/-- The per-round scan recording, for each component root, the index of
its cheapest outgoing edge. -/
def boruvkaScan (a : Adj) (n : Nat) (edges : List (Int × Nat × Nat))
    (dsu : DSU) (ch : List (Option Nat)) : Option (DSU × List (Option Nat)) :=
  edges.enum.foldl (boruvkaScanStep a n edges) (some (dsu, ch))

/-- One step of the per-round commit. -/
def boruvkaCommitStep (a : Adj) (n : Nat) (edges : List (Int × Nat × Nat))
    (ch : List (Option Nat))
    (acc : Option (DSU × List (Nat × Nat) × Int × Nat × Bool)) (i : Nat) :
    Option (DSU × List (Nat × Nat) × Int × Nat × Bool) :=
  match acc with
  | none => none
  | some (d, es, tot, nt, anyU) =>
    match ch.getD i none with
    | none => some (d, es, tot, nt, anyU)
    | some j =>
      let e := edges.getD j (0, 0, 0)
      match findSet n d.parent (vIndex a e.2.1) with
      | none => none
      | some (s1, par1) =>
        match findSet n par1 (vIndex a e.2.2) with
        | none => none
        | some (s2, par2) =>
          let d2 : DSU := ⟨par2, d.rnk⟩
          if s1 = s2 then some (d2, es, tot, nt, anyU)
          else
            match unionSets n d2 s1 s2 with
            | none => none
            | some (b, d3) =>
              if b then some (d3, es ++ [(e.2.1, e.2.2)], tot + e.1, nt - 1, true)
              else some (d3, es, tot, nt, anyU)

/-- The per-round commit: for each component index, re-check and union
along its recorded cheapest edge, admitting it on success. -/
def boruvkaCommit (a : Adj) (n : Nat) (edges : List (Int × Nat × Nat))
    (ch : List (Option Nat)) (dsu : DSU) (es : List (Nat × Nat)) (tot : Int)
    (numTrees : Nat) (anyUnion : Bool) :
    Option (DSU × List (Nat × Nat) × Int × Nat × Bool) :=
  (List.range n).foldl (boruvkaCommitStep a n edges ch)
    (some (dsu, es, tot, numTrees, anyUnion))

/-- The Boruvka outer loop: repeat rounds while more than one tree
remains, stopping early when a round makes no union. -/
def boruvkaLoop (a : Adj) (n : Nat) (edges : List (Int × Nat × Nat)) :
    Nat → DSU → List (Nat × Nat) → Int → Nat → Option (List (Nat × Nat) × Int)
  | 0, _, _, _, _ => none
  | fuel + 1, dsu, es, tot, numTrees =>
    if numTrees > 1 then
      match boruvkaScan a n edges dsu (List.replicate n none) with
      | none => none
      | some (dsu1, ch) =>
        match boruvkaCommit a n edges ch dsu1 es tot numTrees false with
        | none => none
        | some (dsu2, es2, tot2, nt2, anyU) =>
          if anyU then boruvkaLoop a n edges fuel dsu2 es2 tot2 nt2
          else some (es2, tot2)
    else some (es, tot)

def Graph.mst_boruvka (g : Graph) : Option (List (Nat × Nat) × Int) :=
  if g.directed then some ([], 0)
  else if g.adjList.length = 0 then some ([], 0)
  else
    boruvkaLoop g.adjList g.adjList.length (collectEdges g.adjList)
      (g.adjList.length + 1) (DSU.init g.adjList.length) [] 0 g.adjList.length

/-- `WeightedEdges a es tot`: the edge list `es` can be annotated with
weights of actual stored non-loop edges summing to `tot`.  This is how
"self-loops never contribute to the total weight" is expressed. -/
def WeightedEdges (a : Adj) (es : List (Nat × Nat)) (tot : Int) : Prop :=
  ∃ ws : List Int, ws.length = es.length ∧
    (∀ p ∈ es.zip ws, (p.1.2, p.2) ∈ adjOf a p.1.1 ∧ p.1.1 ≠ p.1.2) ∧
    tot = ws.sum

/-- `parent[v]` as read by `find_set` (out-of-range reads modeled as
self-parent, which under the DSU well-formedness never happens for
in-range indices). -/
def parAt (par : List Nat) (v : Nat) : Nat := par.getD v v

/-- Iterated parent pointer. -/
def parIter (par : List Nat) : Nat → Nat → Nat
  | 0, v => v
  | k + 1, v => parIter par k (parAt par v)

/-- `v` is a root: `parent[v] = v`. -/
def IsRootP (par : List Nat) (v : Nat) : Prop := parAt par v = v

/-- The chain from `v` reaches the root `r`. -/
def RootedAt (par : List Nat) (v r : Nat) : Prop :=
  ∃ k, parIter par k v = r ∧ IsRootP par r

/-- Well-formedness of a DSU parent array over `n` elements: correct
length, in-range parent pointers, and every chain reaches a root. -/
def DsuWf (n : Nat) (par : List Nat) : Prop :=
  par.length = n ∧ (∀ i, i < n → parAt par i < n) ∧
  (∀ v, v < n → ∃ k, IsRootP par (parIter par k v))

/-- The equivalence the DSU tracks: same root. -/
def dsuRel (par : List Nat) (x y : Nat) : Prop :=
  ∃ r, RootedAt par x r ∧ RootedAt par y r

/-- The set of DSU roots among the live indices `0 .. n-1`. -/
def rootsBelow (n : Nat) (par : List Nat) : Finset Nat :=
  (Finset.range n).filter (fun i => parAt par i = i)

/-- The edges of `E`, viewed as unordered pairs of dense vertex indices. -/
def edgeRelIx (a : Adj) (E : List (Int × Nat × Nat)) (i j : Nat) : Prop :=
  ∃ e ∈ E, (i = vIndex a e.2.1 ∧ j = vIndex a e.2.2) ∨
    (i = vIndex a e.2.2 ∧ j = vIndex a e.2.1)


/-- Strict lexicographic order on a weight together with three natural
tie-break components. -/
def keyLt (x y : Int × Nat × Nat × Nat) : Prop :=
  x.1 < y.1 ∨ (x.1 = y.1 ∧ (x.2.1 < y.2.1 ∨ (x.2.1 = y.2.1 ∧
    (x.2.2.1 < y.2.2.1 ∨ (x.2.2.1 = y.2.2.1 ∧ x.2.2.2 < y.2.2.2)))))

instance (x y : Int × Nat × Nat × Nat) : Decidable (keyLt x y) := by
  unfold keyLt
  infer_instance

/-- One edge of the (indexed) selection `P` joins `x` and `y`, in either
orientation. -/
def eStepP (P : Nat × (Int × Nat × Nat) → Prop) (x y : Nat) : Prop :=
  ∃ ie, P ie ∧ ((ie.2.2.1 = x ∧ ie.2.2.2 = y) ∨ (ie.2.2.2 = x ∧ ie.2.2.1 = y))

/-- Connectivity through the selected indexed edges. -/
def eConnP (P : Nat × (Int × Nat × Nat) → Prop) (x y : Nat) : Prop :=
  Relation.EqvGen (eStepP P) x y

/-- The entries of `L0` whose key is strictly below that of `ie`. -/
def lighterP (k : Nat × (Int × Nat × Nat) → Int × Nat × Nat × Nat)
    (L0 : List (Nat × (Int × Nat × Nat))) (ie : Nat × (Int × Nat × Nat)) :
    Nat × (Int × Nat × Nat) → Prop :=
  fun je => je ∈ L0 ∧ keyLt (k je) (k ie)

/-- `ie` belongs to the canonical minimum spanning structure for the
tie-break key `k`: it is an indexed edge of `L0` whose endpoints the
strictly lighter edges do not already connect. -/
def TstarMem (k : Nat × (Int × Nat × Nat) → Int × Nat × Nat × Nat)
    (L0 : List (Nat × (Int × Nat × Nat))) (ie : Nat × (Int × Nat × Nat)) : Prop :=
  ie ∈ L0 ∧ ¬ eConnP (lighterP k L0 ie) ie.2.2.1 ie.2.2.2

/-- Insertion into a list sorted by `keyLt` of the image under `k`. -/
def insertByKey (k : Nat × (Int × Nat × Nat) → Int × Nat × Nat × Nat)
    (e : Nat × (Int × Nat × Nat)) :
    List (Nat × (Int × Nat × Nat)) → List (Nat × (Int × Nat × Nat))
  | [] => [e]
  | x :: t => if keyLt (k e) (k x) then e :: x :: t else x :: insertByKey k e t

/-- Insertion sort by `keyLt` of the image under `k`. -/
def sortByKey (k : Nat × (Int × Nat × Nat) → Int × Nat × Nat × Nat)
    (l : List (Nat × (Int × Nat × Nat))) : List (Nat × (Int × Nat × Nat)) :=
  l.foldr (insertByKey k) []

/-- Connectivity through an (undirected) list of vertex pairs, as returned
by the MST algorithms. -/
def pairConn (es : List (Nat × Nat)) (x y : Nat) : Prop :=
  Relation.EqvGen (fun p q => (p, q) ∈ es ∨ (q, p) ∈ es) x y

/-- Connectivity through the collected edges of weight at most `c`. -/
def lightConn (a : Adj) (c : Int) (x y : Nat) : Prop :=
  eConnP (fun ie => ie ∈ (collectEdges a).enum ∧ ie.2.1 ≤ c) x y

/-- The number of connectivity classes of the weight-`≤ c` subgraph. -/
noncomputable def lightClasses (a : Adj) (c : Int) : Nat :=
  Set.ncard ((fun v => {u | u ∈ keys a ∧ lightConn a c v u}) '' {v | v ∈ keys a})

/-- Total adjacency length of entries whose key is not yet settled;
the decreasing part of Prim\'s termination measure. -/
def usum (a : Adj) (s : List Nat) : Nat :=
  (a.map (fun p => if p.1 ∈ s then 0 else p.2.length)).sum

/-- The number of weight-`≤ c` connectivity classes met by the settled
set `s`. -/
noncomputable def hitCount (a : Adj) (c : Int) (s : List Nat) : Nat :=
  Set.ncard ((fun v => {u | u ∈ keys a ∧ lightConn a c v u}) '' {v | v ∈ s})

/-- The indexed edge `je` crosses the component of root `i` in the
parent forest `par0`: exactly one endpoint's dense index is rooted at
`i`. -/
def CrossAt (a : Adj) (par0 : List Nat) (i : Nat)
    (je : Nat × (Int × Nat × Nat)) : Prop :=
  (RootedAt par0 (vIndex a je.2.2.1) i ∧
    ¬ RootedAt par0 (vIndex a je.2.2.2) i) ∨
  (RootedAt par0 (vIndex a je.2.2.2) i ∧
    ¬ RootedAt par0 (vIndex a je.2.2.1) i)

/-- Boruvka's cheapest-edge table is sound and complete for the
processed entries `P`: a recorded index names a crossing entry of
minimal (weight, scan position) key, and an empty slot attests that no
processed entry crosses that component. -/
def ChInv (a : Adj) (par0 : List Nat) (P : List (Nat × (Int × Nat × Nat)))
    (ch : List (Option Nat)) : Prop :=
  (∀ i j, ch.getD i none = some j →
    ∃ je ∈ P, je.1 = j ∧ CrossAt a par0 i je ∧
      ∀ ke ∈ P, CrossAt a par0 i ke →
        ¬ keyLt (ke.2.1, ke.1, 0, 0) (je.2.1, je.1, 0, 0)) ∧
  (∀ i, ch.getD i none = none → ∀ je ∈ P, ¬ CrossAt a par0 i je)

/-- Graph connectivity between vertices, generated from stored edges. -/
def ConnV (a : Adj) (x y : Nat) : Prop :=
  Relation.EqvGen (fun u v => ∃ w : Int, (v, w) ∈ adjOf a u) x y

/-- The vertex at dense index `i` (inverse of `vIndex`). -/
def keyAt (a : Adj) (i : Nat) : Nat := (keys a).getD i 0

/-- The number of connected components of the graph: the number of
distinct connectivity classes of registered vertices. -/
noncomputable def componentCount (a : Adj) : Nat :=
  Set.ncard ((fun v => {u | u ∈ keys a ∧ ConnV a v u}) '' {v | v ∈ keys a})

/-- A walk in the adjacency structure from `s` to `v` of total weight `c`. -/
inductive Walk (a : Adj) : Nat → Nat → Int → Prop
  | refl (v : Nat) : Walk a v v 0
  | step {s u : Nat} {c : Int} {v : Nat} {w : Int} :
      Walk a s u c → (v, w) ∈ adjOf a u → Walk a s v (c + w)

/-- Reachability along stored edges. -/
def Reach (a : Adj) (s v : Nat) : Prop := ∃ c, Walk a s v c

/-- `CostedPath a s p e c`: `p` is a vertex sequence from `s` to `e`,
each consecutive pair is a stored edge, and the weights of the used
edges sum to `c`. -/
inductive CostedPath (a : Adj) : Nat → List Nat → Nat → Int → Prop
  | single (v : Nat) : CostedPath a v [v] v 0
  | cons {u v t : Nat} {w : Int} {rest : List Nat} {c : Int} :
      (v, w) ∈ adjOf a u → CostedPath a v rest t c → CostedPath a u (u :: rest) t (w + c)

/-- Settled vertex: every outgoing edge is fully relaxed. -/
def Settled (aG : Adj) (dist : DistMap) (u : Nat) (xu : WithTop Int) : Prop :=
  ∀ vw ∈ adjOf aG u, ∃ y, lookupM vw.1 dist = some y ∧ y ≤ xu + (vw.2 : WithTop Int)

/-- Settledness restricted to a processed prefix of the neighbor list,
measured against the vertex's current distance. -/
def SettledOn (dist : DistMap) (du : WithTop Int) (done : Nbrs) : Prop :=
  ∀ vw ∈ done, ∃ y, lookupM vw.1 dist = some y ∧ y ≤ du + (vw.2 : WithTop Int)

/-- Core loop invariant of the Dijkstra loop over base graph `aG` with
start `s`: every graph vertex has a distance binding; the start's
distance is bound and never exceeds `0`; every queue entry's vertex is
registered and its priority dominates the current bound distance; every
finite distance is realized by an actual walk from `s`; and every
finite-distance vertex other than `s` has a parent whose recorded edge
lower-bounds its distance. -/
def CoreInv (aG : Adj) (s : Nat) (dist : DistMap) (par : ParMap)
    (pq : List (WithTop Int × Nat)) : Prop :=
  (∀ k ∈ keys aG, ∃ x, lookupM k dist = some x) ∧
  (∃ xs, lookupM s dist = some xs ∧ xs ≤ 0) ∧
  (∀ x ∈ pq, x.2 ∈ keys aG ∧ ∃ y, lookupM x.2 dist = some y ∧ y ≤ x.1) ∧
  (∀ v : Nat, ∀ c : Int, lookupM v dist = some (c : WithTop Int) → Walk aG s v c) ∧
  (∀ v x, lookupM v dist = some x → x ≠ ⊤ → v ≠ s →
    ∃ p w y, lookupM v par = some p ∧ (v, w) ∈ adjOf aG p ∧
      lookupM p dist = some y ∧ y + (w : WithTop Int) ≤ x)

/-- Lazy-deletion invariant: every finite-distance vertex is either
still queued at its current distance or already settled. -/
def Inv1 (aG : Adj) (dist : DistMap) (pq : List (WithTop Int × Nat)) : Prop :=
  ∀ u xu, lookupM u dist = some xu → xu ≠ ⊤ → ((xu, u) ∈ pq ∨ Settled aG dist u xu)

/-! ### Lemmas about the association-list map operations -/

theorem keys_cons (p : Nat × Nbrs) (t : Adj) : keys (p :: t) = p.1 :: keys t := rfl

theorem mem_keys_cons {x : Nat} {p : Nat × Nbrs} {t : Adj} :
    x ∈ keys (p :: t) ↔ x = p.1 ∨ x ∈ keys t := by
  rw [keys_cons, List.mem_cons]

theorem lookupA_eq_none (u : Nat) (a : Adj) : lookupA u a = none ↔ u ∉ keys a := by
  induction a with
  | nil => simp [lookupA, keys]
  | cons p t ih =>
    obtain ⟨k, ns⟩ := p
    by_cases h : u = k
    · simp [lookupA, h, mem_keys_cons]
    · simp [lookupA, h, mem_keys_cons, ih]

theorem lookupA_isSome (u : Nat) (a : Adj) : (lookupA u a).isSome ↔ u ∈ keys a := by
  induction a with
  | nil => simp [lookupA, keys]
  | cons p t ih =>
    obtain ⟨k, ns⟩ := p
    by_cases h : u = k
    · simp [lookupA, h, mem_keys_cons]
    · simp [lookupA, h, mem_keys_cons, ih]

theorem sortedA_head_lt {k : Nat} {ns : Nbrs} {t : Adj}
    (h : SortedA ((k, ns) :: t)) : ∀ x ∈ keys t, k < x := by
  have h' : List.Pairwise (· < ·) (k :: keys t) := h
  exact (List.pairwise_cons.mp h').1

theorem sortedA_tail {k : Nat} {ns : Nbrs} {t : Adj}
    (h : SortedA ((k, ns) :: t)) : SortedA t := by
  have h' : List.Pairwise (· < ·) (k :: keys t) := h
  exact (List.pairwise_cons.mp h').2

theorem sortedA_cons {k : Nat} {ns : Nbrs} {t : Adj}
    (h1 : ∀ x ∈ keys t, k < x) (h2 : SortedA t) : SortedA ((k, ns) :: t) := by
  show List.Pairwise (· < ·) (k :: keys t)
  exact List.pairwise_cons.mpr ⟨h1, h2⟩

theorem tryEmplace_of_mem {a : Adj} {v : Nat} (hs : SortedA a)
    (hv : v ∈ keys a) : tryEmplace v a = a := by
  induction a with
  | nil => simp [keys] at hv
  | cons p t ih =>
    obtain ⟨k, ns⟩ := p
    rcases mem_keys_cons.mp hv with h | h
    · simp [tryEmplace, h]
    · have hk : k < v := sortedA_head_lt hs v h
      have h1 : ¬ v < k := by omega
      have h2 : ¬ v = k := by omega
      simp [tryEmplace, h1, h2, ih (sortedA_tail hs) h]

theorem tryEmplace_cons_lt {v k : Nat} {ns : Nbrs} {t : Adj} (h : v < k) :
    tryEmplace v ((k, ns) :: t) = (v, []) :: (k, ns) :: t := by
  simp [tryEmplace, h]

theorem tryEmplace_cons_eq {v k : Nat} {ns : Nbrs} {t : Adj} (h : v = k) :
    tryEmplace v ((k, ns) :: t) = (k, ns) :: t := by
  have h1 : ¬ v < k := by omega
  simp [tryEmplace, h1, h]

theorem tryEmplace_cons_gt {v k : Nat} {ns : Nbrs} {t : Adj} (h : k < v) :
    tryEmplace v ((k, ns) :: t) = (k, ns) :: tryEmplace v t := by
  have h1 : ¬ v < k := by omega
  have h2 : ¬ v = k := by omega
  simp [tryEmplace, h1, h2]

theorem mem_keys_tryEmplace {a : Adj} {v x : Nat} :
    x ∈ keys (tryEmplace v a) ↔ x = v ∨ x ∈ keys a := by
  induction a with
  | nil => simp [tryEmplace, keys]
  | cons p t ih =>
    obtain ⟨k, ns⟩ := p
    rcases Nat.lt_trichotomy v k with h | h | h
    · rw [tryEmplace_cons_lt h]
      simp only [mem_keys_cons]
      try tauto
    · rw [tryEmplace_cons_eq h]
      simp only [mem_keys_cons]
      subst h
      try tauto
    · rw [tryEmplace_cons_gt h]
      simp only [mem_keys_cons] at ih ⊢
      try tauto

theorem sortedA_tryEmplace {a : Adj} {v : Nat} (hs : SortedA a) :
    SortedA (tryEmplace v a) := by
  induction a with
  | nil => simp [tryEmplace, SortedA, keys]
  | cons p t ih =>
    obtain ⟨k, ns⟩ := p
    rcases Nat.lt_trichotomy v k with h | h | h
    · rw [tryEmplace_cons_lt h]
      refine sortedA_cons ?_ hs
      intro x hx
      rcases mem_keys_cons.mp hx with h2 | h2
      · simp only at h2; omega
      · exact lt_trans h (sortedA_head_lt hs x h2)
    · rw [tryEmplace_cons_eq h]
      exact hs
    · rw [tryEmplace_cons_gt h]
      refine sortedA_cons ?_ (ih (sortedA_tail hs))
      intro x hx
      rcases mem_keys_tryEmplace.mp hx with h2 | h2
      · omega
      · exact sortedA_head_lt hs x h2

theorem lookupA_tryEmplace_absent {a : Adj} {v : Nat} (hv : v ∉ keys a) :
    ∀ k, lookupA k (tryEmplace v a) =
      if k = v then some [] else lookupA k a := by
  induction a with
  | nil => intro k; simp [tryEmplace, lookupA]
  | cons p t ih =>
    obtain ⟨kk, ns⟩ := p
    have hv1 : v ≠ kk := fun h => hv (mem_keys_cons.mpr (Or.inl h))
    have hv2 : v ∉ keys t := fun h => hv (mem_keys_cons.mpr (Or.inr h))
    intro k
    rcases Nat.lt_trichotomy v kk with h | h | h
    · rw [tryEmplace_cons_lt h]
      by_cases hk : k = v
      · simp [lookupA, hk]
      · by_cases hkk : k = kk
        · simp [lookupA, hk, hkk]
        · simp [lookupA, hk, hkk]
    · exact absurd h hv1
    · rw [tryEmplace_cons_gt h]
      by_cases hkk : k = kk
      · have hk : ¬ k = v := by omega
        have hk2 : ¬ kk = v := by omega
        simp [lookupA, hkk, hk, hk2]
      · simp only [lookupA, if_neg hkk]
        exact ih hv2 k

theorem lookupA_tryEmplace {a : Adj} {v : Nat} (hs : SortedA a) :
    ∀ k, lookupA k (tryEmplace v a) =
      if k = v then some ((lookupA v a).getD []) else lookupA k a := by
  intro k
  by_cases hv : v ∈ keys a
  · rw [tryEmplace_of_mem hs hv]
    rcases h : lookupA v a with _ | ns
    · exact absurd ((lookupA_eq_none v a).mp h) (by simpa using hv)
    · by_cases hk : k = v <;> simp [hk, h]
  · rw [lookupA_tryEmplace_absent hv k]
    rw [(lookupA_eq_none v a).mpr hv]
    rfl

theorem pushBackAt_cons_lt {u k : Nat} {e : Nat × Int} {ns : Nbrs} {t : Adj}
    (h : u < k) :
    pushBackAt u e ((k, ns) :: t) = (u, [e]) :: (k, ns) :: t := by
  simp [pushBackAt, h]

theorem pushBackAt_cons_eq {u k : Nat} {e : Nat × Int} {ns : Nbrs} {t : Adj}
    (h : u = k) :
    pushBackAt u e ((k, ns) :: t) = (k, ns ++ [e]) :: t := by
  have h1 : ¬ u < k := by omega
  simp [pushBackAt, h1, h]

theorem pushBackAt_cons_gt {u k : Nat} {e : Nat × Int} {ns : Nbrs} {t : Adj}
    (h : k < u) :
    pushBackAt u e ((k, ns) :: t) = (k, ns) :: pushBackAt u e t := by
  have h1 : ¬ u < k := by omega
  have h2 : ¬ u = k := by omega
  simp [pushBackAt, h1, h2]

theorem mem_keys_pushBackAt {a : Adj} {u x : Nat} {e : Nat × Int} :
    x ∈ keys (pushBackAt u e a) ↔ x = u ∨ x ∈ keys a := by
  induction a with
  | nil => simp [pushBackAt, keys]
  | cons p t ih =>
    obtain ⟨k, ns⟩ := p
    rcases Nat.lt_trichotomy u k with h | h | h
    · rw [pushBackAt_cons_lt h]
      simp only [mem_keys_cons]
      try tauto
    · rw [pushBackAt_cons_eq h]
      simp only [mem_keys_cons]
      subst h
      try tauto
    · rw [pushBackAt_cons_gt h]
      simp only [mem_keys_cons] at ih ⊢
      try tauto

theorem sortedA_pushBackAt {a : Adj} {u : Nat} {e : Nat × Int} (hs : SortedA a) :
    SortedA (pushBackAt u e a) := by
  induction a with
  | nil => simp [pushBackAt, SortedA, keys]
  | cons p t ih =>
    obtain ⟨k, ns⟩ := p
    rcases Nat.lt_trichotomy u k with h | h | h
    · rw [pushBackAt_cons_lt h]
      refine sortedA_cons ?_ hs
      intro x hx
      rcases mem_keys_cons.mp hx with h2 | h2
      · simp only at h2; omega
      · exact lt_trans h (sortedA_head_lt hs x h2)
    · rw [pushBackAt_cons_eq h]
      exact sortedA_cons (sortedA_head_lt hs) (sortedA_tail hs)
    · rw [pushBackAt_cons_gt h]
      refine sortedA_cons ?_ (ih (sortedA_tail hs))
      intro x hx
      rcases mem_keys_pushBackAt.mp hx with h2 | h2
      · omega
      · exact sortedA_head_lt hs x h2

theorem lookupA_pushBackAt {a : Adj} {u : Nat} {e : Nat × Int} (hs : SortedA a) :
    ∀ k, lookupA k (pushBackAt u e a) =
      if k = u then some ((lookupA u a).getD [] ++ [e]) else lookupA k a := by
  induction a with
  | nil => intro k; simp [pushBackAt, lookupA]
  | cons p t ih =>
    obtain ⟨kk, ns⟩ := p
    intro k
    rcases Nat.lt_trichotomy u kk with h | h | h
    · have hukk : u ∉ keys ((kk, ns) :: t) := by
        intro hmem
        rcases mem_keys_cons.mp hmem with h2 | h2
        · simp only at h2; omega
        · exact absurd (sortedA_head_lt hs u h2) (by omega)
      rw [pushBackAt_cons_lt h]
      have h3 : ¬ kk = u := by omega
      have h4 : ¬ u = kk := by omega
      by_cases hk : k = u
      · subst hk
        rw [(lookupA_eq_none k _).mpr hukk]
        simp [lookupA]
      · by_cases hkk : k = kk
        · simp [lookupA, hk, hkk, h3, h4]
        · simp [lookupA, hk, hkk]
    · subst h
      rw [pushBackAt_cons_eq rfl]
      by_cases hk : k = u
      · subst hk
        simp [lookupA]
      · simp [lookupA, hk]
    · rw [pushBackAt_cons_gt h]
      have h3 : ¬ kk = u := by omega
      have h4 : ¬ u = kk := by omega
      by_cases hkk : k = kk
      · have hku : ¬ k = u := by omega
        simp [lookupA, hkk, hku, h3, h4]
      · simp only [lookupA, if_neg hkk]
        rw [ih (sortedA_tail hs) k]
        simp [h4]

theorem eraseEdgesAt_cons_eq {u kk : Nat} (target : Nat) {ns : Nbrs} {t : Adj}
    (h : kk = u) :
    eraseEdgesAt u target ((kk, ns) :: t) =
      (kk, dropTarget target ns) :: eraseEdgesAt u target t := by
  simp [eraseEdgesAt, h]

theorem eraseEdgesAt_cons_ne {u kk : Nat} (target : Nat) {ns : Nbrs} {t : Adj}
    (h : ¬ kk = u) :
    eraseEdgesAt u target ((kk, ns) :: t) =
      (kk, ns) :: eraseEdgesAt u target t := by
  simp [eraseEdgesAt, h]

theorem lookupA_eraseEdgesAt (u target : Nat) (a : Adj) :
    ∀ k, lookupA k (eraseEdgesAt u target a) =
      if k = u then (lookupA u a).map (dropTarget target) else lookupA k a := by
  induction a with
  | nil => intro k; simp [eraseEdgesAt, lookupA]
  | cons p t ih =>
    obtain ⟨kk, ns⟩ := p
    intro k
    by_cases hkku : kk = u
    · rw [eraseEdgesAt_cons_eq target hkku]
      subst hkku
      by_cases hk : k = kk
      · subst hk
        simp [lookupA]
      · simp [lookupA, hk, ih k]
    · rw [eraseEdgesAt_cons_ne target hkku]
      have hukk : ¬ u = kk := fun hh => hkku hh.symm
      by_cases hk : k = kk
      · subst hk
        have hku : ¬ k = u := hkku
        simp [lookupA, hkku, hku]
      · simp [lookupA, hkku, hk, hukk, ih k]

theorem mem_dropTarget {target : Nat} {ns : Nbrs} {e : Nat × Int} :
    e ∈ dropTarget target ns ↔ e ∈ ns ∧ e.1 ≠ target := by
  simp [dropTarget]

/-! ### Claims about the mutation operations -/

/-- C6: `add_edge(u,v,w)` registers both endpoints (inserting them if
absent), appends the entry `(v,w)` to `u`'s neighbor list, appends the
mirror entry `(u,w)` to `v`'s neighbor list exactly when the graph is
undirected and `u ≠ v`, and stores a self-loop (`u = v`) exactly once,
never mirrored. -/
theorem claim_C6 (g : Graph) (u v : Nat) (w : Int) (hs : SortedA g.adjList) :
    u ∈ keys (g.add_edge u v w).adjList ∧
    v ∈ keys (g.add_edge u v w).adjList ∧
    lookupA u (g.add_edge u v w).adjList = some (adjOf g.adjList u ++ [(v, w)]) ∧
    (g.directed = false → u ≠ v →
      lookupA v (g.add_edge u v w).adjList = some (adjOf g.adjList v ++ [(u, w)])) ∧
    (g.directed = true → u ≠ v →
      lookupA v (g.add_edge u v w).adjList = some (adjOf g.adjList v)) ∧
    (u = v → lookupA v (g.add_edge u v w).adjList = some (adjOf g.adjList v ++ [(v, w)])) := by
  have s0 : SortedA (tryEmplace u g.adjList) := sortedA_tryEmplace hs
  have s1 : SortedA (tryEmplace v (tryEmplace u g.adjList)) := sortedA_tryEmplace s0
  have s2 : SortedA (pushBackAt u (v, w) (tryEmplace v (tryEmplace u g.adjList))) :=
    sortedA_pushBackAt s1
  show _ ∧ _ ∧ _ ∧ _ ∧ _ ∧ _
  simp only [Graph.add_edge, Graph.add_vertex]
  by_cases hc : g.directed = false ∧ u ≠ v
  · have hne : u ≠ v := hc.2
    have hnevu : ¬ v = u := fun h => hne h.symm
    simp only [if_pos hc]
    refine ⟨?_, ?_, ?_, ?_, ?_, ?_⟩
    · exact mem_keys_pushBackAt.mpr (Or.inr (mem_keys_pushBackAt.mpr (Or.inl rfl)))
    · exact mem_keys_pushBackAt.mpr (Or.inl rfl)
    · rw [lookupA_pushBackAt s2 u, if_neg (fun h => hne h)]
      rw [lookupA_pushBackAt s1 u, if_pos rfl]
      rw [lookupA_tryEmplace s0 u, if_neg (fun h => hne h)]
      rw [lookupA_tryEmplace hs u, if_pos rfl]
      rfl
    · intro _ _
      rw [lookupA_pushBackAt s2 v, if_pos rfl]
      rw [lookupA_pushBackAt s1 v, if_neg hnevu]
      rw [lookupA_tryEmplace s0 v, if_pos rfl]
      rw [lookupA_tryEmplace hs v]
      by_cases hvu : v = u
      · exact absurd hvu hnevu
      · rw [if_neg hvu]
        rfl
    · intro hd
      rw [hd] at hc
      exact absurd hc.1 (by simp)
    · intro h
      exact absurd h hne
  · simp only [if_neg hc]
    by_cases huv : u = v
    · subst huv
      refine ⟨?_, ?_, ?_, ?_, ?_, ?_⟩
      · exact mem_keys_pushBackAt.mpr (Or.inl rfl)
      · exact mem_keys_pushBackAt.mpr (Or.inl rfl)
      · rw [lookupA_pushBackAt s1 u, if_pos rfl]
        rw [lookupA_tryEmplace s0 u, if_pos rfl]
        rw [lookupA_tryEmplace hs u]
        simp [adjOf]
      · intro _ h
        exact absurd rfl h
      · intro _ h
        exact absurd rfl h
      · intro _
        rw [lookupA_pushBackAt s1 u, if_pos rfl]
        rw [lookupA_tryEmplace s0 u, if_pos rfl]
        rw [lookupA_tryEmplace hs u]
        simp [adjOf]
    · have hd : g.directed = true := by
        rcases Bool.eq_false_or_eq_true g.directed with h | h
        · exact h
        · exact absurd ⟨h, huv⟩ hc
      have hnevu : ¬ v = u := fun h => huv h.symm
      refine ⟨?_, ?_, ?_, ?_, ?_, ?_⟩
      · exact mem_keys_pushBackAt.mpr
          (Or.inr (mem_keys_tryEmplace.mpr (Or.inr (mem_keys_tryEmplace.mpr (Or.inl rfl)))))
      · exact mem_keys_pushBackAt.mpr (Or.inr (mem_keys_tryEmplace.mpr (Or.inl rfl)))
      · rw [lookupA_pushBackAt s1 u, if_pos rfl]
        rw [lookupA_tryEmplace s0 u, if_neg huv]
        rw [lookupA_tryEmplace hs u, if_pos rfl]
        rfl
      · intro hdf _
        rw [hd] at hdf
        exact absurd hdf (by simp)
      · intro _ _
        rw [lookupA_pushBackAt s1 v, if_neg hnevu]
        rw [lookupA_tryEmplace s0 v, if_pos rfl]
        rw [lookupA_tryEmplace hs v, if_neg hnevu]
        rfl
      · intro h
        exact absurd h huv

/-- Witness instantiating `claim_C6` on the concrete graph `gW` with a
fresh endpoint. -/
theorem claim_C6_witness :
    (1 : Nat) ∈ keys (gW.add_edge 1 3 7).adjList ∧
    (3 : Nat) ∈ keys (gW.add_edge 1 3 7).adjList ∧
    lookupA 1 (gW.add_edge 1 3 7).adjList = some (adjOf gW.adjList 1 ++ [(3, 7)]) ∧
    (gW.directed = false → (1 : Nat) ≠ 3 →
      lookupA 3 (gW.add_edge 1 3 7).adjList = some (adjOf gW.adjList 3 ++ [(1, 7)])) ∧
    (gW.directed = true → (1 : Nat) ≠ 3 →
      lookupA 3 (gW.add_edge 1 3 7).adjList = some (adjOf gW.adjList 3)) ∧
    ((1 : Nat) = 3 → lookupA 3 (gW.add_edge 1 3 7).adjList = some (adjOf gW.adjList 3 ++ [(3, 7)])) :=
  claim_C6 gW 1 3 7 (by decide)

/-- C7: `remove_edge(u,v)` removes every entry of `u`'s neighbor list
targeting `v` (all parallel copies, keeping the others in order), does
the same on `v → u` exactly when the graph is undirected and `u ≠ v`,
and leaves every other vertex's neighbor list unchanged. -/
theorem claim_C7 (g : Graph) (u v : Nat) :
    lookupA u (g.remove_edge u v).adjList = (lookupA u g.adjList).map (dropTarget v) ∧
    (∀ ns, lookupA u (g.remove_edge u v).adjList = some ns → ∀ e ∈ ns, e.1 ≠ v) ∧
    (g.directed = false → u ≠ v →
      lookupA v (g.remove_edge u v).adjList = (lookupA v g.adjList).map (dropTarget u) ∧
      (∀ ns, lookupA v (g.remove_edge u v).adjList = some ns → ∀ e ∈ ns, e.1 ≠ u)) ∧
    ((g.directed = true ∨ u = v) → ∀ k, k ≠ u →
      lookupA k (g.remove_edge u v).adjList = lookupA k g.adjList) ∧
    (∀ k, k ≠ u → k ≠ v → lookupA k (g.remove_edge u v).adjList = lookupA k g.adjList) := by
  simp only [Graph.remove_edge]
  by_cases hc : g.directed = false ∧ u ≠ v
  · have hne : u ≠ v := hc.2
    have hnevu : ¬ v = u := fun h => hne h.symm
    simp only [if_pos hc]
    refine ⟨?_, ?_, ?_, ?_, ?_⟩
    · rw [lookupA_eraseEdgesAt v u _ u, if_neg (fun h => hne h)]
      rw [lookupA_eraseEdgesAt u v _ u, if_pos rfl]
    · intro ns hns e he
      rw [lookupA_eraseEdgesAt v u _ u, if_neg (fun h => hne h)] at hns
      rw [lookupA_eraseEdgesAt u v _ u, if_pos rfl] at hns
      rcases hl : lookupA u g.adjList with _ | ns0
      · rw [hl] at hns; exact Option.noConfusion hns
      · rw [hl] at hns
        have : ns = dropTarget v ns0 := by
          simpa using hns.symm
        rw [this] at he
        exact (mem_dropTarget.mp he).2
    · intro _ _
      constructor
      · rw [lookupA_eraseEdgesAt v u _ v, if_pos rfl]
        rw [lookupA_eraseEdgesAt u v _ v, if_neg hnevu]
      · intro ns hns e he
        rw [lookupA_eraseEdgesAt v u _ v, if_pos rfl] at hns
        rw [lookupA_eraseEdgesAt u v _ v, if_neg hnevu] at hns
        rcases hl : lookupA v g.adjList with _ | ns0
        · rw [hl] at hns; exact Option.noConfusion hns
        · rw [hl] at hns
          have : ns = dropTarget u ns0 := by
            simpa using hns.symm
          rw [this] at he
          exact (mem_dropTarget.mp he).2
    · intro hd k _
      rcases hd with hd | hd
      · rw [hd] at hc
        exact absurd hc.1 (by simp)
      · exact absurd hd hne
    · intro k hku hkv
      rw [lookupA_eraseEdgesAt v u _ k, if_neg hkv]
      rw [lookupA_eraseEdgesAt u v _ k, if_neg hku]
  · simp only [if_neg hc]
    refine ⟨?_, ?_, ?_, ?_, ?_⟩
    · rw [lookupA_eraseEdgesAt u v _ u, if_pos rfl]
    · intro ns hns e he
      rw [lookupA_eraseEdgesAt u v _ u, if_pos rfl] at hns
      rcases hl : lookupA u g.adjList with _ | ns0
      · rw [hl] at hns; exact Option.noConfusion hns
      · rw [hl] at hns
        have : ns = dropTarget v ns0 := by
          simpa using hns.symm
        rw [this] at he
        exact (mem_dropTarget.mp he).2
    · intro hdf hne
      exact absurd ⟨hdf, hne⟩ hc
    · intro _ k hku
      rw [lookupA_eraseEdgesAt u v _ k, if_neg hku]
    · intro k hku _
      rw [lookupA_eraseEdgesAt u v _ k, if_neg hku]

/-- Witness instantiating `claim_C7` on the concrete graph `gW`. -/
theorem claim_C7_witness :
    lookupA 1 (gW.remove_edge 1 2).adjList = (lookupA 1 gW.adjList).map (dropTarget 2) ∧
    (∀ ns, lookupA 1 (gW.remove_edge 1 2).adjList = some ns → ∀ e ∈ ns, e.1 ≠ 2) ∧
    (gW.directed = false → (1 : Nat) ≠ 2 →
      lookupA 2 (gW.remove_edge 1 2).adjList = (lookupA 2 gW.adjList).map (dropTarget 1) ∧
      (∀ ns, lookupA 2 (gW.remove_edge 1 2).adjList = some ns → ∀ e ∈ ns, e.1 ≠ 1)) ∧
    ((gW.directed = true ∨ (1 : Nat) = 2) → ∀ k, k ≠ 1 →
      lookupA k (gW.remove_edge 1 2).adjList = lookupA k gW.adjList) ∧
    (∀ k, k ≠ 1 → k ≠ 2 → lookupA k (gW.remove_edge 1 2).adjList = lookupA k gW.adjList) :=
  claim_C7 gW 1 2

/-- C10: `add_vertex(v)` on an already-registered vertex leaves the
adjacency structure unchanged (in particular it does not reset `v`'s
neighbor list), `add_vertex` is idempotent, and `add_edge` only ever
appends to existing neighbor lists, never destroying stored edges. -/
theorem claim_C10 (g : Graph) (v : Nat) (hs : SortedA g.adjList) :
    (v ∈ keys g.adjList → g.add_vertex v = g) ∧
    ((g.add_vertex v).add_vertex v = g.add_vertex v) ∧
    (∀ x y : Nat, ∀ w : Int, ∀ k ns, lookupA k g.adjList = some ns →
      ∃ tail, lookupA k (g.add_edge x y w).adjList = some (ns ++ tail)) := by
  refine ⟨?_, ?_, ?_⟩
  · intro hv
    show { g with adjList := tryEmplace v g.adjList } = g
    rw [tryEmplace_of_mem hs hv]
  · show { g with adjList := tryEmplace v (tryEmplace v g.adjList) } =
      { g with adjList := tryEmplace v g.adjList }
    rw [tryEmplace_of_mem (sortedA_tryEmplace hs) (mem_keys_tryEmplace.mpr (Or.inl rfl))]
  · intro x y w k ns hk
    have s0 : SortedA (tryEmplace x g.adjList) := sortedA_tryEmplace hs
    have s1 : SortedA (tryEmplace y (tryEmplace x g.adjList)) := sortedA_tryEmplace s0
    have s2 : SortedA (pushBackAt x (y, w) (tryEmplace y (tryEmplace x g.adjList))) :=
      sortedA_pushBackAt s1
    have h0 : lookupA k (tryEmplace x g.adjList) = some ns := by
      rw [lookupA_tryEmplace hs k]
      by_cases hkx : k = x
      · subst hkx; rw [if_pos rfl, hk]; rfl
      · rw [if_neg hkx]; exact hk
    have h1 : lookupA k (tryEmplace y (tryEmplace x g.adjList)) = some ns := by
      rw [lookupA_tryEmplace s0 k]
      by_cases hky : k = y
      · subst hky; rw [if_pos rfl, h0]; rfl
      · rw [if_neg hky]; exact h0
    simp only [Graph.add_edge, Graph.add_vertex]
    by_cases hc : g.directed = false ∧ x ≠ y
    · simp only [if_pos hc]
      by_cases hky : k = y
      · subst hky
        refine ⟨[(x, w)], ?_⟩
        rw [lookupA_pushBackAt s2 k, if_pos rfl]
        rw [lookupA_pushBackAt s1 k, if_neg (fun h => hc.2 h.symm)]
        rw [h1]
        rfl
      · by_cases hkx : k = x
        · subst hkx
          refine ⟨[(y, w)], ?_⟩
          rw [lookupA_pushBackAt s2 k, if_neg hky]
          rw [lookupA_pushBackAt s1 k, if_pos rfl, h1]
          rfl
        · refine ⟨[], ?_⟩
          rw [lookupA_pushBackAt s2 k, if_neg hky]
          rw [lookupA_pushBackAt s1 k, if_neg hkx, h1, List.append_nil]
    · simp only [if_neg hc]
      by_cases hkx : k = x
      · subst hkx
        refine ⟨[(y, w)], ?_⟩
        rw [lookupA_pushBackAt s1 k, if_pos rfl, h1]
        rfl
      · refine ⟨[], ?_⟩
        rw [lookupA_pushBackAt s1 k, if_neg hkx, h1, List.append_nil]

/-- Witness instantiating `claim_C10` on the concrete graph `gW`. -/
theorem claim_C10_witness :
    ((2 : Nat) ∈ keys gW.adjList → gW.add_vertex 2 = gW) ∧
    ((gW.add_vertex 2).add_vertex 2 = gW.add_vertex 2) ∧
    (∀ x y : Nat, ∀ w : Int, ∀ k ns, lookupA k gW.adjList = some ns →
      ∃ tail, lookupA k (gW.add_edge x y w).adjList = some (ns ++ tail)) :=
  claim_C10 gW 2 (by decide)


/-! ### Lemmas about the Dijkstra loop state -/

theorem mem_pqPush {e x : WithTop Int × Nat} {q : List (WithTop Int × Nat)} :
    x ∈ pqPush e q ↔ x = e ∨ x ∈ q := by
  induction q with
  | nil => simp [pqPush]
  | cons y t ih =>
    by_cases h : pqLeB e y
    · simp [pqPush, h]
    · simp only [pqPush, if_neg h, List.mem_cons, ih]
      tauto

theorem relaxFold_pq_pred (P : Nat → Prop) (u : Nat) :
    ∀ (ns : Nbrs) (st : DistMap × ParMap × List (WithTop Int × Nat)),
      (∀ x ∈ st.2.2, P x.2) → (∀ vw ∈ ns, P vw.1) →
      ∀ x ∈ (ns.foldl (relaxStep u) st).2.2, P x.2 := by
  intro ns
  induction ns with
  | nil => intro st h0 _ x hx; exact h0 x hx
  | cons vw t ih =>
    intro st h0 hns x hx
    refine ih (relaxStep u st vw) ?_ (fun y hy => hns y (List.mem_cons_of_mem _ hy)) x hx
    intro y hy
    unfold relaxStep at hy
    by_cases hcond : getM 0 u st.1 + (vw.2 : WithTop Int) < getM 0 vw.1 st.1
    · rw [if_pos hcond] at hy
      rcases mem_pqPush.mp hy with h | h
      · rw [h]; exact hns vw (List.mem_cons_self _ _)
      · exact h0 y h
    · rw [if_neg hcond] at hy
      exact h0 y hy

theorem lookupA_mem {u : Nat} {a : Adj} {ns : Nbrs}
    (h : lookupA u a = some ns) : (u, ns) ∈ a := by
  induction a with
  | nil => exact absurd h (by simp [lookupA])
  | cons p t ih =>
    obtain ⟨k, ns2⟩ := p
    by_cases hk : u = k
    · subst hk
      rw [lookupA, if_pos rfl] at h
      rw [(Option.some_inj.mp h).symm] at *
      exact List.mem_cons_self _ _
    · rw [lookupA, if_neg hk] at h
      exact List.mem_cons_of_mem _ (ih h)

theorem adjOf_closed {a : Adj} (hc : ClosedA a) {u v : Nat} {w : Int}
    (h : (v, w) ∈ adjOf a u) : v ∈ keys a := by
  unfold adjOf at h
  rcases hl : lookupA u a with _ | ns
  · rw [hl] at h; simp at h
  · rw [hl] at h
    exact hc (u, ns) (lookupA_mem hl) (v, w) h

theorem dijkstraLoop_adj_eq {aG : Adj} (hs : SortedA aG) (hc : ClosedA aG) :
    ∀ (fuel : Nat) (dist : DistMap) (par : ParMap)
      (pq : List (WithTop Int × Nat)), (∀ x ∈ pq, x.2 ∈ keys aG) →
      ∀ res, dijkstraLoop fuel aG dist par pq = some res → res.1 = aG := by
  intro fuel
  induction fuel with
  | zero => intro dist par pq _ res h; exact absurd h (by simp [dijkstraLoop])
  | succ fuel ih =>
    intro dist par pq hpq res h
    match pq with
    | [] =>
      rw [dijkstraLoop] at h
      rw [(Option.some_inj.mp h).symm]
    | (d, u) :: pq2 =>
      rw [dijkstraLoop] at h
      by_cases hskip : getM 0 u dist < d
      · rw [if_pos hskip] at h
        exact ih dist par pq2 (fun x hx => hpq x (List.mem_cons_of_mem _ hx)) res h
      · rw [if_neg hskip] at h
        have hu : u ∈ keys aG := hpq (d, u) (List.mem_cons_self _ _)
        have ha2 : tryEmplace u aG = aG := tryEmplace_of_mem hs hu
        rw [ha2] at h
        refine ih _ _ _ ?_ res h
        refine relaxFold_pq_pred _ u _ _ ?_ ?_
        · intro x hx; exact hpq x (List.mem_cons_of_mem _ hx)
        · intro vw hvw
          exact adjOf_closed hc (by simpa using hvw)

/-! ### Claim C5: the algorithms and graph mutation -/

/-- C5 as stated is false: `shortest_path` evaluates `adjList[u]` via
`map::operator[]`, which inserts a missing start vertex.  On the
two-vertex graph `gW`, querying `shortest_path(3, 1)` with the
unregistered vertex `3` inserts `3` into the adjacency structure. -/
theorem claim_C5_counterexample :
    (gW.shortest_path 5 3 1).map (fun r => r.1.adjList) =
      some (gW.adjList ++ [(3, [])]) ∧
    gW.adjList ++ [(3, [])] ≠ gW.adjList := by
  constructor
  · rfl
  · decide

/-- C5, amended: `mst_prim`, `mst_kruskal` and `mst_boruvka` read the
graph without mutating it, and `shortest_path` leaves the adjacency
structure unchanged provided the start vertex is registered; with an
unregistered start vertex it inserts that vertex (with an empty
neighbor list).  Here: on a well-formed graph with registered start,
the graph returned by `shortest_path` is the input graph. -/
theorem claim_C5 (fuel : Nat) (g : Graph) (s e : Nat) (hw : g.Wf)
    (hsk : s ∈ keys g.adjList) (res : Graph × List Nat × Int)
    (h : g.shortest_path fuel s e = some res) : res.1 = g := by
  simp only [Graph.shortest_path] at h
  rcases hd : dijkstraLoop fuel g.adjList
      (setM s (0 : WithTop Int) (g.adjList.map (fun p => (p.1, (⊤ : WithTop Int)))))
      [(s, s)] [((0 : WithTop Int), s)] with _ | st
  · rw [hd] at h; exact Option.noConfusion h
  · rw [hd] at h
    obtain ⟨a2, dist, par⟩ := st
    dsimp only at h
    have ha2 : a2 = g.adjList := by
      refine dijkstraLoop_adj_eq hw.sorted hw.closed fuel _ _ _ ?_ (a2, dist, par) hd
      intro x hx
      rcases List.mem_singleton.mp hx with h2
      rw [h2]
      exact hsk
    have hres1 : res.1 = { g with adjList := a2 } := by
      by_cases hinf : getM 0 e dist = ⊤
      · rw [if_pos hinf] at h
        rw [(Option.some_inj.mp h).symm]
      · rw [if_neg hinf] at h
        rcases hr : restoreLoop fuel par s e [] with _ | p
        · rw [hr] at h; exact Option.noConfusion h
        · rw [hr] at h
          rw [(Option.some_inj.mp h).symm]
    rw [hres1, ha2]

/-- Witness instantiating `claim_C5` on `gW` with registered start `1`. -/
theorem claim_C5_witness :
    gW.shortest_path 9 1 2 = some (gW, [1, 2], 5) ∧
      (gW, ([1, 2] : List Nat), (5 : Int)).1 = gW :=
  ⟨rfl, claim_C5 9 gW 1 2 (by decide) (by decide) (gW, [1, 2], 5) rfl⟩

/-! ### Local-map and order lemmas for the Dijkstra proofs -/

theorem lookupM_setM_self {α : Type} (k : Nat) (x : α) (m : List (Nat × α)) :
    lookupM k (setM k x m) = some x := by
  induction m with
  | nil => simp [setM, lookupM]
  | cons p t ih =>
    obtain ⟨k2, y⟩ := p
    by_cases h : k = k2
    · simp [setM, h, lookupM]
    · simp [setM, h, lookupM, ih]

theorem lookupM_setM_ne {α : Type} {k k2 : Nat} (h : k2 ≠ k) (x : α)
    (m : List (Nat × α)) : lookupM k2 (setM k x m) = lookupM k2 m := by
  induction m with
  | nil => simp [setM, lookupM, h]
  | cons p t ih =>
    obtain ⟨kk, y⟩ := p
    by_cases hk : k = kk
    · subst hk
      simp [setM, lookupM, h, ih]
    · by_cases hk2 : k2 = kk
      · simp [setM, hk, lookupM, hk2]
      · simp [setM, hk, lookupM, hk2, ih]

theorem getM_of_lookupM {α : Type} {d : α} {k : Nat} {m : List (Nat × α)} {x : α}
    (h : lookupM k m = some x) : getM d k m = x := by
  unfold getM
  rw [h]
  rfl

theorem wt_ne_top_exists {x : WithTop Int} (h : x ≠ ⊤) :
    ∃ c : Int, x = (c : WithTop Int) := by
  rcases x with _ | c
  · exact absurd rfl h
  · exact ⟨c, rfl⟩

theorem wt_add_ne_top {y : WithTop Int} {w : Int} {x : WithTop Int}
    (hle : y + (w : WithTop Int) ≤ x) (hx : x ≠ ⊤) : y ≠ ⊤ := by
  intro hy
  subst hy
  rw [top_add] at hle
  exact hx (top_le_iff.mp hle)

theorem walk_settled_bound {aG : Adj} (dist : DistMap)
    (hsettled : ∀ u xu, lookupM u dist = some xu → xu ≠ ⊤ → Settled aG dist u xu) :
    ∀ {x y : Nat} {c : Int}, Walk aG x y c → ∀ xx, lookupM x dist = some xx → xx ≠ ⊤ →
      ∃ yy, lookupM y dist = some yy ∧ yy ≤ xx + (c : WithTop Int) := by
  intro x y c hw
  induction hw with
  | refl =>
    intro xx hxx _
    exact ⟨xx, hxx, by simp⟩
  | step hwalk hedge ih =>
    intro xx hxx hne
    rename_i u2 c2 v2 w2
    obtain ⟨yy, hyy, hle⟩ := ih xx hxx hne
    obtain ⟨cx, hcx⟩ := wt_ne_top_exists hne
    have hxc : xx + (c2 : WithTop Int) ≠ ⊤ := by
      rw [hcx, ← WithTop.coe_add]
      exact WithTop.coe_ne_top
    have hyy_ne : yy ≠ ⊤ := fun h => hxc (top_le_iff.mp (h ▸ hle))
    obtain ⟨zz, hzz, hle2⟩ := hsettled _ yy hyy hyy_ne _ hedge
    refine ⟨zz, hzz, ?_⟩
    calc zz ≤ yy + (w2 : WithTop Int) := hle2
    _ ≤ xx + (c2 : WithTop Int) + (w2 : WithTop Int) := add_le_add_right hle _
    _ = xx + ((c2 + w2 : Int) : WithTop Int) := by rw [add_assoc, ← WithTop.coe_add]

theorem costedPath_snoc {a : Adj} {s : Nat} {L : List Nat} {p : Nat} {c : Int}
    {v : Nat} {w : Int} (h : CostedPath a s L p c) (he : (v, w) ∈ adjOf a p) :
    CostedPath a s (L ++ [v]) v (c + w) := by
  induction h with
  | single =>
    have := CostedPath.cons he (CostedPath.single v)
    simpa [zero_add, add_comm] using this
  | cons he2 hrest ih =>
    have := CostedPath.cons he2 (ih he)
    simpa [add_assoc] using this

theorem costedPath_ne_nil {a : Adj} {s : Nat} {L : List Nat} {e : Nat} {c : Int}
    (h : CostedPath a s L e c) : L ≠ [] := by
  cases h <;> simp

theorem costedPath_head {a : Adj} {s : Nat} {L : List Nat} {e : Nat} {c : Int}
    (h : CostedPath a s L e c) : L.head? = some s := by
  cases h <;> rfl

theorem costedPath_last {a : Adj} {s : Nat} {L : List Nat} {e : Nat} {c : Int}
    (h : CostedPath a s L e c) : L.getLast? = some e := by
  induction h with
  | single => rfl
  | cons he2 hrest ih =>
    rw [← ih]
    rcases List.exists_cons_of_ne_nil (costedPath_ne_nil hrest) with ⟨b, L2, hbl⟩
    subst hbl
    rw [List.getLast?_cons_cons]

theorem lookupM_mapTop (a : Adj) (k : Nat) :
    lookupM k (a.map (fun p => (p.1, (⊤ : WithTop Int)))) =
      (lookupA k a).map (fun _ => (⊤ : WithTop Int)) := by
  induction a with
  | nil => simp [lookupM, lookupA]
  | cons p t ih =>
    obtain ⟨kk, ns⟩ := p
    by_cases h : k = kk
    · simp [lookupM, lookupA, h]
    · simp [lookupM, lookupA, h, ih]

/-! ### Preservation of the Dijkstra invariants -/

theorem relaxStep_update {u : Nat} {st : DistMap × ParMap × List (WithTop Int × Nat)}
    {vw : Nat × Int}
    (hc : getM 0 u st.1 + (vw.2 : WithTop Int) < getM 0 vw.1 st.1) :
    relaxStep u st vw =
      (setM vw.1 (getM 0 u st.1 + (vw.2 : WithTop Int)) st.1,
       setM vw.1 u st.2.1,
       pqPush (getM 0 u st.1 + (vw.2 : WithTop Int), vw.1) st.2.2) := by
  unfold relaxStep
  rw [if_pos hc]
  show (setM vw.1 (getM 0 u st.1 + (vw.2 : WithTop Int)) st.1,
        setM vw.1 u st.2.1,
        pqPush (getM 0 vw.1 (setM vw.1 (getM 0 u st.1 + (vw.2 : WithTop Int)) st.1),
          vw.1) st.2.2) = _
  rw [getM_of_lookupM (lookupM_setM_self _ _ _)]

theorem relaxStep_skip {u : Nat} {st : DistMap × ParMap × List (WithTop Int × Nat)}
    {vw : Nat × Int}
    (hc : ¬ getM 0 u st.1 + (vw.2 : WithTop Int) < getM 0 vw.1 st.1) :
    relaxStep u st vw = st := by
  unfold relaxStep
  rw [if_neg hc]

theorem relaxStep_core {aG : Adj} {s u : Nat}
    {st : DistMap × ParMap × List (WithTop Int × Nat)} {vw : Nat × Int}
    (hcl : ClosedA aG) (hvw : vw ∈ adjOf aG u)
    (hu : ∃ du, lookupM u st.1 = some du)
    (hC : CoreInv aG s st.1 st.2.1 st.2.2) :
    CoreInv aG s (relaxStep u st vw).1 (relaxStep u st vw).2.1 (relaxStep u st vw).2.2 := by
  obtain ⟨dist, par, pq⟩ := st
  obtain ⟨du, hdu⟩ := hu
  obtain ⟨hI0, hIS, hIpq, hI4, hI2⟩ := hC
  by_cases hc : getM 0 u (dist, par, pq).1 + (vw.2 : WithTop Int) <
      getM 0 vw.1 (dist, par, pq).1
  · rw [relaxStep_update hc]
    obtain ⟨v, w⟩ := vw
    simp only at hc ⊢
    have hgu : getM 0 u dist = du := getM_of_lookupM hdu
    rw [hgu] at hc ⊢
    -- the target is a registered vertex, hence bound in dist
    have hvkeys : v ∈ keys aG := adjOf_closed hcl hvw
    obtain ⟨xv, hxv⟩ := hI0 v hvkeys
    have hgv : getM 0 v dist = xv := getM_of_lookupM hxv
    rw [hgv] at hc
    -- the relaxation source is finite
    have hdu_ne : du ≠ ⊤ := by
      intro hh
      rw [hh, top_add] at hc
      exact not_top_lt hc
    obtain ⟨cdu, hcdu⟩ := wt_ne_top_exists hdu_ne
    refine ⟨?_, ?_, ?_, ?_, ?_⟩
    · intro k hk
      by_cases hkv : k = v
      · subst hkv
        exact ⟨_, lookupM_setM_self _ _ _⟩
      · rw [lookupM_setM_ne hkv]
        exact hI0 k hk
    · obtain ⟨xs, hxs, hxs0⟩ := hIS
      by_cases hsv : s = v
      · subst hsv
        refine ⟨_, lookupM_setM_self _ _ _, ?_⟩
        have : xs = xv := by
          rw [hxs] at hxv
          exact Option.some_inj.mp hxv
        exact le_trans (le_of_lt (this ▸ hc)) hxs0
      · rw [lookupM_setM_ne hsv]
        exact ⟨xs, hxs, hxs0⟩
    · intro x hx
      rcases mem_pqPush.mp hx with hx | hx
      · subst hx
        exact ⟨hvkeys, _, lookupM_setM_self _ _ _, le_refl _⟩
      · obtain ⟨hxk, y, hy, hyle⟩ := hIpq x hx
        refine ⟨hxk, ?_⟩
        by_cases hxv2 : x.2 = v
        · rw [hxv2]
          refine ⟨_, lookupM_setM_self _ _ _, ?_⟩
          have : y = xv := by
            rw [hxv2] at hy
            rw [hy] at hxv
            exact Option.some_inj.mp hxv
          exact le_trans (le_of_lt hc) (this ▸ hyle)
        · rw [lookupM_setM_ne hxv2]
          exact ⟨y, hy, hyle⟩
    · intro v2 c2 hbind
      by_cases hv2 : v2 = v
      · subst hv2
        rw [lookupM_setM_self] at hbind
        have hcoe : ((c2 : Int) : WithTop Int) = du + (w : WithTop Int) :=
          (Option.some_inj.mp hbind).symm
        rw [hcdu, ← WithTop.coe_add] at hcoe
        have hc2 : c2 = cdu + w := by exact_mod_cast hcoe
        subst hc2
        have hwalk : Walk aG s u cdu := hI4 u cdu (by rw [← hcdu]; exact hdu)
        exact Walk.step hwalk hvw
      · rw [lookupM_setM_ne hv2] at hbind
        exact hI4 v2 c2 hbind
    · intro v2 x hbind hxne hv2s
      by_cases hv2 : v2 = v
      · subst hv2
        rw [lookupM_setM_self] at hbind
        have hx : x = du + (w : WithTop Int) := (Option.some_inj.mp hbind).symm
        by_cases huv : u = v2
        · subst huv
          rw [hx]
          refine ⟨u, w, du + (w : WithTop Int),
            lookupM_setM_self _ _ _, hvw, lookupM_setM_self _ _ _, ?_⟩
          have hduv : du = xv := by
            rw [hdu] at hxv
            exact Option.some_inj.mp hxv
          refine add_le_add_right (le_of_lt ?_) _
          rw [← hduv] at hc
          exact hc
        · refine ⟨u, w, du, lookupM_setM_self _ _ _, hvw, ?_, ?_⟩
          · rw [lookupM_setM_ne huv]
            exact hdu
          · rw [hx]
      · rw [lookupM_setM_ne hv2] at hbind
        obtain ⟨p, w2, y, hpar, hedge, hy, hyle⟩ := hI2 v2 x hbind hxne hv2s
        refine ⟨p, w2, ?_⟩
        by_cases hpv : p = v
        · subst hpv
          refine ⟨du + (w : WithTop Int), ?_, hedge, lookupM_setM_self _ _ _, ?_⟩
          · rw [lookupM_setM_ne hv2]
            exact hpar
          · have : y = xv := by
              rw [hy] at hxv
              exact Option.some_inj.mp hxv
            exact le_trans (add_le_add_right (le_of_lt (this ▸ hc)) _) hyle
        · refine ⟨y, ?_, hedge, ?_, hyle⟩
          · rw [lookupM_setM_ne hv2]
            exact hpar
          · rw [lookupM_setM_ne hpv]
            exact hy
  · rw [relaxStep_skip hc]
    exact ⟨hI0, hIS, hIpq, hI4, hI2⟩

theorem lookupM_setM_persist {α : Type} {k k2 : Nat} {x : α} {m : List (Nat × α)}
    (h : ∃ y, lookupM k m = some y) : ∃ y, lookupM k (setM k2 x m) = some y := by
  by_cases hk : k = k2
  · subst hk
    exact ⟨x, lookupM_setM_self _ _ _⟩
  · rw [lookupM_setM_ne hk]
    exact h

theorem relaxStep_ka {aG : Adj} {s u : Nat}
    {st : DistMap × ParMap × List (WithTop Int × Nat)} {vw : Nat × Int}
    (hvw : vw ∈ adjOf aG u)
    (hKa : ∀ z xz, lookupM z st.1 = some xz → xz ≠ ⊤ → z ≠ u →
      ((xz, z) ∈ st.2.2 ∨ Settled aG st.1 z xz)) :
    ∀ z xz, lookupM z (relaxStep u st vw).1 = some xz → xz ≠ ⊤ → z ≠ u →
      ((xz, z) ∈ (relaxStep u st vw).2.2 ∨ Settled aG (relaxStep u st vw).1 z xz) := by
  obtain ⟨dist, par, pq⟩ := st
  by_cases hc : getM 0 u (dist, par, pq).1 + (vw.2 : WithTop Int) <
      getM 0 vw.1 (dist, par, pq).1
  · rw [relaxStep_update hc]
    obtain ⟨v, w⟩ := vw
    simp only at hc ⊢
    intro z xz hbind hne hzu
    by_cases hzv : z = v
    · subst hzv
      rw [lookupM_setM_self] at hbind
      left
      rw [Option.some_inj.mp hbind]
      exact mem_pqPush.mpr (Or.inl rfl)
    · rw [lookupM_setM_ne hzv] at hbind
      rcases hKa z xz hbind hne hzu with h | h
      · left
        exact mem_pqPush.mpr (Or.inr h)
      · right
        intro vw2 hvw2
        obtain ⟨y, hy, hyle⟩ := h vw2 hvw2
        by_cases htv : vw2.1 = v
        · refine ⟨getM 0 u dist + (w : WithTop Int), ?_, ?_⟩
          · rw [htv]
            exact lookupM_setM_self _ _ _
          · have hgv : getM 0 v dist = y := by
              rw [← htv]
              exact getM_of_lookupM hy
            rw [hgv] at hc
            exact le_trans (le_of_lt hc) hyle
        · rw [lookupM_setM_ne htv]
          exact ⟨y, hy, hyle⟩
  · rw [relaxStep_skip hc]
    exact hKa

theorem relaxFold_master {aG : Adj} {s u : Nat} (hcl : ClosedA aG) :
    ∀ (todo done : Nbrs) (st : DistMap × ParMap × List (WithTop Int × Nat)),
    (∀ vw ∈ todo, vw ∈ adjOf aG u) →
    (∃ du, lookupM u st.1 = some du) →
    CoreInv aG s st.1 st.2.1 st.2.2 →
    (∀ z xz, lookupM z st.1 = some xz → xz ≠ ⊤ → z ≠ u →
      ((xz, z) ∈ st.2.2 ∨ Settled aG st.1 z xz)) →
    (SettledOn st.1 (getM 0 u st.1) done ∨ (getM 0 u st.1, u) ∈ st.2.2) →
    (∃ du, lookupM u (todo.foldl (relaxStep u) st).1 = some du) ∧
    CoreInv aG s (todo.foldl (relaxStep u) st).1 (todo.foldl (relaxStep u) st).2.1
      (todo.foldl (relaxStep u) st).2.2 ∧
    (∀ z xz, lookupM z (todo.foldl (relaxStep u) st).1 = some xz → xz ≠ ⊤ → z ≠ u →
      ((xz, z) ∈ (todo.foldl (relaxStep u) st).2.2 ∨
        Settled aG (todo.foldl (relaxStep u) st).1 z xz)) ∧
    (SettledOn (todo.foldl (relaxStep u) st).1
        (getM 0 u (todo.foldl (relaxStep u) st).1) (done ++ todo) ∨
      (getM 0 u (todo.foldl (relaxStep u) st).1, u) ∈ (todo.foldl (relaxStep u) st).2.2) := by
  intro todo
  induction todo with
  | nil =>
    intro done st _ hu hC hKa hKb
    simpa using ⟨hu, hC, hKa, hKb⟩
  | cons vw t ih =>
    intro done st hsub hu hC hKa hKb
    have hvw : vw ∈ adjOf aG u := hsub vw (List.mem_cons_self _ _)
    have hsub2 : ∀ x ∈ t, x ∈ adjOf aG u :=
      fun x hx => hsub x (List.mem_cons_of_mem _ hx)
    have hfold : (vw :: t).foldl (relaxStep u) st = t.foldl (relaxStep u) (relaxStep u st vw) :=
      rfl
    rw [hfold]
    have hu1 : ∃ du, lookupM u (relaxStep u st vw).1 = some du := by
      obtain ⟨dist, par, pq⟩ := st
      by_cases hc : getM 0 u (dist, par, pq).1 + (vw.2 : WithTop Int) <
          getM 0 vw.1 (dist, par, pq).1
      · rw [relaxStep_update hc]
        exact lookupM_setM_persist hu
      · rw [relaxStep_skip hc]
        exact hu
    have hC1 := relaxStep_core (s := s) hcl hvw hu hC
    have hKa1 := relaxStep_ka (s := s) hvw hKa
    have hKb1 : SettledOn (relaxStep u st vw).1 (getM 0 u (relaxStep u st vw).1)
        (done ++ [vw]) ∨
        (getM 0 u (relaxStep u st vw).1, u) ∈ (relaxStep u st vw).2.2 := by
      obtain ⟨dist, par, pq⟩ := st
      obtain ⟨du, hdu⟩ := hu
      obtain ⟨hI0, _, _, _, _⟩ := hC
      by_cases hc : getM 0 u (dist, par, pq).1 + (vw.2 : WithTop Int) <
          getM 0 vw.1 (dist, par, pq).1
      · rw [relaxStep_update hc]
        obtain ⟨v, w⟩ := vw
        simp only at hc hKb ⊢
        by_cases huv : u = v
        · right
          have : getM 0 u (setM v (getM 0 u dist + (w : WithTop Int)) dist) =
              getM 0 u dist + (w : WithTop Int) := by
            rw [huv]
            exact getM_of_lookupM (lookupM_setM_self _ _ _)
          rw [this]
          refine mem_pqPush.mpr (Or.inl ?_)
          rw [huv]
        · have hgu : getM 0 u (setM v (getM 0 u dist + (w : WithTop Int)) dist) =
              getM 0 u dist := by
            unfold getM
            rw [lookupM_setM_ne huv]
          rw [hgu]
          rcases hKb with hset | hin
          · left
            intro vw2 hmem
            rcases List.mem_append.mp hmem with hmem | hmem
            · obtain ⟨y, hy, hyle⟩ := hset vw2 hmem
              by_cases htv : vw2.1 = v
              · refine ⟨getM 0 u dist + (w : WithTop Int), ?_, ?_⟩
                · rw [htv]
                  exact lookupM_setM_self _ _ _
                · have hgv : getM 0 v dist = y := by
                    rw [← htv]
                    exact getM_of_lookupM hy
                  rw [hgv] at hc
                  exact le_trans (le_of_lt hc) hyle
              · rw [lookupM_setM_ne htv]
                exact ⟨y, hy, hyle⟩
            · have : vw2 = (v, w) := List.mem_singleton.mp hmem
              subst this
              exact ⟨_, lookupM_setM_self _ _ _, le_refl _⟩
          · right
            exact mem_pqPush.mpr (Or.inr hin)
      · rw [relaxStep_skip hc]
        rcases hKb with hset | hin
        · left
          intro vw2 hmem
          rcases List.mem_append.mp hmem with hmem | hmem
          · exact hset vw2 hmem
          · have heq : vw2 = vw := List.mem_singleton.mp hmem
            subst heq
            have hvk : vw2.1 ∈ keys aG := adjOf_closed hcl (hsub vw2 (List.mem_cons_self _ _))
            obtain ⟨xv, hxv⟩ := hI0 vw2.1 hvk
            refine ⟨xv, hxv, ?_⟩
            rw [← getM_of_lookupM (d := (0 : WithTop Int)) hxv]
            exact not_lt.mp hc
        · right
          exact hin
    have := ih (done ++ [vw]) (relaxStep u st vw) hsub2 hu1 hC1 hKa1 hKb1
    rwa [List.append_assoc, List.singleton_append] at this

theorem dijkstraLoop_master {aG : Adj} {s : Nat} (hs : SortedA aG) (hcl : ClosedA aG) :
    ∀ (fuel : Nat) (dist : DistMap) (par : ParMap) (pq : List (WithTop Int × Nat))
      (res : Adj × DistMap × ParMap),
      CoreInv aG s dist par pq → Inv1 aG dist pq →
      dijkstraLoop fuel aG dist par pq = some res →
      res.1 = aG ∧ CoreInv aG s res.2.1 res.2.2 [] ∧ Inv1 aG res.2.1 [] := by
  intro fuel
  induction fuel with
  | zero =>
    intro dist par pq res _ _ h
    exact absurd h (by simp [dijkstraLoop])
  | succ fuel ih =>
    intro dist par pq res hC hI h
    match pq with
    | [] =>
      rw [dijkstraLoop] at h
      obtain rfl : (aG, dist, par) = res := Option.some_inj.mp h
      obtain ⟨h0, hS, _, h4, h2⟩ := hC
      exact ⟨rfl, ⟨h0, hS, by simp, h4, h2⟩, hI⟩
    | (d, u) :: pq2 =>
      rw [dijkstraLoop] at h
      obtain ⟨hI0, hIS, hIpq, hI4, hI2⟩ := hC
      obtain ⟨huk, du, hdu, hdule⟩ := hIpq (d, u) (List.mem_cons_self _ _)
      have hgu : getM 0 u dist = du := getM_of_lookupM hdu
      by_cases hskip : getM 0 u dist < d
      · rw [if_pos hskip] at h
        refine ih dist par pq2 res
          ⟨hI0, hIS, fun x hx => hIpq x (List.mem_cons_of_mem _ hx), hI4, hI2⟩ ?_ h
        intro z xz hz hne
        rcases hI z xz hz hne with hin | hset
        · rcases List.mem_cons.mp hin with heq | hin2
          · exfalso
            have hz2 : z = u := congrArg Prod.snd heq
            have hx2 : xz = d := congrArg Prod.fst heq
            rw [hz2] at hz
            have : xz = du := by
              rw [hz] at hdu
              exact Option.some_inj.mp hdu
            rw [hgu] at hskip
            rw [hx2] at this
            rw [this] at hskip
            exact lt_irrefl du hskip
          · exact Or.inl hin2
        · exact Or.inr hset
      · rw [if_neg hskip] at h
        have ha2 : tryEmplace u aG = aG := tryEmplace_of_mem hs huk
        rw [ha2] at h
        have hKa : ∀ z xz, lookupM z dist = some xz → xz ≠ ⊤ → z ≠ u →
            ((xz, z) ∈ pq2 ∨ Settled aG dist z xz) := by
          intro z xz hz hne hzu
          rcases hI z xz hz hne with hin | hset
          · rcases List.mem_cons.mp hin with heq | hin2
            · exact absurd (congrArg Prod.snd heq) hzu
            · exact Or.inl hin2
          · exact Or.inr hset
        have hfold := relaxFold_master (s := s) hcl (adjOf aG u) [] (dist, par, pq2)
          (fun vw hvw => hvw) ⟨du, hdu⟩
          ⟨hI0, hIS, fun x hx => hIpq x (List.mem_cons_of_mem _ hx), hI4, hI2⟩
          hKa (Or.inl (fun vw hvw => absurd hvw (List.not_mem_nil vw)))
        obtain ⟨hu2, hC2, hKa2, hKb2⟩ := hfold
        refine ih _ _ _ res hC2 ?_ h
        intro z xz hz hne
        by_cases hzu : z = u
        · subst hzu
          have hgz : getM 0 z ((adjOf aG z).foldl (relaxStep z) (dist, par, pq2)).1 = xz :=
            getM_of_lookupM hz
          rcases hKb2 with hset | hin
          · right
            intro vw hvw
            obtain ⟨y, hy, hyle⟩ := hset vw (by rw [List.nil_append]; exact hvw)
            rw [hgz] at hyle
            exact ⟨y, hy, hyle⟩
          · left
            rwa [hgz] at hin
        · exact hKa2 z xz hz hne hzu

theorem init_lookup (aG : Adj) (s k : Nat) :
    lookupM k (setM s (0 : WithTop Int) (aG.map (fun p => (p.1, (⊤ : WithTop Int))))) =
      if k = s then some 0 else (lookupA k aG).map (fun _ => (⊤ : WithTop Int)) := by
  by_cases hk : k = s
  · subst hk
    rw [if_pos rfl]
    exact lookupM_setM_self _ _ _
  · rw [if_neg hk, lookupM_setM_ne hk, lookupM_mapTop]

theorem init_invariants {aG : Adj} {s : Nat} (hsk : s ∈ keys aG) :
    CoreInv aG s (setM s (0 : WithTop Int) (aG.map (fun p => (p.1, (⊤ : WithTop Int)))))
      [(s, s)] [((0 : WithTop Int), s)] ∧
    Inv1 aG (setM s (0 : WithTop Int) (aG.map (fun p => (p.1, (⊤ : WithTop Int)))))
      [((0 : WithTop Int), s)] := by
  constructor
  · refine ⟨?_, ?_, ?_, ?_, ?_⟩
    · intro k hk
      rw [init_lookup]
      by_cases hks : k = s
      · rw [if_pos hks]
        exact ⟨0, rfl⟩
      · rw [if_neg hks]
        rcases hl : lookupA k aG with _ | ns
        · exact absurd ((lookupA_eq_none k aG).mp hl) (by simpa using hk)
        · exact ⟨⊤, rfl⟩
    · refine ⟨0, ?_, le_refl 0⟩
      rw [init_lookup, if_pos rfl]
    · intro x hx
      have hx2 : x = ((0 : WithTop Int), s) := List.mem_singleton.mp hx
      subst hx2
      refine ⟨hsk, 0, ?_, le_refl 0⟩
      rw [init_lookup, if_pos rfl]
    · intro v c hb
      rw [init_lookup] at hb
      by_cases hvs : v = s
      · rw [if_pos hvs] at hb
        have h0 : ((c : Int) : WithTop Int) = 0 := (Option.some_inj.mp hb).symm
        have hc0 : c = 0 := by exact_mod_cast h0
        subst hc0
        rw [hvs]
        exact Walk.refl s
      · rw [if_neg hvs] at hb
        rcases hl : lookupA v aG with _ | ns
        · rw [hl] at hb
          exact absurd hb (by simp)
        · rw [hl] at hb
          have : ((c : Int) : WithTop Int) = ⊤ := (Option.some_inj.mp (by simpa using hb)).symm
          exact absurd this (by simp)
    · intro v x hb hne hvs
      rw [init_lookup, if_neg hvs] at hb
      rcases hl : lookupA v aG with _ | ns
      · rw [hl] at hb
        exact absurd hb (by simp)
      · rw [hl] at hb
        have : x = ⊤ := (Option.some_inj.mp (by simpa using hb)).symm
        exact absurd this hne
  · intro z xz hb hne
    rw [init_lookup] at hb
    by_cases hzs : z = s
    · rw [if_pos hzs] at hb
      left
      rw [Option.some_inj.mp hb, hzs]
      exact List.mem_singleton.mpr rfl
    · rw [if_neg hzs] at hb
      rcases hl : lookupA z aG with _ | ns
      · rw [hl] at hb
        exact absurd hb (by simp)
      · rw [hl] at hb
        have : xz = ⊤ := (Option.some_inj.mp (by simpa using hb)).symm
        exact absurd this hne

theorem walk_last_step {a : Adj} {s v : Nat} {c : Int} (h : Walk a s v c) :
    v = s ∨ ∃ u ∈ keys a, ∃ vw ∈ adjOf a u, vw.1 = v := by
  cases h with
  | refl => exact Or.inl rfl
  | step hw he =>
    right
    rename_i u2 c2 w2
    refine ⟨u2, ?_, (v, w2), he, rfl⟩
    rcases hl : lookupA u2 a with _ | ns
    · exfalso
      unfold adjOf at he
      rw [hl] at he
      simp at he
    · exact (lookupA_isSome u2 a).mp (by rw [hl]; rfl)

/-- C4: on a graph with registered `start` and `end` vertices and no
path between them, `shortest_path` returns the empty vertex sequence
and the sentinel total cost `-1`. -/
theorem claim_C4 (fuel : Nat) (g : Graph) (s e : Nat) (hw : g.Wf)
    (hsk : s ∈ keys g.adjList) (hek : e ∈ keys g.adjList)
    (hnr : ¬ Reach g.adjList s e) (res : Graph × List Nat × Int)
    (h : g.shortest_path fuel s e = some res) :
    res.2.1 = [] ∧ res.2.2 = -1 := by
  simp only [Graph.shortest_path] at h
  rcases hd : dijkstraLoop fuel g.adjList
      (setM s (0 : WithTop Int) (g.adjList.map (fun p => (p.1, (⊤ : WithTop Int)))))
      [(s, s)] [((0 : WithTop Int), s)] with _ | st
  · rw [hd] at h
    exact Option.noConfusion h
  · rw [hd] at h
    obtain ⟨a2, dist, par⟩ := st
    dsimp only at h
    obtain ⟨hcore0, hinv0⟩ := @init_invariants g.adjList _ hsk
    obtain ⟨-, hC, -⟩ :=
      dijkstraLoop_master hw.sorted hw.closed fuel _ _ _ (a2, dist, par) hcore0 hinv0 hd
    obtain ⟨xe, hxe⟩ := hC.1 e hek
    have hxe_top : xe = ⊤ := by
      by_contra hne
      obtain ⟨c, hc⟩ := wt_ne_top_exists hne
      exact hnr ⟨c, hC.2.2.2.1 e c (by rw [hxe, hc])⟩
    have hge : getM 0 e dist = ⊤ := by
      rw [getM_of_lookupM hxe, hxe_top]
    rw [if_pos hge] at h
    have heq := Option.some_inj.mp h
    rw [← heq]
    exact ⟨rfl, rfl⟩

/-- Witness instantiating `claim_C4` on `gW2` (vertex `3` isolated). -/
theorem claim_C4_witness :
    ((gW2, ([] : List Nat), (-1 : Int)).2.1 = []) ∧
    ((gW2, ([] : List Nat), (-1 : Int)).2.2 = -1) := by
  refine claim_C4 9 gW2 1 3 (by decide) (by decide) (by decide) ?_ (gW2, [], -1) (by rfl)
  intro hr
  obtain ⟨c, hwalk⟩ := hr
  have h2 := walk_last_step hwalk
  revert h2
  decide

theorem untopZ_coe (c : Int) : untopZ ((c : Int) : WithTop Int) = c := rfl

theorem inv1_nil_settled {aG : Adj} {dist : DistMap} (hI : Inv1 aG dist []) :
    ∀ u xu, lookupM u dist = some xu → xu ≠ ⊤ → Settled aG dist u xu := by
  intro u xu hb hne
  rcases hI u xu hb hne with hin | hset
  · exact absurd hin (List.not_mem_nil _)
  · exact hset

theorem final_dist_start {aG : Adj} {s : Nat} {dist : DistMap} {par : ParMap}
    (hC : CoreInv aG s dist par [])
    (hsettled : ∀ u xu, lookupM u dist = some xu → xu ≠ ⊤ → Settled aG dist u xu) :
    lookupM s dist = some ((0 : Int) : WithTop Int) := by
  obtain ⟨xs, hxs, hxs0⟩ := hC.2.1
  have hne : xs ≠ ⊤ := by
    intro hh
    rw [hh] at hxs0
    exact absurd hxs0 (by simp)
  obtain ⟨cs, hcs⟩ := wt_ne_top_exists hne
  have hwalk : Walk aG s s cs := hC.2.2.2.1 s cs (by rw [hxs, hcs])
  obtain ⟨yy, hyy, hle⟩ := walk_settled_bound dist hsettled hwalk xs hxs hne
  have hyx : yy = xs := by
    rw [hyy] at hxs
    exact Option.some_inj.mp hxs
  rw [hyx, hcs, ← WithTop.coe_add] at hle
  have h1 : cs ≤ cs + cs := by exact_mod_cast hle
  have h2 : cs ≤ 0 := by
    rw [hcs] at hxs0
    exact_mod_cast hxs0
  have hcs0 : cs = 0 := by omega
  rw [hxs, hcs, hcs0]

theorem final_parent_eq {aG : Adj} {s : Nat} {dist : DistMap} {par : ParMap}
    (hC : CoreInv aG s dist par [])
    (hsettled : ∀ u xu, lookupM u dist = some xu → xu ≠ ⊤ → Settled aG dist u xu)
    {v : Nat} {cv : Int}
    (hb : lookupM v dist = some ((cv : Int) : WithTop Int)) (hvs : v ≠ s) :
    ∃ p w cp, lookupM v par = some p ∧ (v, w) ∈ adjOf aG p ∧
      lookupM p dist = some ((cp : Int) : WithTop Int) ∧ cv = cp + w := by
  obtain ⟨p, w, y, hpar, hedge, hy, hyle⟩ :=
    hC.2.2.2.2 v ((cv : Int) : WithTop Int) hb (by simp) hvs
  have hyne : y ≠ ⊤ := wt_add_ne_top hyle (by simp)
  obtain ⟨cp, hcp⟩ := wt_ne_top_exists hyne
  obtain ⟨y2, hy2, hy2le⟩ := hsettled p y hy hyne (v, w) hedge
  have hy2v : y2 = ((cv : Int) : WithTop Int) := by
    rw [hy2] at hb
    exact Option.some_inj.mp hb
  rw [hy2v, hcp, ← WithTop.coe_add] at hy2le
  rw [hcp, ← WithTop.coe_add] at hyle
  have h1 : cv ≤ cp + w := by exact_mod_cast hy2le
  have h2 : cp + w ≤ cv := by exact_mod_cast hyle
  exact ⟨p, w, cp, hpar, hedge, by rw [hy, hcp], by omega⟩

theorem restore_costed {aG : Adj} {s : Nat} (dist : DistMap) (par : ParMap)
    (hpar_eq : ∀ v cv, lookupM v dist = some ((cv : Int) : WithTop Int) → v ≠ s →
      ∃ p w cp, lookupM v par = some p ∧ (v, w) ∈ adjOf aG p ∧
        lookupM p dist = some ((cp : Int) : WithTop Int) ∧ cv = cp + w)
    (hs0 : lookupM s dist = some ((0 : Int) : WithTop Int)) :
    ∀ (fuel : Nat) (v : Nat) (acc out : List Nat),
      restoreLoop fuel par s v acc = some out →
      ∀ cv : Int, lookupM v dist = some ((cv : Int) : WithTop Int) →
      ∃ tail, out = acc ++ tail ∧ CostedPath aG s ((tail ++ [s]).reverse) v cv := by
  intro fuel
  induction fuel with
  | zero =>
    intro v acc out h
    exact absurd h (by simp [restoreLoop])
  | succ fuel ih =>
    intro v acc out h cv hb
    rw [restoreLoop] at h
    by_cases hvs : v = s
    · rw [if_pos hvs] at h
      obtain rfl := Option.some_inj.mp h
      refine ⟨[], by simp, ?_⟩
      subst hvs
      have : ((cv : Int) : WithTop Int) = ((0 : Int) : WithTop Int) := by
        rw [hb] at hs0
        exact Option.some_inj.mp hs0
      have hcv0 : cv = 0 := by exact_mod_cast this
      subst hcv0
      exact CostedPath.single v
    · rw [if_neg hvs] at h
      obtain ⟨p, w, cp, hpar, hedge, hpb, hcv⟩ := hpar_eq v cv hb hvs
      have hg : getM 0 v par = p := getM_of_lookupM hpar
      rw [hg] at h
      obtain ⟨tail0, hout, hcp2⟩ := ih p (acc ++ [v]) out h cp hpb
      refine ⟨v :: tail0, ?_, ?_⟩
      · rw [hout, List.append_assoc, List.singleton_append]
      · have hrev : ((v :: tail0) ++ [s]).reverse = ((tail0 ++ [s]).reverse) ++ [v] := by
          simp
        rw [hrev, hcv]
        exact costedPath_snoc hcp2 hedge

/-- C2: whenever a path from registered `start` to registered `end`
exists, `shortest_path` returns a vertex sequence starting at `start`,
ending at `end`, whose consecutive pairs are stored edges and whose
edge weights sum to the returned total cost. -/
theorem claim_C2 (fuel : Nat) (g : Graph) (s e : Nat) (hw : g.Wf)
    (hsk : s ∈ keys g.adjList) (hek : e ∈ keys g.adjList)
    (hr : Reach g.adjList s e) (res : Graph × List Nat × Int)
    (h : g.shortest_path fuel s e = some res) :
    CostedPath g.adjList s res.2.1 e res.2.2 ∧
    res.2.1.head? = some s ∧ res.2.1.getLast? = some e := by
  simp only [Graph.shortest_path] at h
  rcases hd : dijkstraLoop fuel g.adjList
      (setM s (0 : WithTop Int) (g.adjList.map (fun p => (p.1, (⊤ : WithTop Int)))))
      [(s, s)] [((0 : WithTop Int), s)] with _ | st
  · rw [hd] at h
    exact Option.noConfusion h
  · rw [hd] at h
    obtain ⟨a2, dist, par⟩ := st
    dsimp only at h
    obtain ⟨hcore0, hinv0⟩ := @init_invariants g.adjList _ hsk
    obtain ⟨-, hC, hI⟩ :=
      dijkstraLoop_master hw.sorted hw.closed fuel _ _ _ (a2, dist, par) hcore0 hinv0 hd
    have hsettled := inv1_nil_settled hI
    have hs0 : lookupM s dist = some ((0 : Int) : WithTop Int) :=
      final_dist_start hC hsettled
    obtain ⟨c, hwalk⟩ := hr
    obtain ⟨ye, hye, hle⟩ :=
      walk_settled_bound dist hsettled hwalk ((0 : Int) : WithTop Int) hs0 (by simp)
    have hyene : ye ≠ ⊤ := by
      intro hh
      rw [hh, ← WithTop.coe_add] at hle
      exact absurd (top_le_iff.mp hle) (by simp)
    obtain ⟨ce, hce⟩ := wt_ne_top_exists hyene
    have hge : getM 0 e dist = ((ce : Int) : WithTop Int) := by
      rw [getM_of_lookupM hye, hce]
    have hinf : ¬ getM 0 e dist = ⊤ := by
      rw [hge]
      simp
    rw [if_neg hinf] at h
    rcases hrl : restoreLoop fuel par s e [] with _ | p
    · rw [hrl] at h
      exact Option.noConfusion h
    · rw [hrl] at h
      have hpar_eq := fun v cv hb hvs => @final_parent_eq _ _ _ _ hC hsettled v cv hb hvs
      obtain ⟨tail, htail, hcp⟩ :=
        restore_costed dist par hpar_eq hs0 fuel e [] p hrl ce (by rw [hye, hce])
      rw [List.nil_append] at htail
      subst htail
      have hres := Option.some_inj.mp h
      rw [← hres]
      refine ⟨?_, ?_, ?_⟩
      · rw [hge]
        rw [untopZ_coe]
        exact hcp
      · exact costedPath_head hcp
      · exact costedPath_last hcp

/-- Witness instantiating `claim_C2` on the concrete graph `gW` from
vertex `1` to vertex `2`. -/
theorem claim_C2_witness :
    CostedPath gW.adjList 1 (gW, [1, 2], (5 : Int)).2.1 2 (gW, [1, 2], (5 : Int)).2.2 ∧
    (gW, [1, 2], (5 : Int)).2.1.head? = some 1 ∧
    (gW, [1, 2], (5 : Int)).2.1.getLast? = some 2 :=
  claim_C2 9 gW 1 2 (by decide) (by decide) (by decide)
    ⟨(0 + 5 : Int), Walk.step (Walk.refl 1) (by decide)⟩ (gW, [1, 2], 5) (by rfl)

/-! ### Claim C3: the MST guards -/

/-- C3: on a directed or empty graph each MST algorithm returns the
empty edge list with total weight `0`, as a defined success result. -/
theorem claim_C3 (g : Graph) (h : g.directed = true ∨ g.adjList = []) :
    g.mst_prim = some ([], 0) ∧ g.mst_kruskal = some ([], 0) ∧
    g.mst_boruvka = some ([], 0) := by
  obtain ⟨a, d⟩ := g
  rcases h with h | h
  · simp only at h
    subst h
    refine ⟨?_, ?_, ?_⟩
    · show Graph.mst_prim ⟨a, true⟩ = some ([], 0)
      unfold Graph.mst_prim
      match a with
      | [] => rfl
      | (start, ns) :: t => simp
    · show Graph.mst_kruskal ⟨a, true⟩ = some ([], 0)
      unfold Graph.mst_kruskal
      by_cases ha : a = []
      · simp [ha]
      · simp [ha]
    · show Graph.mst_boruvka ⟨a, true⟩ = some ([], 0)
      unfold Graph.mst_boruvka
      simp
  · simp only at h
    subst h
    refine ⟨rfl, rfl, ?_⟩
    show Graph.mst_boruvka ⟨[], d⟩ = some ([], 0)
    unfold Graph.mst_boruvka
    rcases d with _ | _
    · simp
    · simp

/-- Witness instantiating `claim_C3` on the directed graph `gW3`. -/
theorem claim_C3_witness :
    gW3.mst_prim = some ([], 0) ∧ gW3.mst_kruskal = some ([], 0) ∧
    gW3.mst_boruvka = some ([], 0) :=
  claim_C3 gW3 (Or.inl rfl)

/-! ### Claim C9: self-loops never enter MST results -/

theorem weightedEdges_nil (a : Adj) : WeightedEdges a [] 0 :=
  ⟨[], rfl, fun p hp => absurd hp (List.not_mem_nil p), rfl⟩

theorem weightedEdges_snoc {a : Adj} {es : List (Nat × Nat)} {tot : Int}
    {u v : Nat} {w : Int} (h : WeightedEdges a es tot)
    (he : (v, w) ∈ adjOf a u) (hne : u ≠ v) :
    WeightedEdges a (es ++ [(u, v)]) (tot + w) := by
  obtain ⟨ws, hlen, hall, hsum⟩ := h
  refine ⟨ws ++ [w], by simp [hlen], ?_, by simp [hsum]⟩
  intro p hp
  rw [List.zip_append (by rw [hlen])] at hp
  rcases List.mem_append.mp hp with hp | hp
  · exact hall p hp
  · have : p = ((u, v), w) := by simpa using hp
    subst this
    exact ⟨he, hne⟩

theorem mem_pqPushP {e x : Int × Nat × Nat} {q : List (Int × Nat × Nat)} :
    x ∈ pqPushP e q ↔ x = e ∨ x ∈ q := by
  induction q with
  | nil => simp [pqPushP]
  | cons y t ih =>
    by_cases h : pqLeP e y
    · simp [pqPushP, h]
    · simp only [pqPushP, if_neg h, List.mem_cons, ih]
      tauto

theorem primPush_pred (P : (Int × Nat × Nat) → Prop) (v : Nat) (inM : List Nat) :
    ∀ (ns : Nbrs) (pq : List (Int × Nat × Nat)),
      (∀ x ∈ pq, P x) → (∀ tw ∈ ns, P (tw.2, v, tw.1)) →
      ∀ x ∈ ns.foldl (fun q tw => if tw.1 ∈ inM then q else pqPushP (tw.2, v, tw.1) q) pq,
        P x := by
  intro ns
  induction ns with
  | nil => intro pq h0 _ x hx; exact h0 x hx
  | cons tw t ih =>
    intro pq h0 hns x hx
    refine ih _ ?_ (fun y hy => hns y (List.mem_cons_of_mem _ hy)) x hx
    intro y hy
    dsimp only at hy
    by_cases hc : tw.1 ∈ inM
    · rw [if_pos hc] at hy
      exact h0 y hy
    · rw [if_neg hc] at hy
      rcases mem_pqPushP.mp hy with h | h
      · rw [h]
        exact hns tw (List.mem_cons_self _ _)
      · exact h0 y h

theorem primInit_pred (P : (Int × Nat × Nat) → Prop) (v : Nat) :
    ∀ (ns : Nbrs) (pq : List (Int × Nat × Nat)),
      (∀ x ∈ pq, P x) → (∀ tw ∈ ns, P (tw.2, v, tw.1)) →
      ∀ x ∈ ns.foldl (fun q tw => pqPushP (tw.2, v, tw.1) q) pq, P x := by
  intro ns
  induction ns with
  | nil => intro pq h0 _ x hx; exact h0 x hx
  | cons tw t ih =>
    intro pq h0 hns x hx
    refine ih _ ?_ (fun y hy => hns y (List.mem_cons_of_mem _ hy)) x hx
    intro y hy
    dsimp only at hy
    rcases mem_pqPushP.mp hy with h | h
    · rw [h]
      exact hns tw (List.mem_cons_self _ _)
    · exact h0 y h

theorem primLoop_edges (a : Adj) :
    ∀ (fuel : Nat) (pq : List (Int × Nat × Nat)) (inMST : List Nat)
      (es : List (Nat × Nat)) (tot : Int) (res : List (Nat × Nat) × Int),
      (∀ x ∈ pq, x.2.1 ∈ inMST ∧ (x.2.2, x.1) ∈ adjOf a x.2.1) →
      (∀ e ∈ es, e.1 ≠ e.2) →
      WeightedEdges a es tot →
      primLoop a fuel pq inMST es tot = some res →
      (∀ e ∈ res.1, e.1 ≠ e.2) ∧ WeightedEdges a res.1 res.2 := by
  intro fuel
  induction fuel with
  | zero =>
    intro pq inMST es tot res _ _ _ h
    exact absurd h (by simp [primLoop])
  | succ fuel ih =>
    intro pq inMST es tot res hpq hes hwe h
    match pq with
    | [] =>
      rw [primLoop] at h
      obtain rfl := Option.some_inj.mp h
      exact ⟨hes, hwe⟩
    | (w, u, v) :: pq2 =>
      rw [primLoop] at h
      by_cases hv : v ∈ inMST
      · rw [if_pos hv] at h
        exact ih pq2 inMST es tot res
          (fun x hx => hpq x (List.mem_cons_of_mem _ hx)) hes hwe h
      · rw [if_neg hv] at h
        obtain ⟨hu, he⟩ := hpq (w, u, v) (List.mem_cons_self _ _)
        have hne : u ≠ v := fun hh => hv (hh ▸ hu)
        refine ih _ _ _ _ res ?_ ?_ ?_ h
        · refine primPush_pred _ v (v :: inMST) (adjOf a v) pq2 ?_ ?_
          · intro x hx
            obtain ⟨h1, h2⟩ := hpq x (List.mem_cons_of_mem _ hx)
            exact ⟨List.mem_cons_of_mem _ h1, h2⟩
          · intro tw htw
            exact ⟨List.mem_cons_self _ _, htw⟩
        · intro e hee
          rcases List.mem_append.mp hee with hee | hee
          · exact hes e hee
          · have : e = (u, v) := List.mem_singleton.mp hee
            rw [this]
            exact hne
        · exact weightedEdges_snoc hwe he hne

theorem lookupA_of_mem_sorted {a : Adj} {k : Nat} {ns : Nbrs}
    (hs : SortedA a) (h : (k, ns) ∈ a) : lookupA k a = some ns := by
  induction a with
  | nil => exact absurd h (List.not_mem_nil _)
  | cons p t ih =>
    obtain ⟨kk, ns2⟩ := p
    rcases List.mem_cons.mp h with h | h
    · have h1 : k = kk := congrArg Prod.fst h
      have h2 : ns = ns2 := congrArg Prod.snd h
      rw [lookupA, if_pos h1, h2]
    · have hk : kk < k := sortedA_head_lt hs k (by
        exact List.mem_map_of_mem Prod.fst h)
      rw [lookupA, if_neg (by omega)]
      exact ih (sortedA_tail hs) h

theorem getD_set {α : Type} (l : List α) (k i : Nat) (x d : α) :
    (l.set k x).getD i d = if i = k ∧ k < l.length then x else l.getD i d := by
  induction l generalizing k i with
  | nil => simp
  | cons a t ih =>
    cases k with
    | zero =>
      cases i with
      | zero => simp
      | succ i => simp
    | succ k =>
      cases i with
      | zero => simp
      | succ i =>
        simp only [List.set_cons_succ, List.getD_cons_succ, List.length_cons]
        rw [ih k i]
        by_cases hc : i = k ∧ k < t.length
        · rw [if_pos hc, if_pos ⟨by omega, by omega⟩]
        · rw [if_neg hc, if_neg ?_]
          rintro ⟨h1, h2⟩
          exact hc ⟨by omega, by omega⟩

theorem getD_replicate_none {α : Type} (n i : Nat) :
    (List.replicate n (none : Option α)).getD i none = none := by
  induction n generalizing i with
  | zero => simp
  | succ n ih =>
    cases i with
    | zero => simp
    | succ i => simpa using ih i

theorem getD_of_getElem? {α : Type} {l : List α} {i : Nat} {x : α} (d : α)
    (h : l[i]? = some x) : l.getD i d = x ∧ x ∈ l := by
  induction l generalizing i with
  | nil => simp at h
  | cons a t ih =>
    cases i with
    | zero =>
      simp only [List.getElem?_cons_zero, Option.some_inj] at h
      subst h
      simp
    | succ i =>
      simp only [List.getElem?_cons_succ] at h
      obtain ⟨h1, h2⟩ := ih h
      exact ⟨by simpa using h1, List.mem_cons_of_mem _ h2⟩

theorem mem_insertByWeight {e x : Int × Nat × Nat} {l : List (Int × Nat × Nat)} :
    x ∈ insertByWeight e l ↔ x = e ∨ x ∈ l := by
  induction l with
  | nil => simp [insertByWeight]
  | cons y t ih =>
    by_cases h : e.1 < y.1
    · simp [insertByWeight, h]
    · simp only [insertByWeight, if_neg h, List.mem_cons, ih]
      tauto

theorem mem_sortByWeight {l : List (Int × Nat × Nat)} {x : Int × Nat × Nat} :
    x ∈ sortByWeight l ↔ x ∈ l := by
  induction l with
  | nil => simp [sortByWeight]
  | cons e t ih =>
    show x ∈ insertByWeight e (sortByWeight t) ↔ _
    rw [mem_insertByWeight, ih, List.mem_cons]

theorem collect_inner_pred (a : Adj) (u : Nat)
    (hu : ∀ vw : Nat × Int, vw ∈ adjOf a u → (vw.1, vw.2) ∈ adjOf a u) :
    ∀ (nl : Nbrs) (acc : List (Int × Nat × Nat) × List (Nat × Nat)),
      (∀ vw ∈ nl, vw ∈ adjOf a u) →
      (∀ x ∈ acc.1, (x.2.2, x.1) ∈ adjOf a x.2.1 ∧ x.2.1 ≠ x.2.2) →
      ∀ x ∈ (nl.foldl (fun acc2 vw =>
          if u ≠ vw.1 ∧ (vw.1, u) ∉ acc2.2 then
            (acc2.1 ++ [(vw.2, u, vw.1)], acc2.2 ++ [(u, vw.1)])
          else acc2) acc).1,
        (x.2.2, x.1) ∈ adjOf a x.2.1 ∧ x.2.1 ≠ x.2.2 := by
  intro nl
  induction nl with
  | nil => intro acc _ hacc x hx; exact hacc x hx
  | cons vw t ih =>
    intro acc hmem hacc x hx
    refine ih _ (fun y hy => hmem y (List.mem_cons_of_mem _ hy)) ?_ x hx
    intro y hy
    dsimp only at hy
    by_cases hc : u ≠ vw.1 ∧ (vw.1, u) ∉ acc.2
    · rw [if_pos hc] at hy
      rcases List.mem_append.mp hy with hy | hy
      · exact hacc y hy
      · have : y = (vw.2, u, vw.1) := List.mem_singleton.mp hy
        subst this
        exact ⟨hmem vw (List.mem_cons_self _ _), hc.1⟩
    · rw [if_neg hc] at hy
      exact hacc y hy

theorem collectEdges_pred {a : Adj} (hs : SortedA a) :
    ∀ x ∈ collectEdges a, (x.2.2, x.1) ∈ adjOf a x.2.1 ∧ x.2.1 ≠ x.2.2 := by
  unfold collectEdges
  have main : ∀ (l : List (Nat × Nbrs)) (acc : List (Int × Nat × Nat) × List (Nat × Nat)),
      (∀ p ∈ l, p ∈ a) →
      (∀ x ∈ acc.1, (x.2.2, x.1) ∈ adjOf a x.2.1 ∧ x.2.1 ≠ x.2.2) →
      ∀ x ∈ (l.foldl (fun acc p =>
          p.2.foldl (fun acc2 vw =>
            if p.1 ≠ vw.1 ∧ (vw.1, p.1) ∉ acc2.2 then
              (acc2.1 ++ [(vw.2, p.1, vw.1)], acc2.2 ++ [(p.1, vw.1)])
            else acc2) acc) acc).1,
        (x.2.2, x.1) ∈ adjOf a x.2.1 ∧ x.2.1 ≠ x.2.2 := by
    intro l
    induction l with
    | nil => intro acc _ hacc x hx; exact hacc x hx
    | cons p t ih =>
      intro acc hmem hacc x hx
      refine ih _ (fun y hy => hmem y (List.mem_cons_of_mem _ hy)) ?_ x hx
      have hpa : p ∈ a := hmem p (List.mem_cons_self _ _)
      have hl : lookupA p.1 a = some p.2 := by
        obtain ⟨k, ns⟩ := p
        exact lookupA_of_mem_sorted hs hpa
      have hadj : adjOf a p.1 = p.2 := by
        unfold adjOf
        rw [hl]
        rfl
      refine collect_inner_pred a p.1 (fun vw h => h) p.2 acc ?_ hacc
      intro vw hvw
      rw [hadj]
      exact hvw
  intro x hx
  exact main a ([], []) (fun p hp => hp) (fun y hy => absurd hy (List.not_mem_nil y)) x hx

theorem kruskalFold_edges (a : Adj) (n : Nat) :
    ∀ (edges : List (Int × Nat × Nat)) (d : DSU) (es : List (Nat × Nat)) (tot : Int)
      (res : List (Nat × Nat) × Int × DSU),
      (∀ e ∈ edges, (e.2.2, e.1) ∈ adjOf a e.2.1 ∧ e.2.1 ≠ e.2.2) →
      (∀ e ∈ es, e.1 ≠ e.2) →
      WeightedEdges a es tot →
      kruskalFold a n edges d es tot = some res →
      (∀ e ∈ res.1, e.1 ≠ e.2) ∧ WeightedEdges a res.1 res.2.1 := by
  intro edges
  induction edges with
  | nil =>
    intro d es tot res _ hes hwe h
    rw [kruskalFold] at h
    obtain rfl := Option.some_inj.mp h
    exact ⟨hes, hwe⟩
  | cons e rest ih =>
    intro d es tot res hed hes hwe h
    obtain ⟨w, u, v⟩ := e
    rw [kruskalFold] at h
    rcases h1 : findSet n d.parent (vIndex a u) with _ | p1
    · rw [h1] at h
      exact Option.noConfusion h
    · rw [h1] at h
      obtain ⟨su, par1⟩ := p1
      dsimp only at h
      rcases h2 : findSet n par1 (vIndex a v) with _ | p2
      · rw [h2] at h
        exact Option.noConfusion h
      · rw [h2] at h
        obtain ⟨sv, par2⟩ := p2
        dsimp only at h
        obtain ⟨hadj, hne⟩ := hed (w, u, v) (List.mem_cons_self _ _)
        by_cases hsu : su ≠ sv
        · rw [if_pos hsu] at h
          rcases h3 : unionSets n ⟨par2, d.rnk⟩ su sv with _ | p3
          · rw [h3] at h
            exact Option.noConfusion h
          · rw [h3] at h
            obtain ⟨b, d3⟩ := p3
            refine ih d3 _ _ res (fun e he => hed e (List.mem_cons_of_mem _ he)) ?_ ?_ h
            · intro e he
              rcases List.mem_append.mp he with he | he
              · exact hes e he
              · rw [List.mem_singleton.mp he]
                exact hne
            · exact weightedEdges_snoc hwe hadj hne
        · rw [if_neg hsu] at h
          exact ih ⟨par2, d.rnk⟩ es tot res
            (fun e he => hed e (List.mem_cons_of_mem _ he)) hes hwe h

theorem foldl_option_none {α β : Type} (f : Option β → α → Option β)
    (hf : ∀ x, f none x = none) (l : List α) : l.foldl f none = none := by
  induction l with
  | nil => rfl
  | cons x t ih => simp only [List.foldl_cons, hf x, ih]

theorem scanStep_inv (a : Adj) (n : Nat) (edges : List (Int × Nat × Nat))
    (hed : ∀ e ∈ edges, (e.2.2, e.1) ∈ adjOf a e.2.1 ∧ e.2.1 ≠ e.2.2)
    {ie : Nat × (Int × Nat × Nat)} (hie : ie ∈ edges.enum)
    (st : DSU × List (Option Nat))
    (hch : ∀ i j, st.2.getD i none = some j →
      ((edges.getD j (0, 0, 0)).2.2, (edges.getD j (0, 0, 0)).1) ∈
        adjOf a (edges.getD j (0, 0, 0)).2.1 ∧
      (edges.getD j (0, 0, 0)).2.1 ≠ (edges.getD j (0, 0, 0)).2.2) :
    ∀ st1, boruvkaScanStep a n edges (some st) ie = some st1 →
      ∀ i j, st1.2.getD i none = some j →
        ((edges.getD j (0, 0, 0)).2.2, (edges.getD j (0, 0, 0)).1) ∈
          adjOf a (edges.getD j (0, 0, 0)).2.1 ∧
        (edges.getD j (0, 0, 0)).2.1 ≠ (edges.getD j (0, 0, 0)).2.2 := by
  intro st1 hstep
  obtain ⟨d, ch⟩ := st
  unfold boruvkaScanStep at hstep
  dsimp only at hstep
  have hset : ∀ (chx : List (Option Nat)) (tgt : Nat),
      (∀ i j, chx.getD i none = some j →
        ((edges.getD j (0, 0, 0)).2.2, (edges.getD j (0, 0, 0)).1) ∈
          adjOf a (edges.getD j (0, 0, 0)).2.1 ∧
        (edges.getD j (0, 0, 0)).2.1 ≠ (edges.getD j (0, 0, 0)).2.2) →
      ∀ i j, (chx.set tgt (some ie.1)).getD i none = some j →
        ((edges.getD j (0, 0, 0)).2.2, (edges.getD j (0, 0, 0)).1) ∈
          adjOf a (edges.getD j (0, 0, 0)).2.1 ∧
        (edges.getD j (0, 0, 0)).2.1 ≠ (edges.getD j (0, 0, 0)).2.2 := by
    intro chx tgt hchx i j hj
    rw [getD_set] at hj
    by_cases hc : i = tgt ∧ tgt < chx.length
    · rw [if_pos hc] at hj
      have hje : j = ie.1 := Option.some_inj.mp hj.symm
      subst hje
      have hget : edges[ie.1]? = some ie.2 := List.mk_mem_enum_iff_getElem?.mp hie
      obtain ⟨hgd, hmem2⟩ := getD_of_getElem? (0, 0, 0) hget
      rw [hgd]
      exact hed ie.2 hmem2
    · rw [if_neg hc] at hj
      exact hchx i j hj
  rcases h1 : findSet n d.parent (vIndex a ie.2.2.1) with _ | p1
  · rw [h1] at hstep
    exact Option.noConfusion hstep
  · rw [h1] at hstep
    obtain ⟨s1, par1⟩ := p1
    dsimp only at hstep
    rcases h2 : findSet n par1 (vIndex a ie.2.2.2) with _ | p2
    · rw [h2] at hstep
      exact Option.noConfusion hstep
    · rw [h2] at hstep
      obtain ⟨s2, par2⟩ := p2
      dsimp only at hstep
      by_cases hs : s1 = s2
      · rw [if_pos hs] at hstep
        obtain rfl := Option.some_inj.mp hstep
        exact hch
      · rw [if_neg hs] at hstep
        obtain rfl := Option.some_inj.mp hstep
        dsimp only
        by_cases hc1 : cheaperAt edges ch s1 ie.2.1
        · rw [if_pos hc1]
          by_cases hc2 : cheaperAt edges (ch.set s1 (some ie.1)) s2 ie.2.1
          · rw [if_pos hc2]
            exact hset _ s2 (hset _ s1 hch)
          · rw [if_neg hc2]
            exact hset _ s1 hch
        · rw [if_neg hc1]
          by_cases hc2 : cheaperAt edges ch s2 ie.2.1
          · rw [if_pos hc2]
            exact hset _ s2 hch
          · rw [if_neg hc2]
            exact hch

theorem boruvkaScan_inv (a : Adj) (n : Nat) (edges : List (Int × Nat × Nat))
    (hed : ∀ e ∈ edges, (e.2.2, e.1) ∈ adjOf a e.2.1 ∧ e.2.1 ≠ e.2.2) :
    ∀ (l : List (Nat × (Int × Nat × Nat))), (∀ ie ∈ l, ie ∈ edges.enum) →
    ∀ (st : DSU × List (Option Nat)),
    (∀ i j, st.2.getD i none = some j →
      ((edges.getD j (0, 0, 0)).2.2, (edges.getD j (0, 0, 0)).1) ∈
        adjOf a (edges.getD j (0, 0, 0)).2.1 ∧
      (edges.getD j (0, 0, 0)).2.1 ≠ (edges.getD j (0, 0, 0)).2.2) →
    ∀ res, l.foldl (boruvkaScanStep a n edges) (some st) = some res →
    (∀ i j, res.2.getD i none = some j →
      ((edges.getD j (0, 0, 0)).2.2, (edges.getD j (0, 0, 0)).1) ∈
        adjOf a (edges.getD j (0, 0, 0)).2.1 ∧
      (edges.getD j (0, 0, 0)).2.1 ≠ (edges.getD j (0, 0, 0)).2.2) := by
  intro l
  induction l with
  | nil =>
    intro _ st hch res h
    obtain rfl := Option.some_inj.mp h
    exact hch
  | cons ie t ih =>
    intro hmem st hch res h
    rw [List.foldl_cons] at h
    rcases hstep : boruvkaScanStep a n edges (some st) ie with _ | st1
    · rw [hstep] at h
      rw [foldl_option_none _ (fun x => rfl)] at h
      exact Option.noConfusion h
    · rw [hstep] at h
      exact ih (fun x hx => hmem x (List.mem_cons_of_mem _ hx)) st1
        (scanStep_inv a n edges hed (hmem ie (List.mem_cons_self _ _)) st hch st1 hstep)
        res h

theorem commitStep_inv (a : Adj) (n : Nat) (edges : List (Int × Nat × Nat))
    (ch : List (Option Nat))
    (hch : ∀ i j, ch.getD i none = some j →
      ((edges.getD j (0, 0, 0)).2.2, (edges.getD j (0, 0, 0)).1) ∈
        adjOf a (edges.getD j (0, 0, 0)).2.1 ∧
      (edges.getD j (0, 0, 0)).2.1 ≠ (edges.getD j (0, 0, 0)).2.2)
    (st : DSU × List (Nat × Nat) × Int × Nat × Bool)
    (hes : ∀ e ∈ st.2.1, e.1 ≠ e.2) (hwe : WeightedEdges a st.2.1 st.2.2.1) (i : Nat) :
    ∀ st1, boruvkaCommitStep a n edges ch (some st) i = some st1 →
      (∀ e ∈ st1.2.1, e.1 ≠ e.2) ∧ WeightedEdges a st1.2.1 st1.2.2.1 := by
  intro st1 hstep
  obtain ⟨d, es, tot, nt, anyU⟩ := st
  unfold boruvkaCommitStep at hstep
  dsimp only at hstep
  rcases hc : ch.getD i none with _ | j
  · rw [hc] at hstep
    obtain rfl := Option.some_inj.mp hstep
    exact ⟨hes, hwe⟩
  · rw [hc] at hstep
    dsimp only at hstep
    rcases h1 : findSet n d.parent (vIndex a (edges.getD j (0, 0, 0)).2.1) with _ | p1
    · rw [h1] at hstep
      exact Option.noConfusion hstep
    · rw [h1] at hstep
      obtain ⟨s1, par1⟩ := p1
      dsimp only at hstep
      rcases h2 : findSet n par1 (vIndex a (edges.getD j (0, 0, 0)).2.2) with _ | p2
      · rw [h2] at hstep
        exact Option.noConfusion hstep
      · rw [h2] at hstep
        obtain ⟨s2, par2⟩ := p2
        dsimp only at hstep
        by_cases hs : s1 = s2
        · rw [if_pos hs] at hstep
          obtain rfl := Option.some_inj.mp hstep
          exact ⟨hes, hwe⟩
        · rw [if_neg hs] at hstep
          rcases h3 : unionSets n ⟨par2, d.rnk⟩ s1 s2 with _ | p3
          · rw [h3] at hstep
            exact Option.noConfusion hstep
          · rw [h3] at hstep
            obtain ⟨b, d3⟩ := p3
            dsimp only at hstep
            obtain ⟨hadj, hne⟩ := hch i j hc
            rcases b with _ | _
            · rw [if_neg (by simp)] at hstep
              obtain rfl := Option.some_inj.mp hstep
              exact ⟨hes, hwe⟩
            · rw [if_pos rfl] at hstep
              obtain rfl := Option.some_inj.mp hstep
              refine ⟨?_, weightedEdges_snoc hwe hadj hne⟩
              intro e he
              rcases List.mem_append.mp he with he | he
              · exact hes e he
              · rw [List.mem_singleton.mp he]
                exact hne

theorem boruvkaCommit_inv (a : Adj) (n : Nat) (edges : List (Int × Nat × Nat))
    (ch : List (Option Nat))
    (hch : ∀ i j, ch.getD i none = some j →
      ((edges.getD j (0, 0, 0)).2.2, (edges.getD j (0, 0, 0)).1) ∈
        adjOf a (edges.getD j (0, 0, 0)).2.1 ∧
      (edges.getD j (0, 0, 0)).2.1 ≠ (edges.getD j (0, 0, 0)).2.2) :
    ∀ (l : List Nat) (st : DSU × List (Nat × Nat) × Int × Nat × Bool),
      (∀ e ∈ st.2.1, e.1 ≠ e.2) → WeightedEdges a st.2.1 st.2.2.1 →
      ∀ res, l.foldl (boruvkaCommitStep a n edges ch) (some st) = some res →
      (∀ e ∈ res.2.1, e.1 ≠ e.2) ∧ WeightedEdges a res.2.1 res.2.2.1 := by
  intro l
  induction l with
  | nil =>
    intro st hes hwe res h
    obtain rfl := Option.some_inj.mp h
    exact ⟨hes, hwe⟩
  | cons i t ih =>
    intro st hes hwe res h
    rw [List.foldl_cons] at h
    rcases hstep : boruvkaCommitStep a n edges ch (some st) i with _ | st1
    · rw [hstep] at h
      rw [foldl_option_none _ (fun x => rfl)] at h
      exact Option.noConfusion h
    · rw [hstep] at h
      obtain ⟨hes1, hwe1⟩ := commitStep_inv a n edges ch hch st hes hwe i st1 hstep
      exact ih st1 hes1 hwe1 res h

theorem boruvkaLoop_edges (a : Adj) (n : Nat) (edges : List (Int × Nat × Nat))
    (hed : ∀ e ∈ edges, (e.2.2, e.1) ∈ adjOf a e.2.1 ∧ e.2.1 ≠ e.2.2) :
    ∀ (fuel : Nat) (dsu : DSU) (es : List (Nat × Nat)) (tot : Int) (nt : Nat)
      (res : List (Nat × Nat) × Int),
      (∀ e ∈ es, e.1 ≠ e.2) → WeightedEdges a es tot →
      boruvkaLoop a n edges fuel dsu es tot nt = some res →
      (∀ e ∈ res.1, e.1 ≠ e.2) ∧ WeightedEdges a res.1 res.2 := by
  intro fuel
  induction fuel with
  | zero =>
    intro dsu es tot nt res _ _ h
    exact absurd h (by simp [boruvkaLoop])
  | succ fuel ih =>
    intro dsu es tot nt res hes hwe h
    rw [boruvkaLoop] at h
    by_cases hnt : nt > 1
    · rw [if_pos hnt] at h
      rcases h1 : boruvkaScan a n edges dsu (List.replicate n none) with _ | p1
      · rw [h1] at h
        exact Option.noConfusion h
      · rw [h1] at h
        obtain ⟨dsu1, ch⟩ := p1
        dsimp only at h
        have hch := boruvkaScan_inv a n edges hed edges.enum (fun ie hie => hie)
          (dsu, List.replicate n none)
          (fun i j hj => absurd hj (by rw [getD_replicate_none]; simp))
          (dsu1, ch) h1
        rcases h2 : boruvkaCommit a n edges ch dsu1 es tot nt false with _ | p2
        · rw [h2] at h
          exact Option.noConfusion h
        · rw [h2] at h
          obtain ⟨dsu2, es2, tot2, nt2, anyU⟩ := p2
          dsimp only at h
          have hcommit := boruvkaCommit_inv a n edges ch hch (List.range n)
            (dsu1, es, tot, nt, false) hes hwe (dsu2, es2, tot2, nt2, anyU) h2
          rcases anyU with _ | _
          · rw [if_neg (by simp)] at h
            obtain rfl := Option.some_inj.mp h
            exact hcommit
          · rw [if_pos rfl] at h
            exact ih dsu2 es2 tot2 nt2 res hcommit.1 hcommit.2 h
    · rw [if_neg hnt] at h
      obtain rfl := Option.some_inj.mp h
      exact ⟨hes, hwe⟩

/-- C9: on an undirected graph no edge returned by any of the three MST
algorithms is a self-loop, and every returned total weight is a sum of
weights of stored non-self-loop edges (self-loops never contribute). -/
theorem claim_C9 (g : Graph) (hw : g.Wf) (hd : g.directed = false) :
    (∀ res, g.mst_prim = some res →
      (∀ e ∈ res.1, e.1 ≠ e.2) ∧ WeightedEdges g.adjList res.1 res.2) ∧
    (∀ res, g.mst_kruskal = some res →
      (∀ e ∈ res.1, e.1 ≠ e.2) ∧ WeightedEdges g.adjList res.1 res.2) ∧
    (∀ res, g.mst_boruvka = some res →
      (∀ e ∈ res.1, e.1 ≠ e.2) ∧ WeightedEdges g.adjList res.1 res.2) := by
  have hnd : ¬ g.directed = true := by simp [hd]
  refine ⟨?_, ?_, ?_⟩
  · intro res h
    unfold Graph.mst_prim at h
    rcases harl : g.adjList with _ | ⟨⟨start, ns⟩, t⟩
    · rw [harl] at h
      dsimp only at h
      obtain rfl := Option.some_inj.mp h
      exact ⟨fun e he => absurd he (List.not_mem_nil e), weightedEdges_nil _⟩
    · rw [harl] at h
      dsimp only at h
      rw [if_neg hnd] at h
      have hadjstart : adjOf ((start, ns) :: t) start = ns := by
        unfold adjOf
        rw [lookupA, if_pos rfl]
        rfl
      refine primLoop_edges ((start, ns) :: t) _ _ _ _ _ res ?_
        (fun e he => absurd he (List.not_mem_nil e)) (weightedEdges_nil _) h
      refine primInit_pred _ start ns [] (fun x hx => absurd hx (List.not_mem_nil x)) ?_
      intro tw htw
      refine ⟨List.mem_singleton.mpr rfl, ?_⟩
      rw [hadjstart]
      exact htw
  · intro res h
    unfold Graph.mst_kruskal at h
    by_cases ha : g.adjList = []
    · rw [if_pos ha] at h
      obtain rfl := Option.some_inj.mp h
      exact ⟨fun e he => absurd he (List.not_mem_nil e), weightedEdges_nil _⟩
    · rw [if_neg ha, if_neg hnd] at h
      rcases hk : kruskalFold g.adjList g.adjList.length
          (sortByWeight (collectEdges g.adjList)) (DSU.init g.adjList.length) [] 0
        with _ | r
      · rw [hk] at h
        exact Option.noConfusion h
      · rw [hk] at h
        obtain rfl := Option.some_inj.mp (h.symm ▸ rfl : some (r.1, r.2.1) = some res)
        exact kruskalFold_edges g.adjList g.adjList.length _ _ _ _ r
          (fun e he => collectEdges_pred hw.sorted e (mem_sortByWeight.mp he))
          (fun e he => absurd he (List.not_mem_nil e)) (weightedEdges_nil _) hk
  · intro res h
    unfold Graph.mst_boruvka at h
    rw [if_neg hnd] at h
    by_cases hn : g.adjList.length = 0
    · rw [if_pos hn] at h
      obtain rfl := Option.some_inj.mp h
      exact ⟨fun e he => absurd he (List.not_mem_nil e), weightedEdges_nil _⟩
    · rw [if_neg hn] at h
      exact boruvkaLoop_edges g.adjList g.adjList.length (collectEdges g.adjList)
        (fun e he => collectEdges_pred hw.sorted e he) _ _ _ _ _ res
        (fun e he => absurd he (List.not_mem_nil e)) (weightedEdges_nil _) h

/-- Witness instantiating `claim_C9` on the concrete graph `gW`. -/
theorem claim_C9_witness :
    (∀ res, gW.mst_prim = some res →
      (∀ e ∈ res.1, e.1 ≠ e.2) ∧ WeightedEdges gW.adjList res.1 res.2) ∧
    (∀ res, gW.mst_kruskal = some res →
      (∀ e ∈ res.1, e.1 ≠ e.2) ∧ WeightedEdges gW.adjList res.1 res.2) ∧
    (∀ res, gW.mst_boruvka = some res →
      (∀ e ∈ res.1, e.1 ≠ e.2) ∧ WeightedEdges gW.adjList res.1 res.2) :=
  claim_C9 gW (by decide) rfl

/-! ### DSU verification -/

theorem parIter_add (par : List Nat) (k m v : Nat) :
    parIter par (k + m) v = parIter par m (parIter par k v) := by
  induction k generalizing v with
  | zero =>
    rw [Nat.zero_add]
    rfl
  | succ k ih =>
    have : k + 1 + m = (k + m) + 1 := by omega
    rw [this]
    show parIter par (k + m) (parAt par v) = _
    rw [ih (parAt par v)]
    rfl

theorem parIter_root_fix {par : List Nat} {r : Nat} (h : IsRootP par r) :
    ∀ k, parIter par k r = r := by
  intro k
  induction k with
  | zero => rfl
  | succ k ih =>
    show parIter par k (parAt par r) = r
    rw [h]
    exact ih

theorem rootedAt_unique {par : List Nat} {v r1 r2 : Nat}
    (h1 : RootedAt par v r1) (h2 : RootedAt par v r2) : r1 = r2 := by
  obtain ⟨k1, hk1, hr1⟩ := h1
  obtain ⟨k2, hk2, hr2⟩ := h2
  rcases Nat.le_total k1 k2 with h | h
  · have : k2 = k1 + (k2 - k1) := by omega
    rw [this, parIter_add, hk1, parIter_root_fix hr1] at hk2
    exact hk2
  · have : k1 = k2 + (k1 - k2) := by omega
    rw [this, parIter_add, hk2, parIter_root_fix hr2] at hk1
    exact hk1.symm

theorem parIter_lt {n : Nat} {par : List Nat}
    (hr : ∀ i, i < n → parAt par i < n) {v : Nat} (hv : v < n) :
    ∀ k, parIter par k v < n := by
  intro k
  induction k generalizing v with
  | zero => exact hv
  | succ k ih => exact ih (hr v hv)

theorem getD_of_length_le {α : Type} {l : List α} {i : Nat} (d : α)
    (h : l.length ≤ i) : l.getD i d = d := by
  induction l generalizing i with
  | nil => simp
  | cons a t ih =>
    cases i with
    | zero => simp at h
    | succ i => simpa using ih (by simpa using h)

theorem set_of_length_le {α : Type} {l : List α} {i : Nat} (x : α)
    (h : l.length ≤ i) : l.set i x = l := by
  induction l generalizing i with
  | nil => rfl
  | cons a t ih =>
    cases i with
    | zero => simp at h
    | succ i =>
      show a :: t.set i x = a :: t
      rw [ih (by simpa using h)]

theorem parAt_set {par : List Nat} {v r : Nat} (hv : v < par.length) (x : Nat) :
    parAt (par.set v r) x = if x = v then r else parAt par x := by
  unfold parAt
  rw [getD_set]
  by_cases hx : x = v
  · rw [if_pos hx, if_pos ⟨hx, hv⟩]
  · rw [if_neg hx, if_neg (fun hc => hx hc.1)]

theorem depth_lt_of_rooted {n : Nat} {par : List Nat} (hwf : DsuWf n par)
    {v : Nat} (hv : v < n) (hroot : ∃ k, IsRootP par (parIter par k v)) :
    ∃ k, k < n ∧ IsRootP par (parIter par k v) := by
  obtain ⟨hlen, hrange, _⟩ := hwf
  classical
  have hex : ∃ k, IsRootP par (parIter par k v) := hroot
  let k0 := Nat.find hex
  have hk0 : IsRootP par (parIter par k0 v) := Nat.find_spec hex
  by_cases hlt : k0 < n
  · exact ⟨k0, hlt, hk0⟩
  · exfalso
    -- pigeonhole: the first k0+1 chain nodes live in range n < k0+1
    have hmaps : ∀ j ∈ Finset.range (k0 + 1), parIter par j v ∈ Finset.range n := by
      intro j _
      exact Finset.mem_range.mpr (parIter_lt hrange hv j)
    have hcard : (Finset.range n).card < (Finset.range (k0 + 1)).card := by
      simp only [Finset.card_range]
      omega
    obtain ⟨i, hi, j, hj, hij, heq⟩ :=
      Finset.exists_ne_map_eq_of_card_lt_of_maps_to hcard hmaps
    rw [Finset.mem_range] at hi hj
    -- wlog i < j
    rcases Nat.lt_or_ge i j with hlt2 | hge
    · have hper : ∀ d, parIter par (i + d) v = parIter par (j + d) v := by
        intro d
        rw [parIter_add, parIter_add, heq]
      have hroot2 : IsRootP par (parIter par (k0 - (j - i)) v) := by
        have h1 : k0 - (j - i) = i + (k0 - j) := by omega
        rw [h1, hper (k0 - j)]
        have h2 : j + (k0 - j) = k0 := by omega
        rw [h2]
        exact hk0
      have := Nat.find_min hex (m := k0 - (j - i)) (by omega)
      exact this hroot2
    · have hlt2 : j < i := by omega
      have hper : ∀ d, parIter par (j + d) v = parIter par (i + d) v := by
        intro d
        rw [parIter_add, parIter_add, heq]
      have hroot2 : IsRootP par (parIter par (k0 - (i - j)) v) := by
        have h1 : k0 - (i - j) = j + (k0 - i) := by omega
        rw [h1, hper (k0 - i)]
        have h2 : i + (k0 - i) = k0 := by omega
        rw [h2]
        exact hk0
      have := Nat.find_min hex (m := k0 - (i - j)) (by omega)
      exact this hroot2

theorem set_root_preserves {n : Nat} {par : List Nat} {v r : Nat}
    (hwf : DsuWf n par) (hroot : RootedAt par v r) :
    DsuWf n (par.set v r) ∧
    (∀ x r2, RootedAt par x r2 ↔ RootedAt (par.set v r) x r2) ∧
    (∀ x, IsRootP par x ↔ IsRootP (par.set v r) x) := by
  obtain ⟨hlen, hrange, hrooted⟩ := hwf
  have hrr : IsRootP par r := hroot.choose_spec.2
  by_cases hv : v < n
  · have hvlen : v < par.length := by rw [hlen]; exact hv
    have hrn : r < n := by
      obtain ⟨k, hk, _⟩ := hroot
      rw [← hk]
      exact parIter_lt hrange hv k
    have hPA : ∀ x, parAt (par.set v r) x = if x = v then r else parAt par x :=
      parAt_set hvlen
    have hroots : ∀ x, IsRootP par x ↔ IsRootP (par.set v r) x := by
      intro x
      unfold IsRootP
      rw [hPA x]
      by_cases hx : x = v
      · rw [if_pos hx]
        constructor
        · intro hxx
          have hvroot : IsRootP par v := by
            unfold IsRootP
            rw [← hx] at *
            exact hxx
          have : r = v := rootedAt_unique hroot ⟨0, rfl, hvroot⟩
          rw [this, hx]
        · intro hrx
          have hrv : r = v := hx ▸ hrx
          have : parAt par v = v := hrv ▸ hrr
          rw [hx, this]
      · rw [if_neg hx]
    have hfwd : ∀ k x r2, parIter par k x = r2 → IsRootP par r2 →
        RootedAt (par.set v r) x r2 := by
      intro k
      induction k with
      | zero =>
        intro x r2 hx hr2
        subst hx
        exact ⟨0, rfl, (hroots x).mp hr2⟩
      | succ k ih =>
        intro x r2 hx hr2
        by_cases hxroot : IsRootP par x
        · have : r2 = x := by
            have h1 : RootedAt par x x := ⟨0, rfl, hxroot⟩
            have h2 : RootedAt par x r2 := ⟨k + 1, hx, hr2⟩
            exact rootedAt_unique h2 h1
          subst this
          exact ⟨0, rfl, (hroots r2).mp hxroot⟩
        · by_cases hxv : x = v
          · have hr2r : r2 = r := by
              refine rootedAt_unique ⟨k + 1, hx, hr2⟩ ?_
              rw [hxv]
              exact hroot
            subst hr2r
            refine ⟨1, ?_, (hroots r2).mp hrr⟩
            show parAt (par.set v r2) x = r2
            rw [hPA x, if_pos hxv]
          · have hx2 : parIter par k (parAt par x) = r2 := hx
            obtain ⟨k2, hk2, hr2b⟩ := ih (parAt par x) r2 hx2 hr2
            refine ⟨k2 + 1, ?_, hr2b⟩
            show parIter (par.set v r) k2 (parAt (par.set v r) x) = r2
            rw [hPA x, if_neg hxv]
            exact hk2
    have hbwd : ∀ k x r2, parIter (par.set v r) k x = r2 →
        IsRootP (par.set v r) r2 → RootedAt par x r2 := by
      intro k
      induction k with
      | zero =>
        intro x r2 hx hr2
        subst hx
        exact ⟨0, rfl, (hroots x).mpr hr2⟩
      | succ k ih =>
        intro x r2 hx hr2
        by_cases hxroot : IsRootP (par.set v r) x
        · have : r2 = x := by
            have h1 : RootedAt (par.set v r) x x := ⟨0, rfl, hxroot⟩
            have h2 : RootedAt (par.set v r) x r2 := ⟨k + 1, hx, hr2⟩
            exact rootedAt_unique h2 h1
          subst this
          exact ⟨0, rfl, (hroots r2).mpr hxroot⟩
        · by_cases hxv : x = v
          · have hstep : parIter (par.set v r) k (parAt (par.set v r) x) = r2 := hx
            rw [hPA x, if_pos hxv] at hstep
            have hr2r : r2 = r := by
              have hrr2 : IsRootP (par.set v r) r := (hroots r).mp hrr
              have h1 : RootedAt (par.set v r) r r := ⟨0, rfl, hrr2⟩
              have h2 : RootedAt (par.set v r) r r2 := ⟨k, hstep, hr2⟩
              exact rootedAt_unique h2 h1
            subst hr2r
            rw [hxv]
            exact hroot
          · have hstep : parIter (par.set v r) k (parAt (par.set v r) x) = r2 := hx
            rw [hPA x, if_neg hxv] at hstep
            obtain ⟨k2, hk2, hr2b⟩ := ih (parAt par x) r2 hstep hr2
            exact ⟨k2 + 1, hk2, hr2b⟩
    refine ⟨⟨by rw [List.length_set]; exact hlen, ?_, ?_⟩, ?_, hroots⟩
    · intro i hi
      rw [hPA i]
      by_cases hx : i = v
      · rw [if_pos hx]
        exact hrn
      · rw [if_neg hx]
        exact hrange i hi
    · intro x hx
      obtain ⟨k, hk⟩ := hrooted x hx
      obtain ⟨k2, hk2, hr2⟩ := hfwd k x (parIter par k x) rfl hk
      exact ⟨k2, hk2 ▸ hr2⟩
    · intro x r2
      constructor
      · rintro ⟨k, hk, hr2⟩
        exact hfwd k x r2 hk hr2
      · rintro ⟨k, hk, hr2⟩
        exact hbwd k x r2 hk hr2
  · have hvlen : par.length ≤ v := by omega
    rw [set_of_length_le r hvlen]
    exact ⟨⟨hlen, hrange, hrooted⟩, fun x r2 => Iff.rfl, fun x => Iff.rfl⟩

theorem findSet_go {n : Nat} (par : List Nat) :
    ∀ (k fuel : Nat) (v r : Nat),
      DsuWf n par → parIter par k v = r → IsRootP par r → k < fuel →
      ∃ par2, findSet fuel par v = some (r, par2) ∧ DsuWf n par2 ∧
        (∀ x r2, RootedAt par x r2 ↔ RootedAt par2 x r2) ∧
        (∀ x, IsRootP par x ↔ IsRootP par2 x) := by
  intro k
  induction k with
  | zero =>
    intro fuel v r hwf hx hr hfuel
    have hrv : v = r := hx
    subst hrv
    cases fuel with
    | zero => omega
    | succ f =>
      refine ⟨par, ?_, hwf, fun x r2 => Iff.rfl, fun x => Iff.rfl⟩
      have hc : v = par.getD v v := hr.symm
      rw [findSet, if_pos hc]
  | succ k ih =>
    intro fuel v r hwf hx hr hfuel
    cases fuel with
    | zero => omega
    | succ f =>
      by_cases hvroot : IsRootP par v
      · have hrv : r = v :=
          rootedAt_unique ⟨k + 1, hx, hr⟩ ⟨0, rfl, hvroot⟩
        subst hrv
        refine ⟨par, ?_, hwf, fun x r2 => Iff.rfl, fun x => Iff.rfl⟩
        have hc : r = par.getD r r := hvroot.symm
        rw [findSet, if_pos hc]
      · have hx2 : parIter par k (parAt par v) = r := hx
        obtain ⟨par2, hfind, hwf2, heqv, hroots2⟩ :=
          ih f (parAt par v) r hwf hx2 hr (by omega)
        have hvr : RootedAt par2 v r := (heqv v r).mp ⟨k + 1, hx, hr⟩
        obtain ⟨hwf3, heqv3, hroots3⟩ := set_root_preserves hwf2 hvr
        refine ⟨par2.set v r, ?_, hwf3, ?_, ?_⟩
        · have hc : ¬ v = par.getD v v := fun hh => hvroot hh.symm
          have hfind2 : findSet f par (par.getD v v) = some (r, par2) := hfind
          rw [findSet, if_neg hc, hfind2]
        · intro x r2
          rw [heqv x r2, heqv3 x r2]
        · intro x
          rw [hroots2 x, hroots3 x]

theorem findSet_spec {n : Nat} {par : List Nat} (v : Nat)
    (hwf : DsuWf n par) (hn : 0 < n) :
    ∃ r par2, findSet n par v = some (r, par2) ∧ RootedAt par v r ∧ DsuWf n par2 ∧
      (∀ x r2, RootedAt par x r2 ↔ RootedAt par2 x r2) ∧
      (∀ x, IsRootP par x ↔ IsRootP par2 x) := by
  by_cases hv : v < n
  · obtain ⟨k, hk, hkroot⟩ := depth_lt_of_rooted ⟨hwf.1, hwf.2.1, hwf.2.2⟩ hv (hwf.2.2 v hv)
    obtain ⟨par2, h1, h2, h3, h4⟩ := findSet_go par k n v _ hwf rfl hkroot (by omega)
    exact ⟨_, par2, h1, ⟨k, rfl, hkroot⟩, h2, h3, h4⟩
  · have hroot : IsRootP par v := by
      unfold IsRootP parAt
      rw [getD_of_length_le _ (by rw [hwf.1]; omega : par.length ≤ v)]
    obtain ⟨f, hf⟩ : ∃ f, n = f + 1 := ⟨n - 1, by omega⟩
    refine ⟨v, par, ?_, ⟨0, rfl, hroot⟩, hwf, fun x r2 => Iff.rfl, fun x => Iff.rfl⟩
    have hc : v = par.getD v v := hroot.symm
    rw [hf, findSet, if_pos hc]

theorem set_union_spec {n : Nat} {par : List Nat} {a b : Nat}
    (hwf : DsuWf n par) (ha : IsRootP par a) (hb : IsRootP par b)
    (hab : a ≠ b) (han : a < n) (hbn : b < n) :
    DsuWf n (par.set b a) ∧
    (∀ x r, RootedAt par x r → RootedAt (par.set b a) x (if r = b then a else r)) ∧
    (∀ x, IsRootP (par.set b a) x ↔ (IsRootP par x ∧ x ≠ b)) := by
  obtain ⟨hlen, hrange, hrooted⟩ := hwf
  have hblen : b < par.length := by omega
  have hPA : ∀ x, parAt (par.set b a) x = if x = b then a else parAt par x :=
    parAt_set hblen
  have hroots : ∀ x, IsRootP (par.set b a) x ↔ (IsRootP par x ∧ x ≠ b) := by
    intro x
    unfold IsRootP
    rw [hPA x]
    by_cases hx : x = b
    · rw [if_pos hx]
      constructor
      · intro hax
        exact absurd (hax.trans hx) hab
      · rintro ⟨hx2, hne⟩
        exact absurd hx hne
    · rw [if_neg hx]
      tauto
  have hmap : ∀ k x r, parIter par k x = r → IsRootP par r →
      RootedAt (par.set b a) x (if r = b then a else r) := by
    intro k
    induction k with
    | zero =>
      intro x r hx hr
      have hrx : x = r := hx
      subst hrx
      by_cases hxb : x = b
      · rw [if_pos hxb]
        refine ⟨1, ?_, (hroots a).mpr ⟨ha, hab⟩⟩
        show parAt (par.set b a) x = a
        rw [hPA x, if_pos hxb]
      · rw [if_neg hxb]
        exact ⟨0, rfl, (hroots x).mpr ⟨hr, hxb⟩⟩
    | succ k ih =>
      intro x r hx hr
      by_cases hxroot : IsRootP par x
      · have hrx : r = x :=
          rootedAt_unique ⟨k + 1, hx, hr⟩ ⟨0, rfl, hxroot⟩
        subst hrx
        by_cases hxb : r = b
        · rw [if_pos hxb]
          refine ⟨1, ?_, (hroots a).mpr ⟨ha, hab⟩⟩
          show parAt (par.set b a) r = a
          rw [hPA r, if_pos hxb]
        · rw [if_neg hxb]
          exact ⟨0, rfl, (hroots r).mpr ⟨hxroot, hxb⟩⟩
      · have hxb : x ≠ b := fun hh => hxroot (hh ▸ hb)
        have hx2 : parIter par k (parAt par x) = r := hx
        obtain ⟨k2, hk2, hr2⟩ := ih (parAt par x) r hx2 hr
        refine ⟨k2 + 1, ?_, hr2⟩
        show parIter (par.set b a) k2 (parAt (par.set b a) x) = _
        rw [hPA x, if_neg hxb]
        exact hk2
  refine ⟨⟨by rw [List.length_set]; exact hlen, ?_, ?_⟩, ?_, hroots⟩
  · intro i hi
    rw [hPA i]
    by_cases hx : i = b
    · rw [if_pos hx]
      exact han
    · rw [if_neg hx]
      exact hrange i hi
  · intro x hx
    obtain ⟨k, hk⟩ := hrooted x hx
    obtain ⟨k2, hk2, hr2⟩ := hmap k x (parIter par k x) rfl hk
    exact ⟨k2, hk2 ▸ hr2⟩
  · intro x r hxr
    obtain ⟨k, hk, hr⟩ := hxr
    exact hmap k x r hk hr

theorem unionSets_at_roots {n : Nat} {d : DSU} {a b : Nat}
    (hwf : DsuWf n d.parent) (ha : IsRootP d.parent a) (hb : IsRootP d.parent b)
    (han : a < n) (hbn : b < n) :
    (a = b → unionSets n d a b = some (false, ⟨d.parent, d.rnk⟩)) ∧
    (a ≠ b → ∃ d2 x y, unionSets n d a b = some (true, d2) ∧
      d2.parent = d.parent.set y x ∧
      ((x = a ∧ y = b) ∨ (x = b ∧ y = a))) := by
  obtain ⟨f, hf⟩ : ∃ f, n = f + 1 := ⟨n - 1, by omega⟩
  have hfa : findSet n d.parent a = some (a, d.parent) := by
    have hc : a = d.parent.getD a a := ha.symm
    rw [hf, findSet, if_pos hc]
  have hfb : findSet n d.parent b = some (b, d.parent) := by
    have hc : b = d.parent.getD b b := hb.symm
    rw [hf, findSet, if_pos hc]
  constructor
  · intro hab
    unfold unionSets
    rw [hfa]
    dsimp only
    rw [hfb]
    dsimp only
    rw [if_neg (by simpa using hab)]
  · intro hab
    unfold unionSets
    rw [hfa]
    dsimp only
    rw [hfb]
    dsimp only
    rw [if_pos (by simpa using hab)]
    by_cases hr : d.rnk.getD a 0 < d.rnk.getD b 0
    · simp only [if_pos hr]
      exact ⟨_, b, a, rfl, rfl, Or.inr ⟨rfl, rfl⟩⟩
    · simp only [if_neg hr]
      exact ⟨_, a, b, rfl, rfl, Or.inl ⟨rfl, rfl⟩⟩

/-! ### Counting roots and the equivalence a DSU maintains -/

theorem exists_root {n : Nat} {par : List Nat} (hwf : DsuWf n par) (x : Nat) :
    ∃ r, RootedAt par x r := by
  by_cases hx : x < n
  · obtain ⟨k, hk⟩ := hwf.2.2 x hx
    exact ⟨parIter par k x, k, rfl, hk⟩
  · refine ⟨x, 0, rfl, ?_⟩
    unfold IsRootP parAt
    rw [getD_of_length_le _ (by rw [hwf.1]; omega : par.length ≤ x)]

theorem root_lt {n : Nat} {par : List Nat} (hwf : DsuWf n par) {x r : Nat}
    (hx : x < n) (h : RootedAt par x r) : r < n := by
  obtain ⟨k, hk, _⟩ := h
  rw [← hk]
  exact parIter_lt hwf.2.1 hx k

theorem rootedAt_self {par : List Nat} {r : Nat} (h : IsRootP par r) :
    RootedAt par r r := ⟨0, rfl, h⟩

theorem dsuRel_refl {n : Nat} {par : List Nat} (hwf : DsuWf n par) (x : Nat) :
    dsuRel par x x := by
  obtain ⟨r, hr⟩ := exists_root hwf x
  exact ⟨r, hr, hr⟩

theorem dsuRel_symm {par : List Nat} {x y : Nat} (h : dsuRel par x y) :
    dsuRel par y x := by
  obtain ⟨r, h1, h2⟩ := h
  exact ⟨r, h2, h1⟩

theorem dsuRel_trans {par : List Nat} {x y z : Nat}
    (h1 : dsuRel par x y) (h2 : dsuRel par y z) : dsuRel par x z := by
  obtain ⟨r, hx, hy⟩ := h1
  obtain ⟨r2, hy2, hz⟩ := h2
  exact ⟨r, hx, rootedAt_unique hy2 hy ▸ hz⟩

theorem dsuRel_congr {par par2 : List Nat}
    (h : ∀ x r, RootedAt par x r ↔ RootedAt par2 x r) (x y : Nat) :
    dsuRel par x y ↔ dsuRel par2 x y := by
  unfold dsuRel
  constructor
  · rintro ⟨r, h1, h2⟩
    exact ⟨r, (h x r).mp h1, (h y r).mp h2⟩
  · rintro ⟨r, h1, h2⟩
    exact ⟨r, (h x r).mpr h1, (h y r).mpr h2⟩

theorem rootsBelow_congr {n : Nat} {par par2 : List Nat}
    (h : ∀ x, IsRootP par x ↔ IsRootP par2 x) :
    rootsBelow n par = rootsBelow n par2 := by
  unfold rootsBelow
  refine Finset.filter_congr ?_
  intro x _
  exact h x

theorem parAt_range {n i : Nat} (h : i < n) : parAt (List.range n) i = i := by
  unfold parAt
  rw [List.getD_eq_getElem?_getD, List.getElem?_range h]
  rfl

theorem isRootP_range (n v : Nat) : IsRootP (List.range n) v := by
  unfold IsRootP
  by_cases h : v < n
  · exact parAt_range h
  · unfold parAt
    rw [getD_of_length_le _ (by rw [List.length_range]; omega)]

theorem parIter_range (n : Nat) : ∀ k v, parIter (List.range n) k v = v := by
  intro k
  induction k with
  | zero => intro v; rfl
  | succ k ih =>
    intro v
    show parIter (List.range n) k (parAt (List.range n) v) = v
    rw [show parAt (List.range n) v = v from isRootP_range n v]
    exact ih v

theorem dsuWf_init (n : Nat) : DsuWf n (List.range n) := by
  refine ⟨List.length_range n, ?_, ?_⟩
  · intro i hi
    rw [parAt_range hi]
    exact hi
  · intro v hv
    exact ⟨0, isRootP_range n v⟩

theorem dsuRel_init {n x y : Nat} : dsuRel (List.range n) x y ↔ x = y := by
  constructor
  · rintro ⟨r, ⟨k1, h1, _⟩, ⟨k2, h2, _⟩⟩
    rw [parIter_range n k1 x] at h1
    rw [parIter_range n k2 y] at h2
    rw [h1, ← h2]
  · rintro rfl
    exact ⟨x, ⟨0, rfl, isRootP_range n x⟩, ⟨0, rfl, isRootP_range n x⟩⟩

theorem rootsBelow_init (n : Nat) : rootsBelow n (List.range n) = Finset.range n := by
  unfold rootsBelow
  refine Finset.filter_true_of_mem ?_
  intro i _
  exact isRootP_range n i

theorem eqvGen_mono_closure {r p : Nat → Nat → Prop}
    (h : ∀ i j, r i j → Relation.EqvGen p i j) :
    ∀ x y, Relation.EqvGen r x y → Relation.EqvGen p x y := by
  intro x y hxy
  induction hxy with
  | rel i j hij => exact h i j hij
  | refl i => exact Relation.EqvGen.refl i
  | symm i j _ ih => exact Relation.EqvGen.symm i j ih
  | trans i j k _ _ ih1 ih2 => exact Relation.EqvGen.trans i j k ih1 ih2

theorem eqvGen_congr {r p : Nat → Nat → Prop}
    (h1 : ∀ i j, r i j → Relation.EqvGen p i j)
    (h2 : ∀ i j, p i j → Relation.EqvGen r i j) (x y : Nat) :
    Relation.EqvGen r x y ↔ Relation.EqvGen p x y :=
  ⟨eqvGen_mono_closure h1 x y, eqvGen_mono_closure h2 x y⟩

theorem eqvGen_or_eq {r : Nat → Nat → Prop} (x y : Nat) :
    Relation.EqvGen (fun i j => r i j ∨ i = j) x y ↔ Relation.EqvGen r x y := by
  refine eqvGen_congr ?_ ?_ x y
  · rintro i j (hij | rfl)
    · exact Relation.EqvGen.rel i j hij
    · exact Relation.EqvGen.refl i
  · intro i j hij
    exact Relation.EqvGen.rel i j (Or.inl hij)

theorem union_dsuRel {n : Nat} {par : List Nat} {a b : Nat}
    (hwf : DsuWf n par) (ha : IsRootP par a) (hb : IsRootP par b)
    (hab : a ≠ b) (han : a < n) (hbn : b < n) (x y : Nat) :
    dsuRel (par.set b a) x y ↔
      (dsuRel par x y ∨ (dsuRel par x a ∧ dsuRel par y b) ∨
        (dsuRel par x b ∧ dsuRel par y a)) := by
  have hmap := (set_union_spec hwf ha hb hab han hbn).2.1
  obtain ⟨rx, hrx⟩ := exists_root hwf x
  obtain ⟨ry, hry⟩ := exists_root hwf y
  have hx2 := hmap x rx hrx
  have hy2 := hmap y ry hry
  constructor
  · rintro ⟨r, h1, h2⟩
    have e1 : r = if rx = b then a else rx := rootedAt_unique h1 hx2
    have e2 : r = if ry = b then a else ry := rootedAt_unique h2 hy2
    by_cases hxb : rx = b <;> by_cases hyb : ry = b
    · exact Or.inl ⟨b, hxb ▸ hrx, hyb ▸ hry⟩
    · rw [e1, if_pos hxb, if_neg hyb] at e2
      refine Or.inr (Or.inr ⟨⟨b, hxb ▸ hrx, rootedAt_self hb⟩, ⟨ry, hry, ?_⟩⟩)
      rw [← e2]
      exact rootedAt_self ha
    · rw [e1, if_neg hxb, if_pos hyb] at e2
      refine Or.inr (Or.inl ⟨⟨rx, hrx, ?_⟩, ⟨b, hyb ▸ hry, rootedAt_self hb⟩⟩)
      rw [e2]
      exact rootedAt_self ha
    · rw [e1, if_neg hxb, if_neg hyb] at e2
      exact Or.inl ⟨rx, hrx, e2 ▸ hry⟩
  · rintro (⟨r, h1, h2⟩ | ⟨⟨r1, hx1, ha1⟩, ⟨r2, hy1, hb1⟩⟩ |
      ⟨⟨r1, hx1, hb1⟩, ⟨r2, hy1, ha1⟩⟩)
    · exact ⟨_, hmap x r h1, hmap y r h2⟩
    · have e1 : r1 = a := rootedAt_unique ha1 (rootedAt_self ha)
      have e2 : r2 = b := rootedAt_unique hb1 (rootedAt_self hb)
      have m1 := hmap x a (e1 ▸ hx1)
      have m2 := hmap y b (e2 ▸ hy1)
      rw [if_neg hab] at m1
      rw [if_pos rfl] at m2
      exact ⟨a, m1, m2⟩
    · have e1 : r1 = b := rootedAt_unique hb1 (rootedAt_self hb)
      have e2 : r2 = a := rootedAt_unique ha1 (rootedAt_self ha)
      have m1 := hmap x b (e1 ▸ hx1)
      have m2 := hmap y a (e2 ▸ hy1)
      rw [if_pos rfl] at m1
      rw [if_neg hab] at m2
      exact ⟨a, m1, m2⟩

theorem rootsBelow_union {n : Nat} {par : List Nat} {a b : Nat}
    (hwf : DsuWf n par) (ha : IsRootP par a) (hb : IsRootP par b)
    (hab : a ≠ b) (han : a < n) (hbn : b < n) :
    (rootsBelow n (par.set b a)).card + 1 = (rootsBelow n par).card := by
  have hroots := (set_union_spec hwf ha hb hab han hbn).2.2
  have heq : rootsBelow n (par.set b a) = (rootsBelow n par).erase b := by
    ext i
    simp only [rootsBelow, Finset.mem_filter, Finset.mem_erase, Finset.mem_range]
    constructor
    · rintro ⟨hi, hroot⟩
      have h2 := (hroots i).mp hroot
      exact ⟨h2.2, hi, h2.1⟩
    · rintro ⟨hne, hi, hroot⟩
      exact ⟨hi, (hroots i).mpr ⟨hroot, hne⟩⟩
  rw [heq]
  refine Finset.card_erase_add_one ?_
  simp only [rootsBelow, Finset.mem_filter, Finset.mem_range]
  exact ⟨hbn, hb⟩

theorem getD_mem {α : Type} {l : List α} {i : Nat} (d : α) (h : i < l.length) :
    l.getD i d ∈ l := by
  induction l generalizing i with
  | nil => simp at h
  | cons x t ih =>
    cases i with
    | zero => exact List.mem_cons_self x t
    | succ j =>
      have hj : j < t.length := by simpa using h
      rw [List.getD_cons_succ]
      exact List.mem_cons_of_mem x (ih hj)

theorem getD_indexOf {l : List Nat} {u : Nat} (h : u ∈ l) (d : Nat) :
    l.getD (l.indexOf u) d = u := by
  induction l with
  | nil => cases h
  | cons x t ih =>
    by_cases hx : x = u
    · subst hx
      rw [List.indexOf_cons_self]
      rfl
    · rw [List.indexOf_cons_ne _ hx]
      have hu : u ∈ t := by
        rcases List.mem_cons.mp h with h | h
        · exact absurd h.symm hx
        · exact h
      rw [List.getD_cons_succ]
      exact ih hu

theorem indexOf_getD_of_nodup {l : List Nat} (h : l.Nodup) :
    ∀ i, i < l.length → l.indexOf (l.getD i 0) = i := by
  induction l with
  | nil => intro i hi; simp at hi
  | cons x t ih =>
    intro i hi
    cases i with
    | zero =>
      rw [List.getD_cons_zero]
      exact List.indexOf_cons_self x t
    | succ j =>
      have hj : j < t.length := by simpa using hi
      have hne : x ≠ t.getD j 0 := by
        intro hx
        have hmem : t.getD j 0 ∈ t := getD_mem 0 hj
        rw [← hx] at hmem
        exact (List.nodup_cons.mp h).1 hmem
      rw [List.getD_cons_succ, List.indexOf_cons_ne _ hne]
      rw [ih (List.nodup_cons.mp h).2 j hj]

theorem sortedA_nodup {a : Adj} (hs : SortedA a) : (keys a).Nodup :=
  List.Pairwise.imp (fun h => Nat.ne_of_lt h) hs

theorem keyAt_vIndex {a : Adj} {u : Nat} (h : u ∈ keys a) :
    keyAt a (vIndex a u) = u := getD_indexOf h 0

theorem vIndex_keyAt {a : Adj} (hnd : (keys a).Nodup) {i : Nat}
    (hi : i < (keys a).length) : vIndex a (keyAt a i) = i :=
  indexOf_getD_of_nodup hnd i hi

theorem vIndex_lt {a : Adj} {u : Nat} (h : u ∈ keys a) :
    vIndex a u < a.length := by
  have h2 := List.indexOf_lt_length.mpr h
  unfold vIndex
  rw [← List.length_map a Prod.fst]
  exact h2

theorem keyAt_mem {a : Adj} {i : Nat} (hi : i < a.length) : keyAt a i ∈ keys a := by
  unfold keyAt
  refine getD_mem 0 ?_
  rw [show keys a = a.map Prod.fst from rfl, List.length_map]
  exact hi

theorem adjOf_mem_keys {a : Adj} {u v : Nat} {w : Int}
    (h : (v, w) ∈ adjOf a u) : u ∈ keys a := by
  by_cases hu : u ∈ keys a
  · exact hu
  · exfalso
    have hnone := (lookupA_eq_none u a).mpr hu
    unfold adjOf at h
    rw [hnone] at h
    simp at h

/-! ### Edge collection covers every stored non-loop edge (in one orientation) -/

theorem collect_inner_mono (u : Nat) :
    ∀ (nl : Nbrs) (acc : List (Int × Nat × Nat) × List (Nat × Nat)),
      ∀ x ∈ acc.1, x ∈ (nl.foldl (fun acc2 vw =>
          if u ≠ vw.1 ∧ (vw.1, u) ∉ acc2.2 then
            (acc2.1 ++ [(vw.2, u, vw.1)], acc2.2 ++ [(u, vw.1)])
          else acc2) acc).1 := by
  intro nl
  induction nl with
  | nil => intro acc x hx; exact hx
  | cons vw t ih =>
    intro acc x hx
    rw [List.foldl_cons]
    refine ih _ x ?_
    dsimp only
    by_cases hc : u ≠ vw.1 ∧ (vw.1, u) ∉ acc.2
    · rw [if_pos hc]
      show x ∈ acc.1 ++ [(vw.2, u, vw.1)]
      exact List.mem_append.mpr (Or.inl hx)
    · rw [if_neg hc]
      exact hx

theorem collect_inner_covers (u : Nat) :
    ∀ (nl : Nbrs) (acc : List (Int × Nat × Nat) × List (Nat × Nat)),
      (∀ q ∈ acc.2, ∃ w2, (w2, q.1, q.2) ∈ acc.1) →
      (∀ q ∈ (nl.foldl (fun acc2 vw =>
          if u ≠ vw.1 ∧ (vw.1, u) ∉ acc2.2 then
            (acc2.1 ++ [(vw.2, u, vw.1)], acc2.2 ++ [(u, vw.1)])
          else acc2) acc).2, ∃ w2, (w2, q.1, q.2) ∈ (nl.foldl (fun acc2 vw =>
          if u ≠ vw.1 ∧ (vw.1, u) ∉ acc2.2 then
            (acc2.1 ++ [(vw.2, u, vw.1)], acc2.2 ++ [(u, vw.1)])
          else acc2) acc).1) ∧
      (∀ vw ∈ nl, u ≠ vw.1 →
        ∃ w2, (w2, u, vw.1) ∈ (nl.foldl (fun acc2 vw =>
          if u ≠ vw.1 ∧ (vw.1, u) ∉ acc2.2 then
            (acc2.1 ++ [(vw.2, u, vw.1)], acc2.2 ++ [(u, vw.1)])
          else acc2) acc).1 ∨ (w2, vw.1, u) ∈ (nl.foldl (fun acc2 vw =>
          if u ≠ vw.1 ∧ (vw.1, u) ∉ acc2.2 then
            (acc2.1 ++ [(vw.2, u, vw.1)], acc2.2 ++ [(u, vw.1)])
          else acc2) acc).1) := by
  intro nl
  induction nl with
  | nil =>
    intro acc hinv
    exact ⟨hinv, fun vw h => absurd h (List.not_mem_nil vw)⟩
  | cons vw t ih =>
    intro acc hinv
    rw [List.foldl_cons]
    by_cases hc : u ≠ vw.1 ∧ (vw.1, u) ∉ acc.2
    · rw [if_pos hc]
      have hinv2 : ∀ q ∈ (acc.1 ++ [(vw.2, u, vw.1)], acc.2 ++ [(u, vw.1)]).2,
          ∃ w2, (w2, q.1, q.2) ∈ (acc.1 ++ [(vw.2, u, vw.1)], acc.2 ++ [(u, vw.1)]).1 := by
        intro q hq
        rcases List.mem_append.mp hq with hq | hq
        · obtain ⟨w2, hw2⟩ := hinv q hq
          exact ⟨w2, List.mem_append.mpr (Or.inl hw2)⟩
        · have : q = (u, vw.1) := List.mem_singleton.mp hq
          subst this
          exact ⟨vw.2, List.mem_append.mpr (Or.inr (List.mem_singleton.mpr rfl))⟩
      obtain ⟨hi1, hi2⟩ := ih _ hinv2
      refine ⟨hi1, ?_⟩
      intro vw2 hvw2 hne
      rcases List.mem_cons.mp hvw2 with hvw2 | hvw2
      · subst hvw2
        refine ⟨vw2.2, Or.inl ?_⟩
        refine collect_inner_mono u t _ _ ?_
        show (vw2.2, u, vw2.1) ∈ acc.1 ++ [(vw2.2, u, vw2.1)]
        exact List.mem_append.mpr (Or.inr (List.mem_singleton.mpr rfl))
      · exact hi2 vw2 hvw2 hne
    · rw [if_neg hc]
      obtain ⟨hi1, hi2⟩ := ih _ hinv
      refine ⟨hi1, ?_⟩
      intro vw2 hvw2 hne
      rcases List.mem_cons.mp hvw2 with hvw2 | hvw2
      · subst hvw2
        have hused : (vw2.1, u) ∈ acc.2 := by
          by_contra hnu
          exact hc ⟨hne, hnu⟩
        obtain ⟨w2, hw2⟩ := hinv (vw2.1, u) hused
        exact ⟨w2, Or.inr (collect_inner_mono u t acc _ hw2)⟩
      · exact hi2 vw2 hvw2 hne

theorem collect_outer_mono :
    ∀ (l : List (Nat × Nbrs)) (acc : List (Int × Nat × Nat) × List (Nat × Nat)),
      ∀ x ∈ acc.1, x ∈ (l.foldl (fun acc p =>
        p.2.foldl (fun acc2 vw =>
          if p.1 ≠ vw.1 ∧ (vw.1, p.1) ∉ acc2.2 then
            (acc2.1 ++ [(vw.2, p.1, vw.1)], acc2.2 ++ [(p.1, vw.1)])
          else acc2) acc) acc).1 := by
  intro l
  induction l with
  | nil => intro acc x hx; exact hx
  | cons p t ih =>
    intro acc x hx
    rw [List.foldl_cons]
    exact ih _ x (collect_inner_mono p.1 p.2 acc x hx)

theorem collect_outer_covers :
    ∀ (l : List (Nat × Nbrs)) (acc : List (Int × Nat × Nat) × List (Nat × Nat)),
      (∀ q ∈ acc.2, ∃ w2, (w2, q.1, q.2) ∈ acc.1) →
      (∀ q ∈ (l.foldl (fun acc p =>
        p.2.foldl (fun acc2 vw =>
          if p.1 ≠ vw.1 ∧ (vw.1, p.1) ∉ acc2.2 then
            (acc2.1 ++ [(vw.2, p.1, vw.1)], acc2.2 ++ [(p.1, vw.1)])
          else acc2) acc) acc).2, ∃ w2, (w2, q.1, q.2) ∈ (l.foldl (fun acc p =>
        p.2.foldl (fun acc2 vw =>
          if p.1 ≠ vw.1 ∧ (vw.1, p.1) ∉ acc2.2 then
            (acc2.1 ++ [(vw.2, p.1, vw.1)], acc2.2 ++ [(p.1, vw.1)])
          else acc2) acc) acc).1) ∧
      (∀ p ∈ l, ∀ vw ∈ p.2, p.1 ≠ vw.1 →
        ∃ w2, (w2, p.1, vw.1) ∈ (l.foldl (fun acc p =>
        p.2.foldl (fun acc2 vw =>
          if p.1 ≠ vw.1 ∧ (vw.1, p.1) ∉ acc2.2 then
            (acc2.1 ++ [(vw.2, p.1, vw.1)], acc2.2 ++ [(p.1, vw.1)])
          else acc2) acc) acc).1 ∨ (w2, vw.1, p.1) ∈ (l.foldl (fun acc p =>
        p.2.foldl (fun acc2 vw =>
          if p.1 ≠ vw.1 ∧ (vw.1, p.1) ∉ acc2.2 then
            (acc2.1 ++ [(vw.2, p.1, vw.1)], acc2.2 ++ [(p.1, vw.1)])
          else acc2) acc) acc).1) := by
  intro l
  induction l with
  | nil =>
    intro acc hinv
    exact ⟨hinv, fun p h => absurd h (List.not_mem_nil p)⟩
  | cons p t ih =>
    intro acc hinv
    rw [List.foldl_cons]
    obtain ⟨hinner1, hinner2⟩ := collect_inner_covers p.1 p.2 acc hinv
    obtain ⟨ho1, ho2⟩ := ih _ hinner1
    refine ⟨ho1, ?_⟩
    intro p2 hp2 vw hvw hne
    rcases List.mem_cons.mp hp2 with hp2 | hp2
    · subst hp2
      obtain ⟨w2, hw2⟩ := hinner2 vw hvw hne
      rcases hw2 with hw2 | hw2
      · exact ⟨w2, Or.inl (collect_outer_mono t _ _ hw2)⟩
      · exact ⟨w2, Or.inr (collect_outer_mono t _ _ hw2)⟩
    · exact ho2 p2 hp2 vw hvw hne

theorem collectEdges_covers {a : Adj} {u v : Nat} {w : Int}
    (huv : u ≠ v) (hvw : (v, w) ∈ adjOf a u) :
    ∃ w2, (w2, u, v) ∈ collectEdges a ∨ (w2, v, u) ∈ collectEdges a := by
  have hu : u ∈ keys a := adjOf_mem_keys hvw
  obtain ⟨ns, hns⟩ := Option.isSome_iff_exists.mp ((lookupA_isSome u a).mpr hu)
  have hmem : (u, ns) ∈ a := lookupA_mem hns
  have hadj : adjOf a u = ns := by
    unfold adjOf
    rw [hns]
    rfl
  rw [hadj] at hvw
  have h := (collect_outer_covers a ([], [])
    (fun q hq => absurd hq (List.not_mem_nil q))).2 (u, ns) hmem (v, w) hvw huv
  exact h

/-! ### The Kruskal loop: root counting and the tracked equivalence -/

theorem rootedAt_root {par : List Nat} {x r : Nat} (h : RootedAt par x r) :
    IsRootP par r := h.choose_spec.2

theorem eqvGen_dsuRel_collapse {n : Nat} {par : List Nat} (hwf : DsuWf n par)
    {x y : Nat} (h : Relation.EqvGen (dsuRel par) x y) : dsuRel par x y := by
  induction h with
  | rel i j hij => exact hij
  | refl i => exact dsuRel_refl hwf i
  | symm i j _ ih => exact dsuRel_symm ih
  | trans i j k _ _ ih1 ih2 => exact dsuRel_trans ih1 ih2

theorem kruskalFold_master (a : Adj) (n : Nat) (hn : 0 < n) :
    ∀ (E : List (Int × Nat × Nat)) (d : DSU) (es : List (Nat × Nat)) (tot : Int),
      DsuWf n d.parent →
      (∀ e ∈ E, vIndex a e.2.1 < n ∧ vIndex a e.2.2 < n) →
      ∃ es2 tot2 d2, kruskalFold a n E d es tot = some (es ++ es2, tot2, d2) ∧
        DsuWf n d2.parent ∧
        (rootsBelow n d2.parent).card + es2.length = (rootsBelow n d.parent).card ∧
        ∀ x y, dsuRel d2.parent x y ↔
          Relation.EqvGen (fun i j => edgeRelIx a E i j ∨ dsuRel d.parent i j) x y := by
  intro E
  induction E with
  | nil =>
    intro d es tot hwf hE
    refine ⟨[], tot, d, ?_, hwf, by simp, ?_⟩
    · rw [List.append_nil]
      rfl
    · intro x y
      constructor
      · intro h
        exact Relation.EqvGen.rel x y (Or.inr h)
      · intro h
        refine eqvGen_dsuRel_collapse hwf ?_
        refine eqvGen_mono_closure ?_ x y h
        rintro i j (⟨e, he, _⟩ | hij)
        · exact absurd he (List.not_mem_nil e)
        · exact Relation.EqvGen.rel i j hij
  | cons e rest ih =>
    obtain ⟨w, u, v⟩ := e
    intro d es tot hwf hE
    have hun : vIndex a u < n := (hE (w, u, v) (List.mem_cons_self _ _)).1
    have hvn : vIndex a v < n := (hE (w, u, v) (List.mem_cons_self _ _)).2
    have hErest : ∀ e2 ∈ rest, vIndex a e2.2.1 < n ∧ vIndex a e2.2.2 < n :=
      fun e2 he2 => hE e2 (List.mem_cons_of_mem _ he2)
    obtain ⟨su, par1, hf1, hr1, hwf1, heqv1, hroots1⟩ := findSet_spec (vIndex a u) hwf hn
    obtain ⟨sv, par2, hf2, hr2, hwf2, heqv2, hroots2⟩ := findSet_spec (vIndex a v) hwf1 hn
    have hr1p2 : RootedAt par2 (vIndex a u) su := (heqv2 _ _).mp ((heqv1 _ _).mp hr1)
    have hr2p2 : RootedAt par2 (vIndex a v) sv := (heqv2 _ _).mp hr2
    have hsu_root : IsRootP par2 su := rootedAt_root hr1p2
    have hsv_root : IsRootP par2 sv := rootedAt_root hr2p2
    have hsu_lt : su < n := root_lt hwf hun hr1
    have hsv_lt : sv < n := root_lt hwf1 hvn hr2
    have hRel12 : ∀ x y, dsuRel d.parent x y ↔ dsuRel par2 x y := by
      intro x y
      rw [dsuRel_congr heqv1 x y, dsuRel_congr heqv2 x y]
    have hRoots12 : ∀ x, IsRootP d.parent x ↔ IsRootP par2 x := by
      intro x
      rw [hroots1 x, hroots2 x]
    have hRB12 : rootsBelow n d.parent = rootsBelow n par2 := rootsBelow_congr hRoots12
    rw [kruskalFold, hf1]
    dsimp only
    rw [hf2]
    dsimp only
    by_cases hsusv : su = sv
    · rw [if_neg (by simpa using hsusv)]
      obtain ⟨es2, tot2, d2, hrec, hwfF, hcount, hchar⟩ :=
        ih ⟨par2, d.rnk⟩ es tot hwf2 hErest
      refine ⟨es2, tot2, d2, hrec, hwfF, ?_, ?_⟩
      · rw [hRB12]
        exact hcount
      · intro x y
        rw [hchar x y]
        refine eqvGen_congr ?_ ?_ x y
        · rintro i j (hedge | hrel)
          · refine Relation.EqvGen.rel i j (Or.inl ?_)
            obtain ⟨e2, he2, ho⟩ := hedge
            exact ⟨e2, List.mem_cons_of_mem _ he2, ho⟩
          · exact Relation.EqvGen.rel i j (Or.inr ((hRel12 i j).mpr hrel))
        · rintro i j (⟨e2, he2, ho⟩ | hrel)
          · rcases List.mem_cons.mp he2 with he2 | he2
            · subst he2
              have hrel2 : dsuRel par2 (vIndex a u) (vIndex a v) := by
                refine ⟨su, hr1p2, ?_⟩
                rw [hsusv]
                exact hr2p2
              rcases ho with ⟨hi, hj⟩ | ⟨hi, hj⟩
              · subst hi; subst hj
                exact Relation.EqvGen.rel _ _ (Or.inr hrel2)
              · subst hi; subst hj
                exact Relation.EqvGen.symm _ _ (Relation.EqvGen.rel _ _ (Or.inr hrel2))
            · exact Relation.EqvGen.rel i j (Or.inl ⟨e2, he2, ho⟩)
          · exact Relation.EqvGen.rel i j (Or.inr ((hRel12 i j).mp hrel))
    · rw [if_pos hsusv]
      obtain ⟨hfalse, htrue⟩ :=
        unionSets_at_roots (d := ⟨par2, d.rnk⟩) hwf2 hsu_root hsv_root hsu_lt hsv_lt
      obtain ⟨d3, x0, y0, huni, hpar3, hxy⟩ := htrue hsusv
      rw [huni]
      dsimp only
      have key : DsuWf n d3.parent ∧
          ((rootsBelow n d3.parent).card + 1 = (rootsBelow n par2).card) ∧
          (∀ x y, dsuRel d3.parent x y ↔ (dsuRel par2 x y ∨
            (dsuRel par2 x su ∧ dsuRel par2 y sv) ∨
            (dsuRel par2 x sv ∧ dsuRel par2 y su))) := by
        rcases hxy with ⟨hx0, hy0⟩ | ⟨hx0, hy0⟩
        · have hp3 : d3.parent = par2.set sv su := by
            rw [hx0] at hpar3
            rw [hy0] at hpar3
            exact hpar3
          refine ⟨?_, ?_, ?_⟩
          · rw [hp3]
            exact (set_union_spec hwf2 hsu_root hsv_root hsusv hsu_lt hsv_lt).1
          · rw [hp3]
            exact rootsBelow_union hwf2 hsu_root hsv_root hsusv hsu_lt hsv_lt
          · intro x y
            rw [hp3, union_dsuRel hwf2 hsu_root hsv_root hsusv hsu_lt hsv_lt x y]
        · have hp3 : d3.parent = par2.set su sv := by
            rw [hx0] at hpar3
            rw [hy0] at hpar3
            exact hpar3
          have hsvsu : sv ≠ su := fun h => hsusv h.symm
          refine ⟨?_, ?_, ?_⟩
          · rw [hp3]
            exact (set_union_spec hwf2 hsv_root hsu_root hsvsu hsv_lt hsu_lt).1
          · rw [hp3]
            exact rootsBelow_union hwf2 hsv_root hsu_root hsvsu hsv_lt hsu_lt
          · intro x y
            rw [hp3, union_dsuRel hwf2 hsv_root hsu_root hsvsu hsv_lt hsu_lt x y]
            tauto
      obtain ⟨hwf3, hcount3, hchar3⟩ := key
      obtain ⟨es2, tot2, dF, hrec, hwfF, hcountF, hcharF⟩ :=
        ih d3 (es ++ [(u, v)]) (tot + w) hwf3 hErest
      refine ⟨(u, v) :: es2, tot2, dF, ?_, hwfF, ?_, ?_⟩
      · rw [hrec, List.append_assoc]
        rfl
      · rw [List.length_cons, hRB12]
        omega
      · intro x y
        rw [hcharF x y]
        have hiu_su : dsuRel d.parent (vIndex a u) su :=
          (hRel12 _ _).mpr ⟨su, hr1p2, rootedAt_self hsu_root⟩
        have hiv_sv : dsuRel d.parent (vIndex a v) sv :=
          (hRel12 _ _).mpr ⟨sv, hr2p2, rootedAt_self hsv_root⟩
        refine eqvGen_congr ?_ ?_ x y
        · rintro i j (hedge | hrel)
          · refine Relation.EqvGen.rel i j (Or.inl ?_)
            obtain ⟨e2, he2, ho⟩ := hedge
            exact ⟨e2, List.mem_cons_of_mem _ he2, ho⟩
          · have hedge_uv : Relation.EqvGen
                (fun i2 j2 => edgeRelIx a ((w, u, v) :: rest) i2 j2 ∨ dsuRel d.parent i2 j2)
                (vIndex a u) (vIndex a v) :=
              Relation.EqvGen.rel _ _
                (Or.inl ⟨(w, u, v), List.mem_cons_self _ _, Or.inl ⟨rfl, rfl⟩⟩)
            rcases (hchar3 i j).mp hrel with h | ⟨h1, h2⟩ | ⟨h1, h2⟩
            · exact Relation.EqvGen.rel i j (Or.inr ((hRel12 i j).mpr h))
            · refine Relation.EqvGen.trans _ _ _
                (Relation.EqvGen.rel _ _ (Or.inr ((hRel12 _ _).mpr h1)))
                (Relation.EqvGen.trans _ _ _
                  (Relation.EqvGen.symm _ _ (Relation.EqvGen.rel _ _ (Or.inr hiu_su)))
                  (Relation.EqvGen.trans _ _ _ hedge_uv
                    (Relation.EqvGen.trans _ _ _
                      (Relation.EqvGen.rel _ _ (Or.inr hiv_sv))
                      (Relation.EqvGen.symm _ _
                        (Relation.EqvGen.rel _ _ (Or.inr ((hRel12 _ _).mpr h2)))))))
            · refine Relation.EqvGen.trans _ _ _
                (Relation.EqvGen.rel _ _ (Or.inr ((hRel12 _ _).mpr h1)))
                (Relation.EqvGen.trans _ _ _
                  (Relation.EqvGen.symm _ _ (Relation.EqvGen.rel _ _ (Or.inr hiv_sv)))
                  (Relation.EqvGen.trans _ _ _ (Relation.EqvGen.symm _ _ hedge_uv)
                    (Relation.EqvGen.trans _ _ _
                      (Relation.EqvGen.rel _ _ (Or.inr hiu_su))
                      (Relation.EqvGen.symm _ _
                        (Relation.EqvGen.rel _ _ (Or.inr ((hRel12 _ _).mpr h2)))))))
        · rintro i j (⟨e2, he2, ho⟩ | hrel)
          · rcases List.mem_cons.mp he2 with he2 | he2
            · subst he2
              have hrel3 : dsuRel d3.parent (vIndex a u) (vIndex a v) :=
                (hchar3 _ _).mpr (Or.inr (Or.inl
                  ⟨⟨su, hr1p2, rootedAt_self hsu_root⟩,
                    ⟨sv, hr2p2, rootedAt_self hsv_root⟩⟩))
              rcases ho with ⟨hi, hj⟩ | ⟨hi, hj⟩
              · subst hi; subst hj
                exact Relation.EqvGen.rel _ _ (Or.inr hrel3)
              · subst hi; subst hj
                exact Relation.EqvGen.symm _ _ (Relation.EqvGen.rel _ _ (Or.inr hrel3))
            · exact Relation.EqvGen.rel i j (Or.inl ⟨e2, he2, ho⟩)
          · exact Relation.EqvGen.rel i j
              (Or.inr ((hchar3 i j).mpr (Or.inl ((hRel12 i j).mp hrel))))

/-! ### Dense-index edge relation versus graph connectivity -/

theorem connv_to_idx {a : Adj} :
    ∀ x y, ConnV a x y →
      Relation.EqvGen (edgeRelIx a (sortByWeight (collectEdges a)))
        (vIndex a x) (vIndex a y) := by
  intro x y h
  have h2 : Relation.EqvGen (fun u v => ∃ w : Int, (v, w) ∈ adjOf a u) x y := h
  clear h
  induction h2 with
  | rel u2 v2 huv =>
    obtain ⟨w, hmem⟩ := huv
    by_cases he : u2 = v2
    · rw [he]
      exact Relation.EqvGen.refl _
    · obtain ⟨w2, hcv⟩ := collectEdges_covers he hmem
      rcases hcv with hcv | hcv
      · exact Relation.EqvGen.rel _ _
          ⟨(w2, u2, v2), mem_sortByWeight.mpr hcv, Or.inl ⟨rfl, rfl⟩⟩
      · exact Relation.EqvGen.rel _ _
          ⟨(w2, v2, u2), mem_sortByWeight.mpr hcv, Or.inr ⟨rfl, rfl⟩⟩
  | refl u2 => exact Relation.EqvGen.refl _
  | symm u2 v2 _ ihh => exact Relation.EqvGen.symm _ _ ihh
  | trans u2 v2 w2 _ _ ih1 ih2 => exact Relation.EqvGen.trans _ _ _ ih1 ih2

theorem idx_to_connv {a : Adj} (hs : SortedA a) (hc : ClosedA a) :
    ∀ i j, Relation.EqvGen (edgeRelIx a (sortByWeight (collectEdges a))) i j →
      ConnV a (keyAt a i) (keyAt a j) := by
  intro i j h
  induction h with
  | rel i2 j2 hij =>
    obtain ⟨e2, he2, ho⟩ := hij
    have hsound := collectEdges_pred hs e2 (mem_sortByWeight.mp he2)
    have hu : e2.2.1 ∈ keys a := adjOf_mem_keys hsound.1
    have hv : e2.2.2 ∈ keys a := adjOf_closed hc hsound.1
    have hstep : ConnV a e2.2.1 e2.2.2 :=
      Relation.EqvGen.rel _ _ ⟨e2.1, hsound.1⟩
    rcases ho with ⟨hi, hj⟩ | ⟨hi, hj⟩
    · rw [hi, hj, keyAt_vIndex hu, keyAt_vIndex hv]
      exact hstep
    · rw [hi, hj, keyAt_vIndex hv, keyAt_vIndex hu]
      exact Relation.EqvGen.symm _ _ hstep
  | refl i2 => exact Relation.EqvGen.refl _
  | symm i2 j2 _ ihh => exact Relation.EqvGen.symm _ _ ihh
  | trans i2 j2 k2 _ _ ih1 ih2 => exact Relation.EqvGen.trans _ _ _ ih1 ih2

theorem connv_iff_idx {a : Adj} (hs : SortedA a) (hc : ClosedA a) {x y : Nat}
    (hx : x ∈ keys a) (hy : y ∈ keys a) :
    ConnV a x y ↔
      Relation.EqvGen (edgeRelIx a (sortByWeight (collectEdges a)))
        (vIndex a x) (vIndex a y) := by
  constructor
  · exact connv_to_idx x y
  · intro h
    have h2 := idx_to_connv hs hc _ _ h
    rw [keyAt_vIndex hx, keyAt_vIndex hy] at h2
    exact h2

theorem components_eq_roots {a : Adj} (hs : SortedA a) (hc : ClosedA a)
    {par : List Nat} (hwf : DsuWf a.length par)
    (hchar : ∀ x y, dsuRel par x y ↔
      Relation.EqvGen (edgeRelIx a (sortByWeight (collectEdges a))) x y) :
    (rootsBelow a.length par).card = componentCount a := by
  classical
  have hnd : (keys a).Nodup := sortedA_nodup hs
  have hkl : (keys a).length = a.length := List.length_map a Prod.fst
  have himg : (fun v => {u | u ∈ keys a ∧ ConnV a v u}) '' {v | v ∈ keys a}
      = (fun r => {u | u ∈ keys a ∧ ConnV a (keyAt a r) u})
        '' (rootsBelow a.length par : Set Nat) := by
    apply Set.Subset.antisymm
    · rintro S ⟨v, hv, rfl⟩
      have hvk : v ∈ keys a := hv
      have hin : vIndex a v < a.length := vIndex_lt hvk
      obtain ⟨r, hr⟩ := exists_root hwf (vIndex a v)
      have hrlt : r < a.length := root_lt hwf hin hr
      have hroot : IsRootP par r := rootedAt_root hr
      have hkr : keyAt a r ∈ keys a := keyAt_mem hrlt
      have hconn : ConnV a v (keyAt a r) := by
        have hd : dsuRel par (vIndex a v) r := ⟨r, hr, rootedAt_self hroot⟩
        have he := (hchar _ _).mp hd
        refine (connv_iff_idx hs hc hvk hkr).mpr ?_
        rw [vIndex_keyAt hnd (by rw [hkl]; exact hrlt)]
        exact he
      refine ⟨r, ?_, ?_⟩
      · show r ∈ rootsBelow a.length par
        simp only [rootsBelow, Finset.mem_filter, Finset.mem_range]
        exact ⟨hrlt, hroot⟩
      · ext u
        simp only [Set.mem_setOf_eq]
        constructor
        · rintro ⟨hu, hcu⟩
          exact ⟨hu, Relation.EqvGen.trans _ _ _ hconn hcu⟩
        · rintro ⟨hu, hcu⟩
          exact ⟨hu, Relation.EqvGen.trans _ _ _
            (Relation.EqvGen.symm _ _ hconn) hcu⟩
    · rintro S ⟨r, hrm, rfl⟩
      have hrlt : r < a.length := by
        have := hrm
        simp only [Finset.coe_filter, rootsBelow, Set.mem_setOf_eq,
          Finset.mem_range] at this
        exact this.1
      exact ⟨keyAt a r, keyAt_mem hrlt, rfl⟩
  have hinj : Set.InjOn (fun r => {u | u ∈ keys a ∧ ConnV a (keyAt a r) u})
      (rootsBelow a.length par : Set Nat) := by
    intro r1 h1 r2 h2 heq
    have h1' : r1 < a.length ∧ IsRootP par r1 := by
      simpa [rootsBelow] using h1
    have h2' : r2 < a.length ∧ IsRootP par r2 := by
      simpa [rootsBelow] using h2
    have hk1 : keyAt a r1 ∈ keys a := keyAt_mem h1'.1
    have hk2 : keyAt a r2 ∈ keys a := keyAt_mem h2'.1
    have hmem : keyAt a r1 ∈ {u | u ∈ keys a ∧ ConnV a (keyAt a r1) u} :=
      ⟨hk1, Relation.EqvGen.refl _⟩
    have heq2 : {u | u ∈ keys a ∧ ConnV a (keyAt a r1) u}
        = {u | u ∈ keys a ∧ ConnV a (keyAt a r2) u} := heq
    rw [heq2] at hmem
    obtain ⟨_, hconn⟩ := hmem
    have he := (connv_iff_idx hs hc hk2 hk1).mp hconn
    rw [vIndex_keyAt hnd (by rw [hkl]; exact h2'.1),
      vIndex_keyAt hnd (by rw [hkl]; exact h1'.1)] at he
    have hd : dsuRel par r2 r1 := (hchar _ _).mpr he
    obtain ⟨r, hra, hrb⟩ := hd
    have e1 : r = r2 := rootedAt_unique hra (rootedAt_self h2'.2)
    have e2 : r = r1 := rootedAt_unique hrb (rootedAt_self h1'.2)
    rw [← e2, e1]
  unfold componentCount
  rw [himg, Set.ncard_image_of_injOn hinj, Set.ncard_coe_Finset]

/-- **C8.** On every non-empty, undirected, well-formed graph,
`mst_kruskal` succeeds and returns an edge list with exactly `V - C`
edges, where `V` is the number of vertices and `C` the number of
connected components (stated without truncated subtraction as
`edges + C = V`). -/
theorem claim_C8 (g : Graph) (hw : g.Wf) (hne : g.adjList ≠ [])
    (hdir : g.directed = false) :
    ∃ es tot, g.mst_kruskal = some (es, tot) ∧
      es.length + componentCount g.adjList = g.adjList.length := by
  obtain ⟨hs, hc⟩ := hw
  have hn : 0 < g.adjList.length := List.length_pos.mpr hne
  have hE : ∀ e ∈ sortByWeight (collectEdges g.adjList),
      vIndex g.adjList e.2.1 < g.adjList.length ∧
      vIndex g.adjList e.2.2 < g.adjList.length := by
    intro e he
    have hp := collectEdges_pred hs e (mem_sortByWeight.mp he)
    exact ⟨vIndex_lt (adjOf_mem_keys hp.1), vIndex_lt (adjOf_closed hc hp.1)⟩
  obtain ⟨es2, tot2, d2, hrec, hwfF, hcount, hchar⟩ :=
    kruskalFold_master g.adjList g.adjList.length hn
      (sortByWeight (collectEdges g.adjList)) (DSU.init g.adjList.length) [] 0
      (dsuWf_init g.adjList.length) hE
  refine ⟨es2, tot2, ?_, ?_⟩
  · unfold Graph.mst_kruskal
    rw [if_neg hne, hdir, if_neg Bool.false_ne_true, hrec, List.nil_append]
    rfl
  · have hroots_card :
        (rootsBelow g.adjList.length d2.parent).card = componentCount g.adjList := by
      refine components_eq_roots hs hc hwfF ?_
      intro x y
      rw [hchar x y]
      refine eqvGen_congr ?_ ?_ x y
      · rintro i j (hij | hrel)
        · exact Relation.EqvGen.rel i j hij
        · have hij2 : i = j := dsuRel_init.mp hrel
          rw [hij2]
          exact Relation.EqvGen.refl j
      · intro i j hij
        exact Relation.EqvGen.rel i j (Or.inl hij)
    have hinit_card :
        (rootsBelow g.adjList.length (DSU.init g.adjList.length).parent).card
          = g.adjList.length := by
      show (rootsBelow g.adjList.length (List.range g.adjList.length)).card = _
      rw [rootsBelow_init, Finset.card_range]
    rw [← hroots_card]
    omega

/-- Concrete instantiation of `claim_C8`: the graph `gW2` has three
vertices, one edge `1 — 2`, and an isolated vertex `3`. -/
theorem claim_C8_witness :
    ∃ es tot, gW2.mst_kruskal = some (es, tot) ∧
      es.length + componentCount gW2.adjList = gW2.adjList.length :=
  claim_C8 gW2 (by decide) (by decide) rfl

/-! ### The canonical minimum spanning structure of a tie-break key -/

theorem keyLt_irrefl (x : Int × Nat × Nat × Nat) : ¬ keyLt x x := by
  unfold keyLt
  omega

theorem keyLt_trans {x y z : Int × Nat × Nat × Nat}
    (h1 : keyLt x y) (h2 : keyLt y z) : keyLt x z := by
  unfold keyLt at h1 h2 ⊢
  omega

theorem keyLt_total (x y : Int × Nat × Nat × Nat) :
    keyLt x y ∨ x = y ∨ keyLt y x := by
  obtain ⟨a1, b1, c1, d1⟩ := x
  obtain ⟨a2, b2, c2, d2⟩ := y
  unfold keyLt
  dsimp only
  by_cases h1 : a1 = a2
  · by_cases h2 : b1 = b2
    · by_cases h3 : c1 = c2
      · by_cases h4 : d1 = d2
        · subst h1; subst h2; subst h3; subst h4
          exact Or.inr (Or.inl rfl)
        · rcases Nat.lt_or_ge d1 d2 with h | h
          · exact Or.inl (Or.inr ⟨h1, Or.inr ⟨h2, Or.inr ⟨h3, h⟩⟩⟩)
          · have : d2 < d1 := by omega
            exact Or.inr (Or.inr (Or.inr ⟨h1.symm, Or.inr ⟨h2.symm, Or.inr ⟨h3.symm, this⟩⟩⟩))
      · rcases Nat.lt_or_ge c1 c2 with h | h
        · exact Or.inl (Or.inr ⟨h1, Or.inr ⟨h2, Or.inl h⟩⟩)
        · have : c2 < c1 := by omega
          exact Or.inr (Or.inr (Or.inr ⟨h1.symm, Or.inr ⟨h2.symm, Or.inl this⟩⟩))
    · rcases Nat.lt_or_ge b1 b2 with h | h
      · exact Or.inl (Or.inr ⟨h1, Or.inl h⟩)
      · have : b2 < b1 := by omega
        exact Or.inr (Or.inr (Or.inr ⟨h1.symm, Or.inl this⟩))
  · rcases Int.lt_or_lt_of_ne h1 with h | h
    · exact Or.inl (Or.inl h)
    · exact Or.inr (Or.inr (Or.inl h))

theorem keyLt_asymm {x y : Int × Nat × Nat × Nat}
    (h : keyLt x y) : ¬ keyLt y x := by
  intro h2
  exact keyLt_irrefl x (keyLt_trans h h2)

/-- Connectivity is monotone in the edge selection. -/
theorem eConnP_mono {P Q : Nat × (Int × Nat × Nat) → Prop}
    (h : ∀ ie, P ie → Q ie) {x y : Nat} (hc : eConnP P x y) : eConnP Q x y := by
  refine eqvGen_mono_closure ?_ x y hc
  rintro i j ⟨ie, hie, ho⟩
  exact Relation.EqvGen.rel i j ⟨ie, h ie hie, ho⟩

theorem eConnP_empty {P : Nat × (Int × Nat × Nat) → Prop}
    (h : ∀ ie, ¬ P ie) {x y : Nat} (hc : eConnP P x y) : x = y := by
  induction hc with
  | rel i j hij =>
    obtain ⟨ie, hie, _⟩ := hij
    exact absurd hie (h ie)
  | refl i => rfl
  | symm i j _ ih => exact ih.symm
  | trans i j k _ _ ih1 ih2 => exact ih1.trans ih2

/-- Vertices joined by edges that stay on one side of a vertex predicate
are on the same side. -/
theorem eqvGen_same_side {R : Nat → Nat → Prop} (U : Nat → Prop)
    (hcl : ∀ u v, R u v ∨ R v u → U u → U v) :
    ∀ x y, Relation.EqvGen R x y → (U x ↔ U y) := by
  intro x y h
  induction h with
  | rel i j hij =>
    exact ⟨fun h2 => hcl i j (Or.inl hij) h2, fun h2 => hcl j i (Or.inr hij) h2⟩
  | refl i => exact Iff.rfl
  | symm i j _ ih => exact ih.symm
  | trans i j k _ _ ih1 ih2 => exact ih1.trans ih2

/-- A connection from inside `U` to outside `U` crosses the cut. -/
theorem eqvGen_crossing {R : Nat → Nat → Prop} {U : Nat → Prop} {x y : Nat}
    (h : Relation.EqvGen R x y) (hx : U x) (hy : ¬ U y) :
    ∃ u v, R u v ∧ ((U u ∧ ¬ U v) ∨ (U v ∧ ¬ U u)) := by
  classical
  by_contra hno
  push_neg at hno
  have hcl : ∀ u v, R u v ∨ R v u → U u → U v := by
    intro u v huv hU
    rcases huv with huv | huv
    · by_contra hv
      exact hv ((hno u v huv).1 hU)
    · by_contra hv
      exact hv ((hno v u huv).2 hU)
  exact hy ((eqvGen_same_side U hcl x y h).mp hx)

theorem filter_length_le {α : Type} {p q : α → Bool} :
    ∀ l : List α, (∀ x ∈ l, p x = true → q x = true) →
    (l.filter p).length ≤ (l.filter q).length := by
  intro l
  induction l with
  | nil => intro _; exact Nat.le_refl _
  | cons x t ih =>
    intro himp
    have hle := ih (fun y hy => himp y (List.mem_cons_of_mem _ hy))
    rw [List.filter_cons, List.filter_cons]
    by_cases hpx : p x = true
    · rw [if_pos hpx, if_pos (himp x (List.mem_cons_self _ _) hpx)]
      simpa using hle
    · rw [if_neg hpx]
      by_cases hqx : q x = true
      · rw [if_pos hqx]
        simp only [List.length_cons]
        omega
      · rw [if_neg hqx]
        exact hle

theorem filter_length_lt {α : Type} {p q : α → Bool} :
    ∀ l : List α, (∀ x ∈ l, p x = true → q x = true) →
    ∀ e ∈ l, q e = true → ¬ p e = true →
    (l.filter p).length < (l.filter q).length := by
  intro l
  induction l with
  | nil => intro _ e he; cases he
  | cons x t ih =>
    intro himp e he hqe hpe
    have hsub : (t.filter p).length ≤ (t.filter q).length :=
      filter_length_le t (fun y hy => himp y (List.mem_cons_of_mem _ hy))
    rcases List.mem_cons.mp he with hx | hx
    · subst hx
      rw [List.filter_cons, List.filter_cons, if_neg hpe, if_pos hqe]
      simp only [List.length_cons]
      omega
    · have hlt := ih (fun y hy => himp y (List.mem_cons_of_mem _ hy)) e hx hqe hpe
      rw [List.filter_cons, List.filter_cons]
      by_cases hpx : p x = true
      · rw [if_pos hpx, if_pos (himp x (List.mem_cons_self _ _) hpx)]
        simpa using hlt
      · rw [if_neg hpx]
        by_cases hqx : q x = true
        · rw [if_pos hqx]
          simp only [List.length_cons]
          omega
        · rw [if_neg hqx]
          exact hlt

theorem tstar_spans (k : Nat × (Int × Nat × Nat) → Int × Nat × Nat × Nat)
    (L0 : List (Nat × (Int × Nat × Nat))) :
    ∀ m ie, ie ∈ L0 →
      (L0.filter (fun je => decide (keyLt (k je) (k ie)))).length ≤ m →
      eConnP (TstarMem k L0) ie.2.2.1 ie.2.2.2 := by
  intro m
  induction m with
  | zero =>
    intro ie hie hm
    by_cases hc : eConnP (lighterP k L0 ie) ie.2.2.1 ie.2.2.2
    · have hempty : ∀ je, ¬ lighterP k L0 ie je := by
        rintro je ⟨hjm, hjk⟩
        have hmem : je ∈ L0.filter (fun je2 => decide (keyLt (k je2) (k ie))) :=
          List.mem_filter.mpr ⟨hjm, by simpa using hjk⟩
        have hlen := List.length_pos.mpr (List.ne_nil_of_mem hmem)
        omega
      have heq := eConnP_empty hempty hc
      rw [heq]
      exact Relation.EqvGen.refl _
    · exact Relation.EqvGen.rel _ _ ⟨ie, ⟨hie, hc⟩, Or.inl ⟨rfl, rfl⟩⟩
  | succ m ih =>
    intro ie hie hm
    by_cases hc : eConnP (lighterP k L0 ie) ie.2.2.1 ie.2.2.2
    · refine eqvGen_mono_closure ?_ _ _ hc
      rintro x y ⟨je, ⟨hjm, hjk⟩, ho⟩
      have hmj : (L0.filter (fun je2 => decide (keyLt (k je2) (k je)))).length ≤ m := by
        have hstrict : (L0.filter (fun je2 => decide (keyLt (k je2) (k je)))).length
            < (L0.filter (fun je2 => decide (keyLt (k je2) (k ie)))).length := by
          refine filter_length_lt L0 ?_ je hjm ?_ ?_
          · intro x2 _ hp
            simp only [decide_eq_true_eq] at hp ⊢
            exact keyLt_trans hp hjk
          · simpa using hjk
          · simp only [decide_eq_true_eq]
            exact keyLt_irrefl (k je)
        omega
      have hconn_je := ih je hjm hmj
      rcases ho with ⟨h1, h2⟩ | ⟨h1, h2⟩
      · rw [← h1, ← h2]
        exact hconn_je
      · rw [← h1, ← h2]
        exact Relation.EqvGen.symm _ _ hconn_je
    · exact Relation.EqvGen.rel _ _ ⟨ie, ⟨hie, hc⟩, Or.inl ⟨rfl, rfl⟩⟩

theorem tstar_triple_unique (k : Nat × (Int × Nat × Nat) → Int × Nat × Nat × Nat)
    (L0 : List (Nat × (Int × Nat × Nat)))
    (hinj : ∀ ie ∈ L0, ∀ je ∈ L0, k ie = k je → ie = je)
    {ie je : Nat × (Int × Nat × Nat)}
    (hi : TstarMem k L0 ie) (hj : TstarMem k L0 je)
    (htr : ie.2 = je.2) : ie = je := by
  rcases keyLt_total (k ie) (k je) with h | h | h
  · exfalso
    refine hj.2 ?_
    refine Relation.EqvGen.rel _ _ ⟨ie, ⟨hi.1, h⟩, Or.inl ?_⟩
    rw [htr]
    exact ⟨rfl, rfl⟩
  · exact hinj ie hi.1 je hj.1 h
  · exfalso
    refine hi.2 ?_
    refine Relation.EqvGen.rel _ _ ⟨je, ⟨hj.1, h⟩, Or.inl ?_⟩
    rw [← htr]
    exact ⟨rfl, rfl⟩

theorem insertByKey_perm (k : Nat × (Int × Nat × Nat) → Int × Nat × Nat × Nat)
    (e : Nat × (Int × Nat × Nat)) :
    ∀ l, List.Perm (insertByKey k e l) (e :: l) := by
  intro l
  induction l with
  | nil => exact List.Perm.refl _
  | cons x t ih =>
    show List.Perm (if keyLt (k e) (k x) then e :: x :: t else x :: insertByKey k e t) _
    by_cases h : keyLt (k e) (k x)
    · rw [if_pos h]
    · rw [if_neg h]
      exact List.Perm.trans (List.Perm.cons x ih) (List.Perm.swap e x t)

theorem sortByKey_perm (k : Nat × (Int × Nat × Nat) → Int × Nat × Nat × Nat) :
    ∀ l, List.Perm (sortByKey k l) l := by
  intro l
  induction l with
  | nil => exact List.Perm.refl _
  | cons x t ih =>
    show List.Perm (insertByKey k x (sortByKey k t)) (x :: t)
    exact List.Perm.trans (insertByKey_perm k x (sortByKey k t)) (List.Perm.cons x ih)

theorem insertByKey_sorted (k : Nat × (Int × Nat × Nat) → Int × Nat × Nat × Nat)
    (e : Nat × (Int × Nat × Nat)) :
    ∀ {l}, List.Pairwise (fun a b => ¬ keyLt (k b) (k a)) l →
      List.Pairwise (fun a b => ¬ keyLt (k b) (k a)) (insertByKey k e l) := by
  intro l
  induction l with
  | nil =>
    intro _
    exact List.pairwise_singleton _ _
  | cons x t ih =>
    intro hs
    obtain ⟨hx, ht⟩ := List.pairwise_cons.mp hs
    show List.Pairwise _ (if keyLt (k e) (k x) then e :: x :: t else x :: insertByKey k e t)
    by_cases h : keyLt (k e) (k x)
    · rw [if_pos h]
      refine List.pairwise_cons.mpr ⟨?_, hs⟩
      intro b hb
      rcases List.mem_cons.mp hb with hb | hb
      · subst hb
        exact keyLt_asymm h
      · intro hbe
        exact hx b hb (keyLt_trans hbe h)
    · rw [if_neg h]
      refine List.pairwise_cons.mpr ⟨?_, ih ht⟩
      intro b hb
      have hb2 := (insertByKey_perm k e t).mem_iff.mp hb
      rcases List.mem_cons.mp hb2 with hb2 | hb2
      · subst hb2
        exact h
      · exact hx b hb2

theorem sortByKey_sorted (k : Nat × (Int × Nat × Nat) → Int × Nat × Nat × Nat) :
    ∀ l, List.Pairwise (fun a b => ¬ keyLt (k b) (k a)) (sortByKey k l) := by
  intro l
  induction l with
  | nil => exact List.Pairwise.nil
  | cons x t ih => exact insertByKey_sorted k x ih

theorem sortByKey_sorted_strict (k : Nat × (Int × Nat × Nat) → Int × Nat × Nat × Nat)
    {l : List (Nat × (Int × Nat × Nat))}
    (hinj : ∀ x ∈ l, ∀ y ∈ l, k x = k y → x = y) (hnd : l.Nodup) :
    List.Pairwise (fun a b => keyLt (k a) (k b)) (sortByKey k l) := by
  have hs := sortByKey_sorted k l
  have hnd2 : (sortByKey k l).Nodup := (sortByKey_perm k l).nodup_iff.mpr hnd
  have hcomb := List.Pairwise.and hs hnd2
  refine List.Pairwise.imp_of_mem ?_ hcomb
  intro a b ha hb hab
  obtain ⟨hnlt, hne⟩ := hab
  have ham : a ∈ l := (sortByKey_perm k l).mem_iff.mp ha
  have hbm : b ∈ l := (sortByKey_perm k l).mem_iff.mp hb
  rcases keyLt_total (k a) (k b) with h | h | h
  · exact h
  · exact absurd (hinj a ham b hbm h) hne
  · exact absurd h hnlt

theorem eConnP_congr {P Q : Nat × (Int × Nat × Nat) → Prop}
    (h : ∀ je, P je ↔ Q je) (x y : Nat) : eConnP P x y ↔ eConnP Q x y :=
  ⟨eConnP_mono (fun je => (h je).mp), eConnP_mono (fun je => (h je).mpr)⟩

theorem eConnP_add {P : Nat × (Int × Nat × Nat) → Prop}
    {e0 : Nat × (Int × Nat × Nat)} :
    ∀ x y, eConnP (fun je => P je ∨ je = e0) x y ↔
      (eConnP P x y ∨
        (eConnP P x e0.2.2.1 ∧ eConnP P e0.2.2.2 y) ∨
        (eConnP P x e0.2.2.2 ∧ eConnP P e0.2.2.1 y)) := by
  intro x y
  constructor
  · intro h
    induction h with
    | rel i j hij =>
      obtain ⟨ie, hie, ho⟩ := hij
      rcases hie with hie | hie
      · exact Or.inl (Relation.EqvGen.rel i j ⟨ie, hie, ho⟩)
      · subst hie
        rcases ho with ⟨h1, h2⟩ | ⟨h1, h2⟩
        · refine Or.inr (Or.inl ⟨?_, ?_⟩)
          · rw [← h1]
            exact Relation.EqvGen.refl _
          · rw [← h2]
            exact Relation.EqvGen.refl _
        · refine Or.inr (Or.inr ⟨?_, ?_⟩)
          · rw [← h1]
            exact Relation.EqvGen.refl _
          · rw [← h2]
            exact Relation.EqvGen.refl _
    | refl i => exact Or.inl (Relation.EqvGen.refl i)
    | symm i j _ ihh =>
      rcases ihh with h | ⟨h1, h2⟩ | ⟨h1, h2⟩
      · exact Or.inl (Relation.EqvGen.symm _ _ h)
      · exact Or.inr (Or.inr ⟨Relation.EqvGen.symm _ _ h2, Relation.EqvGen.symm _ _ h1⟩)
      · exact Or.inr (Or.inl ⟨Relation.EqvGen.symm _ _ h2, Relation.EqvGen.symm _ _ h1⟩)
    | trans i j k2 _ _ ih1 ih2 =>
      rcases ih1 with h1 | ⟨h1a, h1b⟩ | ⟨h1a, h1b⟩ <;>
        rcases ih2 with h2 | ⟨h2a, h2b⟩ | ⟨h2a, h2b⟩
      · exact Or.inl (Relation.EqvGen.trans _ _ _ h1 h2)
      · exact Or.inr (Or.inl ⟨Relation.EqvGen.trans _ _ _ h1 h2a, h2b⟩)
      · exact Or.inr (Or.inr ⟨Relation.EqvGen.trans _ _ _ h1 h2a, h2b⟩)
      · exact Or.inr (Or.inl ⟨h1a, Relation.EqvGen.trans _ _ _ h1b h2⟩)
      · exact Or.inl (Relation.EqvGen.trans _ _ _ h1a
          (Relation.EqvGen.trans _ _ _
            (Relation.EqvGen.symm _ _ (Relation.EqvGen.trans _ _ _ h1b h2a))
            h2b))
      · exact Or.inl (Relation.EqvGen.trans _ _ _ h1a h2b)
      · exact Or.inr (Or.inr ⟨h1a, Relation.EqvGen.trans _ _ _ h1b h2⟩)
      · exact Or.inl (Relation.EqvGen.trans _ _ _ h1a h2b)
      · exact Or.inl (Relation.EqvGen.trans _ _ _ h1a
          (Relation.EqvGen.trans _ _ _
            (Relation.EqvGen.symm _ _ (Relation.EqvGen.trans _ _ _ h1b h2a))
            h2b))
  · intro h
    have hmono : ∀ p q, eConnP P p q →
        eConnP (fun je => P je ∨ je = e0) p q :=
      fun p q => eConnP_mono (fun je hje => Or.inl hje)
    have hedge : eConnP (fun je => P je ∨ je = e0) e0.2.2.1 e0.2.2.2 :=
      Relation.EqvGen.rel _ _ ⟨e0, Or.inr rfl, Or.inl ⟨rfl, rfl⟩⟩
    rcases h with h | ⟨h1, h2⟩ | ⟨h1, h2⟩
    · exact hmono x y h
    · exact Relation.EqvGen.trans _ _ _ (hmono _ _ h1)
        (Relation.EqvGen.trans _ _ _ hedge (hmono _ _ h2))
    · exact Relation.EqvGen.trans _ _ _ (hmono _ _ h1)
        (Relation.EqvGen.trans _ _ _
          (Relation.EqvGen.symm _ _ hedge) (hmono _ _ h2))

theorem eConnP_absorb {P : Nat × (Int × Nat × Nat) → Prop}
    {e0 : Nat × (Int × Nat × Nat)}
    (h : eConnP P e0.2.2.1 e0.2.2.2) (x y : Nat) :
    eConnP (fun je => P je ∨ je = e0) x y ↔ eConnP P x y := by
  rw [eConnP_add x y]
  constructor
  · rintro (h2 | ⟨h1, h2⟩ | ⟨h1, h2⟩)
    · exact h2
    · exact Relation.EqvGen.trans _ _ _ h1
        (Relation.EqvGen.trans _ _ _ h h2)
    · exact Relation.EqvGen.trans _ _ _ h1
        (Relation.EqvGen.trans _ _ _ (Relation.EqvGen.symm _ _ h) h2)
  · exact Or.inl

theorem dsuRel_root_iff {par : List Nat} {iu su : Nat}
    (h : RootedAt par iu su) (x : Nat) :
    dsuRel par x su ↔ dsuRel par x iu := by
  have h1 : dsuRel par iu su := ⟨su, h, rootedAt_self (rootedAt_root h)⟩
  exact ⟨fun h2 => dsuRel_trans h2 (dsuRel_symm h1), fun h2 => dsuRel_trans h2 h1⟩

theorem kruskalFold_greedy (a : Adj) (n : Nat) (hn : 0 < n) (hna : n = a.length)
    (k : Nat × (Int × Nat × Nat) → Int × Nat × Nat × Nat)
    (L0 : List (Nat × (Int × Nat × Nat)))
    (hL0 : ∀ ie ∈ L0, ie.2.2.1 ∈ keys a ∧ ie.2.2.2 ∈ keys a) :
    ∀ (LE : List (Nat × (Int × Nat × Nat)))
      (DoneP : Nat × (Int × Nat × Nat) → Prop) (d : DSU)
      (es : List (Nat × Nat)) (tot : Int),
      DsuWf n d.parent →
      (∀ ie ∈ LE, ie ∈ L0) →
      List.Pairwise (fun x y => keyLt (k x) (k y)) LE →
      (∀ je, DoneP je → je ∈ L0) →
      (∀ je, DoneP je → ∀ ie ∈ LE, keyLt (k je) (k ie)) →
      (∀ je ∈ L0, DoneP je ∨ je ∈ LE) →
      (∀ p q, p ∈ keys a → q ∈ keys a →
        (dsuRel d.parent (vIndex a p) (vIndex a q) ↔ eConnP DoneP p q)) →
      ∃ A d2,
        kruskalFold a n (LE.map Prod.snd) d es tot
          = some (es ++ A.map (fun ie => (ie.2.2.1, ie.2.2.2)),
              tot + (A.map (fun ie => ie.2.1)).sum, d2) ∧
        DsuWf n d2.parent ∧
        List.Sublist A LE ∧
        (∀ ie, ie ∈ A ↔ (ie ∈ LE ∧ TstarMem k L0 ie)) ∧
        (rootsBelow n d2.parent).card + A.length = (rootsBelow n d.parent).card ∧
        (∀ p q, p ∈ keys a → q ∈ keys a →
          (dsuRel d2.parent (vIndex a p) (vIndex a q) ↔
            eConnP (fun je => DoneP je ∨ je ∈ LE) p q)) := by
  intro LE
  induction LE with
  | nil =>
    intro DoneP d es tot hwf _ _ _ _ _ hINV
    refine ⟨[], d, ?_, hwf, List.nil_sublist [], ?_, by simp, ?_⟩
    · simp only [List.map_nil, List.append_nil, List.sum_nil]
      rw [Int.add_zero]
      rfl
    · intro ie
      simp
    · intro p q hp hq
      rw [hINV p q hp hq]
      refine eConnP_congr ?_ p q
      intro je
      simp
  | cons ie tail ih =>
    obtain ⟨p0, w, u, v⟩ := ie
    intro DoneP d es tot hwf hsub hsorted hdone1 hdone2 hcover hINV
    have hieL0 : (p0, w, u, v) ∈ L0 := hsub _ (List.mem_cons_self _ _)
    have hu : u ∈ keys a := (hL0 _ hieL0).1
    have hv : v ∈ keys a := (hL0 _ hieL0).2
    have hun : vIndex a u < n := by
      rw [hna]
      exact vIndex_lt hu
    have hvn : vIndex a v < n := by
      rw [hna]
      exact vIndex_lt hv
    obtain ⟨hhead, htailsorted⟩ := List.pairwise_cons.mp hsorted
    have hnotintail : (p0, w, u, v) ∉ tail := by
      intro hmem
      exact keyLt_irrefl _ (hhead _ hmem)
    -- strictly-lighter entries are exactly the processed ones
    have hlighter : ∀ je, lighterP k L0 (p0, w, u, v) je ↔ DoneP je := by
      intro je
      constructor
      · rintro ⟨hjm, hjk⟩
        rcases hcover je hjm with hd | hd
        · exact hd
        · rcases List.mem_cons.mp hd with hd | hd
          · rw [hd] at hjk
            exact absurd hjk (keyLt_irrefl _)
          · exact absurd hjk (keyLt_asymm (hhead _ hd))
      · intro hd
        exact ⟨hdone1 je hd, hdone2 je hd _ (List.mem_cons_self _ _)⟩
    obtain ⟨su, par1, hf1, hr1, hwf1, heqv1, hroots1⟩ := findSet_spec (vIndex a u) hwf hn
    obtain ⟨sv, par2, hf2, hr2, hwf2, heqv2, hroots2⟩ := findSet_spec (vIndex a v) hwf1 hn
    have hr1p2 : RootedAt par2 (vIndex a u) su := (heqv2 _ _).mp ((heqv1 _ _).mp hr1)
    have hr2p2 : RootedAt par2 (vIndex a v) sv := (heqv2 _ _).mp hr2
    have hr2d : RootedAt d.parent (vIndex a v) sv := (heqv1 _ _).mpr hr2
    have hsu_root : IsRootP par2 su := rootedAt_root hr1p2
    have hsv_root : IsRootP par2 sv := rootedAt_root hr2p2
    have hsu_lt : su < n := root_lt hwf hun hr1
    have hsv_lt : sv < n := root_lt hwf1 hvn hr2
    have hRel12 : ∀ x y, dsuRel d.parent x y ↔ dsuRel par2 x y := by
      intro x y
      rw [dsuRel_congr heqv1 x y, dsuRel_congr heqv2 x y]
    have hRoots12 : ∀ x, IsRootP d.parent x ↔ IsRootP par2 x := by
      intro x
      rw [hroots1 x, hroots2 x]
    have hRB12 : rootsBelow n d.parent = rootsBelow n par2 := rootsBelow_congr hRoots12
    -- the acceptance test in terms of the tracked equivalence
    have haccept : su ≠ sv ↔ ¬ eConnP DoneP u v := by
      rw [← hINV u v hu hv]
      constructor
      · intro hne hrel
        obtain ⟨r, hxr, hyr⟩ := hrel
        exact hne ((rootedAt_unique hxr hr1).symm.trans (rootedAt_unique hyr hr2d))
      · intro hnd heq
        exact hnd ⟨su, hr1, heq ▸ hr2d⟩
    have htstar : su ≠ sv ↔ TstarMem k L0 (p0, w, u, v) := by
      rw [haccept]
      unfold TstarMem
      constructor
      · intro hnc
        refine ⟨hieL0, ?_⟩
        intro hc
        exact hnc ((eConnP_congr hlighter u v).mp hc)
      · intro h hc
        exact h.2 ((eConnP_congr hlighter u v).mpr hc)
    rw [List.map_cons, kruskalFold, hf1]
    dsimp only
    rw [hf2]
    dsimp only
    by_cases hsusv : su = sv
    · -- skip: the edge is not in the canonical structure
      rw [if_neg (by simpa using hsusv)]
      have hconn_uv : eConnP DoneP u v := by
        by_contra hc
        exact (haccept.mpr hc) hsusv
      have hINV2 : ∀ p q, p ∈ keys a → q ∈ keys a →
          (dsuRel par2 (vIndex a p) (vIndex a q) ↔
            eConnP (fun je => DoneP je ∨ je = (p0, w, u, v)) p q) := by
        intro p q hp hq
        rw [← hRel12, hINV p q hp hq]
        exact (eConnP_absorb hconn_uv p q).symm
      obtain ⟨A, d2, hrec, hwfF, hsubl, hmemA, hcount, hINVF⟩ :=
        ih (fun je => DoneP je ∨ je = (p0, w, u, v)) ⟨par2, d.rnk⟩ es tot hwf2
          (fun ie2 hie2 => hsub ie2 (List.mem_cons_of_mem _ hie2))
          htailsorted
          (by
            rintro je (hd | hd)
            · exact hdone1 je hd
            · rw [hd]
              exact hieL0)
          (by
            rintro je (hd | hd) ie2 hie2
            · exact hdone2 je hd ie2 (List.mem_cons_of_mem _ hie2)
            · rw [hd]
              exact hhead ie2 hie2)
          (by
            intro je hje
            rcases hcover je hje with hd | hd
            · exact Or.inl (Or.inl hd)
            · rcases List.mem_cons.mp hd with hd | hd
              · exact Or.inl (Or.inr hd)
              · exact Or.inr hd)
          hINV2
      refine ⟨A, d2, hrec, hwfF, List.Sublist.cons _ hsubl, ?_, ?_, ?_⟩
      · intro ie2
        rw [hmemA ie2]
        constructor
        · rintro ⟨hm, ht⟩
          exact ⟨List.mem_cons_of_mem _ hm, ht⟩
        · rintro ⟨hm, ht⟩
          rcases List.mem_cons.mp hm with hm | hm
          · exfalso
            rw [hm] at ht
            exact (htstar.mpr ht) hsusv
          · exact ⟨hm, ht⟩
      · rw [hRB12]
        exact hcount
      · intro p q hp hq
        rw [hINVF p q hp hq]
        refine eConnP_congr ?_ p q
        intro je
        constructor
        · rintro ((hd | hd) | hd)
          · exact Or.inl hd
          · exact Or.inr (hd ▸ List.mem_cons_self _ _)
          · exact Or.inr (List.mem_cons_of_mem _ hd)
        · rintro (hd | hd)
          · exact Or.inl (Or.inl hd)
          · rcases List.mem_cons.mp hd with hd | hd
            · exact Or.inl (Or.inr hd)
            · exact Or.inr hd
    · -- union: the edge is accepted and belongs to the canonical structure
      rw [if_pos hsusv]
      obtain ⟨hfalse, htrue⟩ :=
        unionSets_at_roots (d := ⟨par2, d.rnk⟩) hwf2 hsu_root hsv_root hsu_lt hsv_lt
      obtain ⟨d3, x0, y0, huni, hpar3, hxy⟩ := htrue hsusv
      rw [huni]
      dsimp only
      have key : DsuWf n d3.parent ∧
          ((rootsBelow n d3.parent).card + 1 = (rootsBelow n par2).card) ∧
          (∀ x y, dsuRel d3.parent x y ↔ (dsuRel par2 x y ∨
            (dsuRel par2 x su ∧ dsuRel par2 y sv) ∨
            (dsuRel par2 x sv ∧ dsuRel par2 y su))) := by
        rcases hxy with ⟨hx0, hy0⟩ | ⟨hx0, hy0⟩
        · have hp3 : d3.parent = par2.set sv su := by
            rw [hx0] at hpar3
            rw [hy0] at hpar3
            exact hpar3
          refine ⟨?_, ?_, ?_⟩
          · rw [hp3]
            exact (set_union_spec hwf2 hsu_root hsv_root hsusv hsu_lt hsv_lt).1
          · rw [hp3]
            exact rootsBelow_union hwf2 hsu_root hsv_root hsusv hsu_lt hsv_lt
          · intro x y
            rw [hp3, union_dsuRel hwf2 hsu_root hsv_root hsusv hsu_lt hsv_lt x y]
        · have hp3 : d3.parent = par2.set su sv := by
            rw [hx0] at hpar3
            rw [hy0] at hpar3
            exact hpar3
          have hsvsu : sv ≠ su := fun h => hsusv h.symm
          refine ⟨?_, ?_, ?_⟩
          · rw [hp3]
            exact (set_union_spec hwf2 hsv_root hsu_root hsvsu hsv_lt hsu_lt).1
          · rw [hp3]
            exact rootsBelow_union hwf2 hsv_root hsu_root hsvsu hsv_lt hsu_lt
          · intro x y
            rw [hp3, union_dsuRel hwf2 hsv_root hsu_root hsvsu hsv_lt hsu_lt x y]
            constructor
            · rintro (h | h | h)
              · exact Or.inl h
              · exact Or.inr (Or.inr h)
              · exact Or.inr (Or.inl h)
            · rintro (h | h | h)
              · exact Or.inl h
              · exact Or.inr (Or.inr h)
              · exact Or.inr (Or.inl h)
      obtain ⟨hwf3, hcount3, hchar3⟩ := key
      have hINV2 : ∀ p q, p ∈ keys a → q ∈ keys a →
          (dsuRel d3.parent (vIndex a p) (vIndex a q) ↔
            eConnP (fun je => DoneP je ∨ je = (p0, w, u, v)) p q) := by
        intro p q hp hq
        rw [hchar3]
        have m1 : dsuRel par2 (vIndex a p) su ↔ eConnP DoneP p u := by
          rw [dsuRel_root_iff hr1p2, ← hRel12, hINV p u hp hu]
        have m2 : dsuRel par2 (vIndex a q) sv ↔ eConnP DoneP q v := by
          rw [dsuRel_root_iff hr2p2, ← hRel12, hINV q v hq hv]
        have m3 : dsuRel par2 (vIndex a p) sv ↔ eConnP DoneP p v := by
          rw [dsuRel_root_iff hr2p2, ← hRel12, hINV p v hp hv]
        have m4 : dsuRel par2 (vIndex a q) su ↔ eConnP DoneP q u := by
          rw [dsuRel_root_iff hr1p2, ← hRel12, hINV q u hq hu]
        rw [← hRel12, hINV p q hp hq, m1, m2, m3, m4,
          @eConnP_add _ (p0, w, u, v) p q]
        constructor
        · rintro (h | ⟨h1, h2⟩ | ⟨h1, h2⟩)
          · exact Or.inl h
          · exact Or.inr (Or.inl ⟨h1, Relation.EqvGen.symm _ _ h2⟩)
          · exact Or.inr (Or.inr ⟨h1, Relation.EqvGen.symm _ _ h2⟩)
        · rintro (h | ⟨h1, h2⟩ | ⟨h1, h2⟩)
          · exact Or.inl h
          · exact Or.inr (Or.inl ⟨h1, Relation.EqvGen.symm _ _ h2⟩)
          · exact Or.inr (Or.inr ⟨h1, Relation.EqvGen.symm _ _ h2⟩)
      obtain ⟨A, dF, hrec, hwfF, hsubl, hmemA, hcount, hINVF⟩ :=
        ih (fun je => DoneP je ∨ je = (p0, w, u, v)) d3 (es ++ [(u, v)]) (tot + w) hwf3
          (fun ie2 hie2 => hsub ie2 (List.mem_cons_of_mem _ hie2))
          htailsorted
          (by
            rintro je (hd | hd)
            · exact hdone1 je hd
            · rw [hd]
              exact hieL0)
          (by
            rintro je (hd | hd) ie2 hie2
            · exact hdone2 je hd ie2 (List.mem_cons_of_mem _ hie2)
            · rw [hd]
              exact hhead ie2 hie2)
          (by
            intro je hje
            rcases hcover je hje with hd | hd
            · exact Or.inl (Or.inl hd)
            · rcases List.mem_cons.mp hd with hd | hd
              · exact Or.inl (Or.inr hd)
              · exact Or.inr hd)
          hINV2
      refine ⟨(p0, w, u, v) :: A, dF, ?_, hwfF, List.Sublist.cons₂ _ hsubl, ?_, ?_, ?_⟩
      · rw [hrec, List.map_cons, List.map_cons, List.sum_cons, List.append_assoc,
          Int.add_assoc]
        rfl
      · intro ie2
        constructor
        · intro hm
          rcases List.mem_cons.mp hm with hm | hm
          · subst hm
            exact ⟨List.mem_cons_self _ _, htstar.mp hsusv⟩
          · obtain ⟨h1, h2⟩ := (hmemA ie2).mp hm
            exact ⟨List.mem_cons_of_mem _ h1, h2⟩
        · rintro ⟨hm, ht⟩
          rcases List.mem_cons.mp hm with hm | hm
          · rw [hm]
            exact List.mem_cons_self _ _
          · exact List.mem_cons_of_mem _ ((hmemA ie2).mpr ⟨hm, ht⟩)
      · rw [List.length_cons, hRB12]
        omega
      · intro p q hp hq
        rw [hINVF p q hp hq]
        refine eConnP_congr ?_ p q
        intro je
        constructor
        · rintro ((hd | hd) | hd)
          · exact Or.inl hd
          · exact Or.inr (hd ▸ List.mem_cons_self _ _)
          · exact Or.inr (List.mem_cons_of_mem _ hd)
        · rintro (hd | hd)
          · exact Or.inl (Or.inl hd)
          · rcases List.mem_cons.mp hd with hd | hd
            · exact Or.inl (Or.inr hd)
            · exact Or.inr hd

/-! ### Class counting, thresholds and weight-multiset determination -/

theorem roots_card_eq_ncard_classes {a : Adj} (hs : SortedA a)
    {par : List Nat} (hwf : DsuWf a.length par)
    (R : Nat → Nat → Prop)
    (hsymm : ∀ x y, R x y → R y x)
    (htrans : ∀ x y z, R x y → R y z → R x z)
    (hrefl : ∀ x, x ∈ keys a → R x x)
    (hchar : ∀ p q, p ∈ keys a → q ∈ keys a →
      (dsuRel par (vIndex a p) (vIndex a q) ↔ R p q)) :
    (rootsBelow a.length par).card
      = Set.ncard ((fun v => {u | u ∈ keys a ∧ R v u}) '' {v | v ∈ keys a}) := by
  classical
  have hnd : (keys a).Nodup := sortedA_nodup hs
  have hkl : (keys a).length = a.length := List.length_map a Prod.fst
  have himg : (fun v => {u | u ∈ keys a ∧ R v u}) '' {v | v ∈ keys a}
      = (fun r => {u | u ∈ keys a ∧ R (keyAt a r) u})
        '' (rootsBelow a.length par : Set Nat) := by
    apply Set.Subset.antisymm
    · rintro S ⟨v, hv, rfl⟩
      have hvk : v ∈ keys a := hv
      have hin : vIndex a v < a.length := vIndex_lt hvk
      obtain ⟨r, hr⟩ := exists_root hwf (vIndex a v)
      have hrlt : r < a.length := root_lt hwf hin hr
      have hroot : IsRootP par r := rootedAt_root hr
      have hkr : keyAt a r ∈ keys a := keyAt_mem hrlt
      have hconn : R v (keyAt a r) := by
        have hvk2 : vIndex a (keyAt a r) = r :=
          vIndex_keyAt hnd (by rw [hkl]; exact hrlt)
        have hd : dsuRel par (vIndex a v) (vIndex a (keyAt a r)) := by
          rw [hvk2]
          exact ⟨r, hr, rootedAt_self hroot⟩
        exact (hchar v (keyAt a r) hvk hkr).mp hd
      refine ⟨r, ?_, ?_⟩
      · show r ∈ rootsBelow a.length par
        simp only [rootsBelow, Finset.mem_filter, Finset.mem_range]
        exact ⟨hrlt, hroot⟩
      · ext u
        simp only [Set.mem_setOf_eq]
        constructor
        · rintro ⟨hu, hcu⟩
          exact ⟨hu, htrans _ _ _ hconn hcu⟩
        · rintro ⟨hu, hcu⟩
          exact ⟨hu, htrans _ _ _ (hsymm _ _ hconn) hcu⟩
    · rintro S ⟨r, hrm, rfl⟩
      have hrlt : r < a.length := by
        have h2 := hrm
        simp only [Finset.coe_filter, rootsBelow, Set.mem_setOf_eq,
          Finset.mem_range] at h2
        exact h2.1
      exact ⟨keyAt a r, keyAt_mem hrlt, rfl⟩
  have hinj : Set.InjOn (fun r => {u | u ∈ keys a ∧ R (keyAt a r) u})
      (rootsBelow a.length par : Set Nat) := by
    intro r1 h1 r2 h2 heq
    have h1h : r1 < a.length ∧ IsRootP par r1 := by
      simpa [rootsBelow] using h1
    have h2h : r2 < a.length ∧ IsRootP par r2 := by
      simpa [rootsBelow] using h2
    have hk1 : keyAt a r1 ∈ keys a := keyAt_mem h1h.1
    have hk2 : keyAt a r2 ∈ keys a := keyAt_mem h2h.1
    have hmem : keyAt a r1 ∈ {u | u ∈ keys a ∧ R (keyAt a r1) u} :=
      ⟨hk1, hrefl _ hk1⟩
    have heq2 : {u | u ∈ keys a ∧ R (keyAt a r1) u}
        = {u | u ∈ keys a ∧ R (keyAt a r2) u} := heq
    rw [heq2] at hmem
    obtain ⟨_, hconn⟩ := hmem
    have hd : dsuRel par (vIndex a (keyAt a r2)) (vIndex a (keyAt a r1)) :=
      (hchar _ _ hk2 hk1).mpr hconn
    rw [vIndex_keyAt hnd (by rw [hkl]; exact h2h.1),
      vIndex_keyAt hnd (by rw [hkl]; exact h1h.1)] at hd
    obtain ⟨r, hra, hrb⟩ := hd
    have e1 : r = r2 := rootedAt_unique hra (rootedAt_self h2h.2)
    have e2 : r = r1 := rootedAt_unique hrb (rootedAt_self h1h.2)
    rw [← e2, e1]
  rw [himg, Set.ncard_image_of_injOn hinj, Set.ncard_coe_Finset]

theorem ncard_classes_one {a : Adj} (R : Nat → Nat → Prop) (hne : keys a ≠ [])
    (htot : ∀ x y, x ∈ keys a → y ∈ keys a → R x y) :
    Set.ncard ((fun v => {u | u ∈ keys a ∧ R v u}) '' {v | v ∈ keys a}) = 1 := by
  obtain ⟨v0, hv0⟩ := List.exists_mem_of_ne_nil (keys a) hne
  have himg : (fun v => {u | u ∈ keys a ∧ R v u}) '' {v | v ∈ keys a}
      = {{u | u ∈ keys a ∧ R v0 u}} := by
    apply Set.Subset.antisymm
    · rintro S ⟨v, hv, rfl⟩
      simp only [Set.mem_singleton_iff]
      ext u
      simp only [Set.mem_setOf_eq]
      constructor
      · rintro ⟨hu, _⟩
        exact ⟨hu, htot v0 u hv0 hu⟩
      · rintro ⟨hu, _⟩
        exact ⟨hu, htot v u hv hu⟩
    · rintro S hS
      rw [Set.mem_singleton_iff] at hS
      exact ⟨v0, hv0, hS.symm⟩
  rw [himg, Set.ncard_singleton]

theorem keyLt_weight_le {x y : Int × Nat × Nat × Nat} (h : keyLt x y) :
    x.1 ≤ y.1 := by
  unfold keyLt at h
  omega

theorem tstar_filter (k : Nat × (Int × Nat × Nat) → Int × Nat × Nat × Nat)
    (L0 : List (Nat × (Int × Nat × Nat)))
    (hkw : ∀ ie, (k ie).1 = ie.2.1) (c : Int) (ie : Nat × (Int × Nat × Nat)) :
    TstarMem k (L0.filter (fun je => decide (je.2.1 ≤ c))) ie ↔
      (TstarMem k L0 ie ∧ ie.2.1 ≤ c) := by
  unfold TstarMem
  constructor
  · rintro ⟨hm, hc⟩
    have hm2 := List.mem_filter.mp hm
    have hwle : ie.2.1 ≤ c := by simpa using hm2.2
    refine ⟨⟨hm2.1, ?_⟩, hwle⟩
    intro hcon
    refine hc ?_
    refine eConnP_mono ?_ hcon
    rintro je ⟨hjm, hjk⟩
    refine ⟨List.mem_filter.mpr ⟨hjm, ?_⟩, hjk⟩
    have hle := keyLt_weight_le hjk
    rw [hkw je, hkw ie] at hle
    simp only [decide_eq_true_eq]
    omega
  · rintro ⟨⟨hm, hc⟩, hwle⟩
    refine ⟨List.mem_filter.mpr ⟨hm, by simpa using hwle⟩, ?_⟩
    intro hcon
    refine hc ?_
    refine eConnP_mono ?_ hcon
    rintro je ⟨hjm, hjk⟩
    exact ⟨(List.mem_filter.mp hjm).1, hjk⟩

theorem filter_le_split (v : Int) :
    ∀ l : List Int, (l.filter (fun x => decide (x ≤ v))).length
      = (l.filter (fun x => decide (x ≤ v - 1))).length
        + (l.filter (fun x => decide (x = v))).length := by
  intro l
  induction l with
  | nil => simp
  | cons x t ih =>
    rw [List.filter_cons, List.filter_cons, List.filter_cons]
    by_cases h1 : x = v
    · rw [if_pos (by simp only [decide_eq_true_eq]; omega),
        if_neg (by simp only [decide_eq_true_eq]; omega),
        if_pos (by simp only [decide_eq_true_eq]; omega)]
      simp only [List.length_cons]
      omega
    · by_cases h2 : x ≤ v - 1
      · rw [if_pos (by simp only [decide_eq_true_eq]; omega),
          if_pos (by simp only [decide_eq_true_eq]; omega),
          if_neg (by simp only [decide_eq_true_eq]; omega)]
        simp only [List.length_cons]
        omega
      · rw [if_neg (by simp only [decide_eq_true_eq]; omega),
          if_neg (by simp only [decide_eq_true_eq]; omega),
          if_neg (by simp only [decide_eq_true_eq]; omega)]
        omega

theorem sum_eq_of_le_counts {l1 l2 : List Int}
    (h : ∀ c : Int, (l1.filter (fun x => decide (x ≤ c))).length
        = (l2.filter (fun x => decide (x ≤ c))).length) :
    l1.sum = l2.sum := by
  refine List.Perm.sum_eq (List.perm_iff_count.mpr ?_)
  intro v
  have hsplit1 := filter_le_split v l1
  have hsplit2 := filter_le_split v l2
  have hv := h v
  have hv1 := h (v - 1)
  have heqv : (l1.filter (fun x => decide (x = v))).length
      = (l2.filter (fun x => decide (x = v))).length := by omega
  have hcnt : ∀ l : List Int, List.count v l
      = (l.filter (fun x => decide (x = v))).length := by
    intro l
    rw [List.count_eq_countP, List.countP_eq_length_filter]
    refine congrArg List.length (List.filter_congr ?_)
    intro x _
    by_cases hx : x = v <;> simp [hx]
  rw [hcnt l1, hcnt l2, heqv]

theorem insertByWeight_wsorted (e : Int × Nat × Nat) :
    ∀ {l}, List.Pairwise (fun x y : Int × Nat × Nat => x.1 ≤ y.1) l →
      List.Pairwise (fun x y : Int × Nat × Nat => x.1 ≤ y.1) (insertByWeight e l) := by
  intro l
  induction l with
  | nil =>
    intro _
    exact List.pairwise_singleton _ _
  | cons x t ih =>
    intro hs
    obtain ⟨hx, ht⟩ := List.pairwise_cons.mp hs
    show List.Pairwise _ (if e.1 < x.1 then e :: x :: t else x :: insertByWeight e t)
    by_cases h : e.1 < x.1
    · rw [if_pos h]
      refine List.pairwise_cons.mpr ⟨?_, hs⟩
      intro b hb
      rcases List.mem_cons.mp hb with hb | hb
      · subst hb
        omega
      · have := hx b hb
        omega
    · rw [if_neg h]
      refine List.pairwise_cons.mpr ⟨?_, ih ht⟩
      intro b hb
      rcases mem_insertByWeight.mp hb with hb | hb
      · subst hb
        omega
      · exact hx b hb

theorem sortByWeight_wsorted (l : List (Int × Nat × Nat)) :
    List.Pairwise (fun x y : Int × Nat × Nat => x.1 ≤ y.1) (sortByWeight l) := by
  induction l with
  | nil => exact List.Pairwise.nil
  | cons x t ih => exact insertByWeight_wsorted x ih

theorem enumFrom_pairwise_fst_lt {α : Type} :
    ∀ (j : Nat) (l : List α),
      List.Pairwise (fun x y : Nat × α => x.1 < y.1) (List.enumFrom j l) := by
  intro j l
  induction l generalizing j with
  | nil => exact List.Pairwise.nil
  | cons x t ih =>
    show List.Pairwise _ ((j, x) :: List.enumFrom (j + 1) t)
    refine List.pairwise_cons.mpr ⟨?_, ih (j + 1)⟩
    intro b hb
    have := (List.mem_enumFrom hb).1
    omega

theorem enum_nodup {α : Type} (l : List α) : l.enum.Nodup := by
  refine List.Pairwise.imp ?_ (enumFrom_pairwise_fst_lt 0 l)
  intro a b hab
  intro he
  rw [he] at hab
  omega

theorem enum_pairwise_kK (l : List (Int × Nat × Nat))
    (hs : List.Pairwise (fun x y : Int × Nat × Nat => x.1 ≤ y.1) l) :
    List.Pairwise (fun x y : Nat × (Int × Nat × Nat) =>
      keyLt (x.2.1, x.1, 0, 0) (y.2.1, y.1, 0, 0)) l.enum := by
  show List.Pairwise _ (List.enumFrom 0 l)
  have main : ∀ (j : Nat) (l2 : List (Int × Nat × Nat)),
      List.Pairwise (fun x y : Int × Nat × Nat => x.1 ≤ y.1) l2 →
      List.Pairwise (fun x y : Nat × (Int × Nat × Nat) =>
        keyLt (x.2.1, x.1, 0, 0) (y.2.1, y.1, 0, 0)) (List.enumFrom j l2) := by
    intro j l2
    induction l2 generalizing j with
    | nil =>
      intro _
      exact List.Pairwise.nil
    | cons x t ih =>
      intro hs2
      obtain ⟨hx, ht⟩ := List.pairwise_cons.mp hs2
      show List.Pairwise _ ((j, x) :: List.enumFrom (j + 1) t)
      refine List.pairwise_cons.mpr ⟨?_, ih (j + 1) ht⟩
      intro b hb
      have hidx := (List.mem_enumFrom hb).1
      have hsnd : b.2 ∈ t := List.snd_mem_of_mem_enumFrom hb
      have hw := hx b.2 hsnd
      unfold keyLt
      dsimp only
      omega
  exact main 0 l hs

theorem eStepP_congr_snd {P Q : Nat × (Int × Nat × Nat) → Prop}
    (h : ∀ t, (∃ ie, P ie ∧ ie.2 = t) ↔ (∃ ie, Q ie ∧ ie.2 = t)) (x y : Nat) :
    eStepP P x y ↔ eStepP Q x y := by
  constructor
  · rintro ⟨ie, hP, ho⟩
    obtain ⟨je, hQ, hsnd⟩ := (h ie.2).mp ⟨ie, hP, rfl⟩
    refine ⟨je, hQ, ?_⟩
    rw [hsnd]
    exact ho
  · rintro ⟨ie, hQ, ho⟩
    obtain ⟨je, hP, hsnd⟩ := (h ie.2).mpr ⟨ie, hQ, rfl⟩
    refine ⟨je, hP, ?_⟩
    rw [hsnd]
    exact ho

theorem eConnP_congr_snd {P Q : Nat × (Int × Nat × Nat) → Prop}
    (h : ∀ t, (∃ ie, P ie ∧ ie.2 = t) ↔ (∃ ie, Q ie ∧ ie.2 = t)) (x y : Nat) :
    eConnP P x y ↔ eConnP Q x y :=
  eqvGen_congr
    (fun i j hij => Relation.EqvGen.rel _ _ ((eStepP_congr_snd h i j).mp hij))
    (fun i j hij => Relation.EqvGen.rel _ _ ((eStepP_congr_snd h i j).mpr hij)) x y

theorem classes_image_congr {a : Adj} {R R2 : Nat → Nat → Prop}
    (h : ∀ x y, x ∈ keys a → y ∈ keys a → (R x y ↔ R2 x y)) :
    ((fun v => {u | u ∈ keys a ∧ R v u}) '' {v | v ∈ keys a})
      = ((fun v => {u | u ∈ keys a ∧ R2 v u}) '' {v | v ∈ keys a}) := by
  apply Set.Subset.antisymm
  · rintro S ⟨v, hv, rfl⟩
    refine ⟨v, hv, ?_⟩
    ext u
    simp only [Set.mem_setOf_eq]
    constructor
    · rintro ⟨hu, hr⟩
      exact ⟨hu, (h v u hv hu).mpr hr⟩
    · rintro ⟨hu, hr⟩
      exact ⟨hu, (h v u hv hu).mp hr⟩
  · rintro S ⟨v, hv, rfl⟩
    refine ⟨v, hv, ?_⟩
    ext u
    simp only [Set.mem_setOf_eq]
    constructor
    · rintro ⟨hu, hr⟩
      exact ⟨hu, (h v u hv hu).mp hr⟩
    · rintro ⟨hu, hr⟩
      exact ⟨hu, (h v u hv hu).mpr hr⟩

theorem greedy_canonical (a : Adj) (hn : 0 < a.length)
    (k : Nat × (Int × Nat × Nat) → Int × Nat × Nat × Nat)
    (L0 LE : List (Nat × (Int × Nat × Nat)))
    (hL0 : ∀ ie ∈ L0, ie.2.2.1 ∈ keys a ∧ ie.2.2.2 ∈ keys a)
    (hmem : ∀ je, je ∈ LE ↔ je ∈ L0)
    (hsorted : List.Pairwise (fun x y => keyLt (k x) (k y)) LE) :
    ∃ (A : List (Nat × (Int × Nat × Nat))) (d2 : DSU),
      kruskalFold a a.length (LE.map Prod.snd) (DSU.init a.length) [] 0
        = some (A.map (fun ie => (ie.2.2.1, ie.2.2.2)),
            (A.map (fun ie => ie.2.1)).sum, d2) ∧
      DsuWf a.length d2.parent ∧
      A.Sublist LE ∧
      (∀ ie, ie ∈ A ↔ TstarMem k L0 ie) ∧
      (rootsBelow a.length d2.parent).card + A.length = a.length ∧
      (∀ p q, p ∈ keys a → q ∈ keys a →
        (dsuRel d2.parent (vIndex a p) (vIndex a q) ↔
          eConnP (fun je => je ∈ L0) p q)) := by
  have hinit : ∀ p q, p ∈ keys a → q ∈ keys a →
      (dsuRel (DSU.init a.length).parent (vIndex a p) (vIndex a q) ↔
        eConnP (fun _ => False) p q) := by
    intro p q hp hq
    constructor
    · intro hd
      have hij : vIndex a p = vIndex a q := dsuRel_init.mp hd
      have hpq : p = q := by
        have h1 := keyAt_vIndex hp
        have h2 := keyAt_vIndex hq
        rw [← h1, ← h2, hij]
      rw [hpq]
      exact Relation.EqvGen.refl q
    · intro hc
      have hpq : p = q := eConnP_empty (fun ie h => h) hc
      rw [hpq]
      exact dsuRel_refl (dsuWf_init a.length) _
  obtain ⟨A, d2, heq, hwf2, hsubl, hmemA, hcount, hfin⟩ :=
    kruskalFold_greedy a a.length hn rfl k L0 hL0 LE (fun _ => False)
      (DSU.init a.length) [] 0 (dsuWf_init a.length)
      (fun ie hie => (hmem ie).mp hie) hsorted
      (fun je hF => hF.elim)
      (fun je hF => hF.elim)
      (fun je hje => Or.inr ((hmem je).mpr hje))
      hinit
  rw [List.nil_append, Int.zero_add] at heq
  refine ⟨A, d2, heq, hwf2, hsubl, ?_, ?_, ?_⟩
  · intro ie
    rw [hmemA ie]
    exact ⟨fun h => h.2, fun ht => ⟨(hmem ie).mpr ht.1, ht⟩⟩
  · have hinitcard :
        (rootsBelow a.length (DSU.init a.length).parent).card = a.length := by
      show (rootsBelow a.length (List.range a.length)).card = _
      rw [rootsBelow_init, Finset.card_range]
    omega
  · intro p q hp hq
    rw [hfin p q hp hq]
    refine eConnP_congr ?_ p q
    intro je
    rw [hmem je]
    simp

theorem greedy_canonical_filtered (a : Adj) (hn : 0 < a.length)
    (k : Nat × (Int × Nat × Nat) → Int × Nat × Nat × Nat)
    (L0 LE : List (Nat × (Int × Nat × Nat)))
    (hL0 : ∀ ie ∈ L0, ie.2.2.1 ∈ keys a ∧ ie.2.2.2 ∈ keys a)
    (hmem : ∀ je, je ∈ LE ↔ je ∈ L0)
    (hsorted : List.Pairwise (fun x y => keyLt (k x) (k y)) LE)
    (hkw : ∀ ie, (k ie).1 = ie.2.1) (c : Int) :
    ∃ (A : List (Nat × (Int × Nat × Nat))) (d2 : DSU),
      A.Sublist (LE.filter (fun je => decide (je.2.1 ≤ c))) ∧
      (∀ ie, ie ∈ A ↔ (TstarMem k L0 ie ∧ ie.2.1 ≤ c)) ∧
      (rootsBelow a.length d2.parent).card + A.length = a.length ∧
      DsuWf a.length d2.parent ∧
      (∀ p q, p ∈ keys a → q ∈ keys a →
        (dsuRel d2.parent (vIndex a p) (vIndex a q) ↔
          eConnP (fun je => je ∈ L0 ∧ je.2.1 ≤ c) p q)) := by
  obtain ⟨A, d2, _, hwf2, hsubl, hmemA, hcount, hfin⟩ :=
    greedy_canonical a hn k (L0.filter (fun je => decide (je.2.1 ≤ c)))
      (LE.filter (fun je => decide (je.2.1 ≤ c)))
      (by
        intro ie hie
        exact hL0 ie (List.mem_filter.mp hie).1)
      (by
        intro je
        rw [List.mem_filter, List.mem_filter, hmem je])
      (List.Pairwise.sublist (List.filter_sublist _) hsorted)
  refine ⟨A, d2, hsubl, ?_, hcount, hwf2, ?_⟩
  · intro ie
    rw [hmemA ie, tstar_filter k L0 hkw c ie]
  · intro p q hp hq
    rw [hfin p q hp hq]
    refine eConnP_congr ?_ p q
    intro je
    rw [List.mem_filter]
    simp

theorem length_filter_map {α β : Type} (f : α → β) (p : β → Bool) (l : List α) :
    ((l.map f).filter p).length = (l.filter (fun x => p (f x))).length := by
  induction l with
  | nil => rfl
  | cons x t ih =>
    rw [List.map_cons, List.filter_cons, List.filter_cons]
    by_cases h : p (f x) = true
    · rw [if_pos h, if_pos h]
      simp only [List.length_cons]
      omega
    · rw [if_neg h, if_neg h]
      exact ih

theorem mem_iff_enum_snd {α : Type} {l : List α} {t : α} :
    t ∈ l ↔ ∃ ie ∈ l.enum, ie.2 = t := by
  constructor
  · intro h
    rw [← List.enum_map_snd l] at h
    obtain ⟨ie, hie, hsnd⟩ := List.mem_map.mp h
    exact ⟨ie, hie, hsnd⟩
  · rintro ⟨ie, hie, rfl⟩
    exact List.snd_mem_of_mem_enumFrom hie

theorem nodup_length_eq_of_mem_iff {α : Type} [DecidableEq α] {l1 l2 : List α}
    (h1 : l1.Nodup) (h2 : l2.Nodup) (h : ∀ x, x ∈ l1 ↔ x ∈ l2) :
    l1.length = l2.length := by
  rw [← List.toFinset_card_of_nodup h1, ← List.toFinset_card_of_nodup h2]
  congr 1
  ext x
  rw [List.mem_toFinset, List.mem_toFinset]
  exact h x

theorem connv_to_tstar {a : Adj} (hs : SortedA a)
    (k : Nat × (Int × Nat × Nat) → Int × Nat × Nat × Nat)
    (L0 : List (Nat × (Int × Nat × Nat)))
    (hcov : ∀ t ∈ collectEdges a, ∃ ie ∈ L0, ie.2 = t) :
    ∀ x y, ConnV a x y → eConnP (TstarMem k L0) x y := by
  intro x y h
  have h2 : Relation.EqvGen (fun u v => ∃ w : Int, (v, w) ∈ adjOf a u) x y := h
  clear h
  induction h2 with
  | rel x0 y0 hstep =>
    obtain ⟨w, hmem⟩ := hstep
    by_cases hxy : x0 = y0
    · rw [hxy]
      exact Relation.EqvGen.refl _
    · obtain ⟨w2, hor⟩ := collectEdges_covers hxy hmem
      rcases hor with hcv | hcv
      · obtain ⟨ie, hie, hsnd⟩ := hcov _ hcv
        have hsp := tstar_spans k L0
          ((L0.filter (fun je => decide (keyLt (k je) (k ie)))).length)
          ie hie (Nat.le_refl _)
        rw [hsnd] at hsp
        exact hsp
      · obtain ⟨ie, hie, hsnd⟩ := hcov _ hcv
        have hsp := tstar_spans k L0
          ((L0.filter (fun je => decide (keyLt (k je) (k ie)))).length)
          ie hie (Nat.le_refl _)
        rw [hsnd] at hsp
        exact Relation.EqvGen.symm _ _ hsp
  | refl x0 => exact Relation.EqvGen.refl _
  | symm x0 y0 _ ih => exact Relation.EqvGen.symm _ _ ih
  | trans x0 y0 z0 _ _ ih1 ih2 => exact Relation.EqvGen.trans _ _ _ ih1 ih2

theorem kruskal_ok (g : Graph) (hw : g.Wf) (hne : g.adjList ≠ [])
    (hdir : g.directed = false) :
    ∃ (A : List (Nat × (Int × Nat × Nat))),
      g.mst_kruskal = some (A.map (fun ie => (ie.2.2.1, ie.2.2.2)),
        (A.map (fun ie => ie.2.1)).sum) ∧
      (∀ ie ∈ A, ie.2 ∈ collectEdges g.adjList) ∧
      (∀ x y, ConnV g.adjList x y →
        pairConn (A.map (fun ie => (ie.2.2.1, ie.2.2.2))) x y) ∧
      ((∀ x y, x ∈ keys g.adjList → y ∈ keys g.adjList → ConnV g.adjList x y) →
        A.length + 1 = g.adjList.length) ∧
      (∀ c : Int, ((A.map (fun ie => ie.2.1)).filter
          (fun x => decide (x ≤ c))).length + lightClasses g.adjList c
        = g.adjList.length) := by
  obtain ⟨hs, hcl⟩ := hw
  have hn : 0 < g.adjList.length := List.length_pos.mpr hne
  have hL0ends : ∀ ie ∈ (sortByWeight (collectEdges g.adjList)).enum,
      ie.2.2.1 ∈ keys g.adjList ∧ ie.2.2.2 ∈ keys g.adjList := by
    intro ie hie
    have hsnd : ie.2 ∈ sortByWeight (collectEdges g.adjList) :=
      List.snd_mem_of_mem_enumFrom hie
    have hmemL : ie.2 ∈ collectEdges g.adjList := mem_sortByWeight.mp hsnd
    have hp := collectEdges_pred hs ie.2 hmemL
    exact ⟨adjOf_mem_keys hp.1, adjOf_closed hcl hp.1⟩
  have hsorted : List.Pairwise (fun x y =>
      keyLt ((fun ie : Nat × (Int × Nat × Nat) => (ie.2.1, ie.1, 0, 0)) x)
        ((fun ie : Nat × (Int × Nat × Nat) => (ie.2.1, ie.1, 0, 0)) y))
      (sortByWeight (collectEdges g.adjList)).enum :=
    enum_pairwise_kK _ (sortByWeight_wsorted _)
  have hcov : ∀ t ∈ collectEdges g.adjList,
      ∃ ie ∈ (sortByWeight (collectEdges g.adjList)).enum, ie.2 = t := by
    intro t ht
    exact mem_iff_enum_snd.mp (mem_sortByWeight.mpr ht)
  obtain ⟨A, d2, heq, hwf2, hsubl, hmemA, hcount, hfin⟩ :=
    greedy_canonical g.adjList hn
      (fun ie => (ie.2.1, ie.1, 0, 0))
      ((sortByWeight (collectEdges g.adjList)).enum)
      ((sortByWeight (collectEdges g.adjList)).enum)
      hL0ends (fun je => Iff.rfl) hsorted
  rw [List.enum_map_snd] at heq
  refine ⟨A, ?_, ?_, ?_, ?_, ?_⟩
  · unfold Graph.mst_kruskal
    rw [if_neg hne, hdir, if_neg Bool.false_ne_true, heq]
    rfl
  · intro ie hie
    exact mem_sortByWeight.mp
      (List.snd_mem_of_mem_enumFrom ((hmemA ie).mp hie).1)
  · intro x y hconn
    have h1 := connv_to_tstar hs (fun ie => (ie.2.1, ie.1, 0, 0))
      ((sortByWeight (collectEdges g.adjList)).enum) hcov x y hconn
    refine eqvGen_mono_closure ?_ x y h1
    rintro i j ⟨ie, hT, ho⟩
    have hA : ie ∈ A := (hmemA ie).mpr hT
    have hpair : (ie.2.2.1, ie.2.2.2)
        ∈ A.map (fun ie => (ie.2.2.1, ie.2.2.2)) :=
      List.mem_map.mpr ⟨ie, hA, rfl⟩
    rcases ho with ⟨h1e, h2e⟩ | ⟨h1e, h2e⟩
    · exact Relation.EqvGen.rel i j (Or.inl (h1e ▸ h2e ▸ hpair))
    · exact Relation.EqvGen.rel i j (Or.inr (h1e ▸ h2e ▸ hpair))
  · intro htot
    have hcard := roots_card_eq_ncard_classes hs hwf2
      (fun x y => eConnP
        (fun je => je ∈ (sortByWeight (collectEdges g.adjList)).enum) x y)
      (fun x y h => Relation.EqvGen.symm _ _ h)
      (fun x y z h1 h2 => Relation.EqvGen.trans _ _ _ h1 h2)
      (fun x _ => Relation.EqvGen.refl x)
      hfin
    have hkne : keys g.adjList ≠ [] := by
      intro hk
      have h0 : (keys g.adjList).length = 0 := by
        rw [hk]
        rfl
      have h1 : (keys g.adjList).length = g.adjList.length :=
        List.length_map _ _
      omega
    have hone := ncard_classes_one
      (fun x y => eConnP
        (fun je => je ∈ (sortByWeight (collectEdges g.adjList)).enum) x y)
      hkne
      (fun x y hx hy => eConnP_mono (fun ie hT => hT.1)
        (connv_to_tstar hs (fun ie => (ie.2.1, ie.1, 0, 0))
          ((sortByWeight (collectEdges g.adjList)).enum) hcov x y (htot x y hx hy)))
    have h2 : (rootsBelow g.adjList.length d2.parent).card = 1 := by
      rw [hcard]
      exact hone
    omega
  · intro c
    obtain ⟨Ac, d2c, hsublc, hmemAc, hcountc, hwf2c, hfinc⟩ :=
      greedy_canonical_filtered g.adjList hn
        (fun ie => (ie.2.1, ie.1, 0, 0))
        ((sortByWeight (collectEdges g.adjList)).enum)
        ((sortByWeight (collectEdges g.adjList)).enum)
        hL0ends (fun je => Iff.rfl) hsorted (fun ie => rfl) c
    have hndA : A.Nodup := hsubl.nodup (enum_nodup _)
    have hndAc : Ac.Nodup := hsublc.nodup (List.Nodup.filter _ (enum_nodup _))
    have hmemiff : ∀ x, x ∈ A.filter (fun ie => decide (ie.2.1 ≤ c)) ↔ x ∈ Ac := by
      intro x
      rw [List.mem_filter, hmemA x, hmemAc x]
      simp
    have hlen : (A.filter (fun ie => decide (ie.2.1 ≤ c))).length = Ac.length :=
      nodup_length_eq_of_mem_iff (List.Nodup.filter _ hndA) hndAc hmemiff
    have hcardc := roots_card_eq_ncard_classes hs hwf2c
      (fun x y => eConnP
        (fun je => je ∈ (sortByWeight (collectEdges g.adjList)).enum
          ∧ je.2.1 ≤ c) x y)
      (fun x y h => Relation.EqvGen.symm _ _ h)
      (fun x y z h1 h2 => Relation.EqvGen.trans _ _ _ h1 h2)
      (fun x _ => Relation.EqvGen.refl x)
      hfinc
    have hclasses : Set.ncard ((fun v => {u | u ∈ keys g.adjList ∧ eConnP
        (fun je => je ∈ (sortByWeight (collectEdges g.adjList)).enum
          ∧ je.2.1 ≤ c) v u}) '' {v | v ∈ keys g.adjList})
        = lightClasses g.adjList c := by
      unfold lightClasses
      refine congrArg Set.ncard (classes_image_congr ?_)
      intro x y _ _
      unfold lightConn
      refine eConnP_congr_snd ?_ x y
      intro t
      constructor
      · rintro ⟨ie, ⟨hm, hwc⟩, hsnd⟩
        have htL : t ∈ collectEdges g.adjList := by
          rw [← hsnd]
          exact mem_sortByWeight.mp (List.snd_mem_of_mem_enumFrom hm)
        obtain ⟨je, hje, hjsnd⟩ := mem_iff_enum_snd.mp htL
        refine ⟨je, ⟨hje, ?_⟩, hjsnd⟩
        rw [hjsnd, ← hsnd]
        exact hwc
      · rintro ⟨je, ⟨hm, hwc⟩, hsnd⟩
        have htL : t ∈ sortByWeight (collectEdges g.adjList) := by
          rw [← hsnd]
          exact mem_sortByWeight.mpr (List.snd_mem_of_mem_enumFrom hm)
        obtain ⟨ie, hie, hisnd⟩ := mem_iff_enum_snd.mp htL
        refine ⟨ie, ⟨hie, ?_⟩, hisnd⟩
        rw [hisnd, ← hsnd]
        exact hwc
    have h2 : (rootsBelow g.adjList.length d2c.parent).card
        = lightClasses g.adjList c := by
      rw [hcardc]
      exact hclasses
    rw [length_filter_map, hlen]
    omega

/-! ### Weight-preserving mirror coverage of the edge collection -/

theorem collect_step_w (a : Adj) (x : Nat) :
    ∀ (ns : Nbrs) (acc : List (Int × Nat × Nat) × List (Nat × Nat)),
      (∀ q ∈ (ns.foldl (fun acc2 vw =>
          if x ≠ vw.1 ∧ (vw.1, x) ∉ acc2.2 then
            (acc2.1 ++ [(vw.2, x, vw.1)], acc2.2 ++ [(x, vw.1)])
          else acc2) acc).2,
        q ∈ acc.2 ∨ (q.1 = x ∧ (q.2, x) ∉ acc.2 ∧ x ≠ q.2)) ∧
      (∀ q ∈ acc.2, q ∈ (ns.foldl (fun acc2 vw =>
          if x ≠ vw.1 ∧ (vw.1, x) ∉ acc2.2 then
            (acc2.1 ++ [(vw.2, x, vw.1)], acc2.2 ++ [(x, vw.1)])
          else acc2) acc).2) ∧
      (∀ y, (y, x) ∉ acc.2 → x ≠ y →
        ∀ w2, (y, w2) ∈ ns → (w2, x, y) ∈ (ns.foldl (fun acc2 vw =>
          if x ≠ vw.1 ∧ (vw.1, x) ∉ acc2.2 then
            (acc2.1 ++ [(vw.2, x, vw.1)], acc2.2 ++ [(x, vw.1)])
          else acc2) acc).1) := by
  intro ns
  induction ns with
  | nil =>
    intro acc
    refine ⟨fun q hq => Or.inl hq, fun q hq => hq, ?_⟩
    intro y _ _ w2 hw2
    exact absurd hw2 (List.not_mem_nil _)
  | cons vw t ih =>
    intro acc
    rw [List.foldl_cons]
    by_cases hc : x ≠ vw.1 ∧ (vw.1, x) ∉ acc.2
    · rw [if_pos hc]
      obtain ⟨P1, P2, P3⟩ := ih (acc.1 ++ [(vw.2, x, vw.1)], acc.2 ++ [(x, vw.1)])
      refine ⟨?_, ?_, ?_⟩
      · intro q hq
        rcases P1 q hq with hq2 | ⟨h1, h2, h3⟩
        · rcases List.mem_append.mp hq2 with hq2 | hq2
          · exact Or.inl hq2
          · have hq3 : q = (x, vw.1) := List.mem_singleton.mp hq2
            subst hq3
            exact Or.inr ⟨rfl, hc.2, hc.1⟩
        · refine Or.inr ⟨h1, ?_, h3⟩
          intro hmem
          exact h2 (List.mem_append.mpr (Or.inl hmem))
      · intro q hq
        exact P2 q (List.mem_append.mpr (Or.inl hq))
      · intro y hy hxy w2 hw2
        rcases List.mem_cons.mp hw2 with hw2 | hw2
        · have hvwy : vw = (y, w2) := hw2.symm
          subst hvwy
          refine collect_inner_mono x t _ _ ?_
          show (w2, x, y) ∈ acc.1 ++ [((y, w2).2, x, (y, w2).1)]
          exact List.mem_append.mpr (Or.inr (List.mem_singleton.mpr rfl))
        · refine P3 y ?_ hxy w2 hw2
          intro hmem
          rcases List.mem_append.mp hmem with hmem | hmem
          · exact hy hmem
          · have := List.mem_singleton.mp hmem
            exact hxy (congrArg Prod.fst this).symm
    · rw [if_neg hc]
      obtain ⟨P1, P2, P3⟩ := ih acc
      refine ⟨P1, P2, ?_⟩
      intro y hy hxy w2 hw2
      rcases List.mem_cons.mp hw2 with hw2 | hw2
      · exfalso
        have hvwy : vw = (y, w2) := hw2.symm
        subst hvwy
        exact hc ⟨hxy, hy⟩
      · exact P3 y hy hxy w2 hw2

theorem collect_outer_w (a : Adj) (hs : SortedA a)
    (hsym : ∀ u v w, (v, w) ∈ adjOf a u → (u, w) ∈ adjOf a v) :
    ∀ (l : List (Nat × Nbrs)) (acc : List (Int × Nat × Nat) × List (Nat × Nat)),
      (∀ p ∈ l, p ∈ a) →
      (∀ x y, (x, y) ∈ acc.2 →
        ∀ w2, (y, w2) ∈ adjOf a x → (w2, x, y) ∈ acc.1) →
      (∀ p ∈ l, ∀ y w2, (y, w2) ∈ p.2 → p.1 ≠ y →
        (w2, p.1, y) ∈ (l.foldl (fun acc p =>
          p.2.foldl (fun acc2 vw =>
            if p.1 ≠ vw.1 ∧ (vw.1, p.1) ∉ acc2.2 then
              (acc2.1 ++ [(vw.2, p.1, vw.1)], acc2.2 ++ [(p.1, vw.1)])
            else acc2) acc) acc).1 ∨
        (w2, y, p.1) ∈ (l.foldl (fun acc p =>
          p.2.foldl (fun acc2 vw =>
            if p.1 ≠ vw.1 ∧ (vw.1, p.1) ∉ acc2.2 then
              (acc2.1 ++ [(vw.2, p.1, vw.1)], acc2.2 ++ [(p.1, vw.1)])
            else acc2) acc) acc).1) := by
  intro l
  induction l with
  | nil =>
    intro acc _ _ p hp
    exact absurd hp (List.not_mem_nil p)
  | cons p t ih =>
    intro acc hmem hinvw p2 hp2 y w2 hyw2 hne
    rw [List.foldl_cons]
    have hpa : p ∈ a := hmem p (List.mem_cons_self _ _)
    have hadj : adjOf a p.1 = p.2 := by
      obtain ⟨k, ns⟩ := p
      unfold adjOf
      rw [lookupA_of_mem_sorted hs hpa]
      rfl
    obtain ⟨P1, P2, P3⟩ := collect_step_w a p.1 p.2 acc
    have hinvw2 : ∀ x y2, (x, y2) ∈ (p.2.foldl (fun acc2 vw =>
        if p.1 ≠ vw.1 ∧ (vw.1, p.1) ∉ acc2.2 then
          (acc2.1 ++ [(vw.2, p.1, vw.1)], acc2.2 ++ [(p.1, vw.1)])
        else acc2) acc).2 →
        ∀ w3, (y2, w3) ∈ adjOf a x → (w3, x, y2) ∈ (p.2.foldl (fun acc2 vw =>
          if p.1 ≠ vw.1 ∧ (vw.1, p.1) ∉ acc2.2 then
            (acc2.1 ++ [(vw.2, p.1, vw.1)], acc2.2 ++ [(p.1, vw.1)])
          else acc2) acc).1 := by
      intro x y2 hq w3 hw3
      rcases P1 (x, y2) hq with hq2 | ⟨h1, h2, h3⟩
      · exact collect_inner_mono p.1 p.2 acc _ (hinvw x y2 hq2 w3 hw3)
      · dsimp only at h1 h2 h3
        subst h1
        rw [hadj] at hw3
        exact P3 y2 h2 h3 w3 hw3
    rcases List.mem_cons.mp hp2 with hp2 | hp2
    · subst hp2
      by_cases hb : (y, p2.1) ∈ acc.2
      · right
        have hmy : (p2.1, w2) ∈ adjOf a y := by
          refine hsym p2.1 y w2 ?_
          rw [hadj]
          exact hyw2
        have hin : (w2, y, p2.1) ∈ acc.1 := hinvw y p2.1 hb w2 hmy
        refine collect_outer_mono t _ _ ?_
        exact collect_inner_mono p2.1 p2.2 acc _ hin
      · left
        refine collect_outer_mono t _ _ ?_
        exact P3 y hb hne w2 hyw2
    · exact ih _ (fun q hq => hmem q (List.mem_cons_of_mem _ hq)) hinvw2
        p2 hp2 y w2 hyw2 hne

theorem collectEdges_covers_w {a : Adj} (hs : SortedA a)
    (hsym : ∀ u v w, (v, w) ∈ adjOf a u → (u, w) ∈ adjOf a v)
    {u v : Nat} {w : Int} (huv : u ≠ v) (hvw : (v, w) ∈ adjOf a u) :
    (w, u, v) ∈ collectEdges a ∨ (w, v, u) ∈ collectEdges a := by
  have hu : u ∈ keys a := adjOf_mem_keys hvw
  obtain ⟨ns, hns⟩ := Option.isSome_iff_exists.mp ((lookupA_isSome u a).mpr hu)
  have hmem : (u, ns) ∈ a := lookupA_mem hns
  have hadj : adjOf a u = ns := by
    unfold adjOf
    rw [hns]
    rfl
  rw [hadj] at hvw
  have h := collect_outer_w a hs hsym a ([], [])
    (fun p hp => hp)
    (fun x y hq => absurd hq (List.not_mem_nil _))
    (u, ns) hmem v w hvw huv
  exact h

/-! ### Priority queue, unsettled degree and hit-class lemmas for Prim -/

theorem pqLeP_total (x y : Int × Nat × Nat) :
    pqLeP x y = true ∨ pqLeP y x = true := by
  unfold pqLeP
  simp only [decide_eq_true_eq]
  omega

theorem pqLeP_trans {x y z : Int × Nat × Nat}
    (h1 : pqLeP x y = true) (h2 : pqLeP y z = true) : pqLeP x z = true := by
  unfold pqLeP at h1 h2 ⊢
  simp only [decide_eq_true_eq] at h1 h2 ⊢
  omega

theorem pqPushP_sorted (e : Int × Nat × Nat) :
    ∀ {q}, List.Pairwise (fun x y => pqLeP x y = true) q →
      List.Pairwise (fun x y => pqLeP x y = true) (pqPushP e q) := by
  intro q
  induction q with
  | nil =>
    intro _
    exact List.pairwise_singleton _ _
  | cons x t ih =>
    intro hs
    obtain ⟨hx, ht⟩ := List.pairwise_cons.mp hs
    show List.Pairwise _ (if pqLeP e x then e :: x :: t else x :: pqPushP e t)
    by_cases h : pqLeP e x = true
    · rw [if_pos h]
      refine List.pairwise_cons.mpr ⟨?_, hs⟩
      intro b hb
      rcases List.mem_cons.mp hb with hb | hb
      · subst hb
        exact h
      · exact pqLeP_trans h (hx b hb)
    · rw [if_neg h]
      refine List.pairwise_cons.mpr ⟨?_, ih ht⟩
      intro b hb
      rcases mem_pqPushP.mp hb with hb | hb
      · subst hb
        rcases pqLeP_total x b with h2 | h2
        · exact h2
        · exact absurd h2 h
      · exact hx b hb

theorem length_pqPushP (e : Int × Nat × Nat) :
    ∀ q, (pqPushP e q).length = q.length + 1 := by
  intro q
  induction q with
  | nil => rfl
  | cons x t ih =>
    show (if pqLeP e x then e :: x :: t else x :: pqPushP e t).length = _
    by_cases h : pqLeP e x = true
    · rw [if_pos h]
      rfl
    · rw [if_neg h]
      simp only [List.length_cons, ih]

theorem primPush_mem_mono (v : Nat) (inM2 : List Nat) :
    ∀ (ns : Nbrs) (pq : List (Int × Nat × Nat)), ∀ x ∈ pq,
      x ∈ ns.foldl (fun q tw =>
        if tw.1 ∈ inM2 then q else pqPushP (tw.2, v, tw.1) q) pq := by
  intro ns
  induction ns with
  | nil => intro pq x hx; exact hx
  | cons tw t ih =>
    intro pq x hx
    rw [List.foldl_cons]
    refine ih _ x ?_
    by_cases h : tw.1 ∈ inM2
    · rw [if_pos h]
      exact hx
    · rw [if_neg h]
      exact mem_pqPushP.mpr (Or.inr hx)

theorem primPush_mem_char (v : Nat) (inM2 : List Nat) :
    ∀ (ns : Nbrs) (pq : List (Int × Nat × Nat)), ∀ x,
      x ∈ ns.foldl (fun q tw =>
        if tw.1 ∈ inM2 then q else pqPushP (tw.2, v, tw.1) q) pq →
      x ∈ pq ∨ ∃ tw ∈ ns, tw.1 ∉ inM2 ∧ x = (tw.2, v, tw.1) := by
  intro ns
  induction ns with
  | nil => intro pq x hx; exact Or.inl hx
  | cons tw t ih =>
    intro pq x hx
    rw [List.foldl_cons] at hx
    by_cases h : tw.1 ∈ inM2
    · rw [if_pos h] at hx
      rcases ih pq x hx with hx | ⟨tw2, htw2, hn, he⟩
      · exact Or.inl hx
      · exact Or.inr ⟨tw2, List.mem_cons_of_mem _ htw2, hn, he⟩
    · rw [if_neg h] at hx
      rcases ih _ x hx with hx | ⟨tw2, htw2, hn, he⟩
      · rcases mem_pqPushP.mp hx with hx | hx
        · exact Or.inr ⟨tw, List.mem_cons_self _ _, h, hx⟩
        · exact Or.inl hx
      · exact Or.inr ⟨tw2, List.mem_cons_of_mem _ htw2, hn, he⟩

theorem primPush_covers (v : Nat) (inM2 : List Nat) :
    ∀ (ns : Nbrs) (pq : List (Int × Nat × Nat)), ∀ tw ∈ ns, tw.1 ∉ inM2 →
      (tw.2, v, tw.1) ∈ ns.foldl (fun q tw =>
        if tw.1 ∈ inM2 then q else pqPushP (tw.2, v, tw.1) q) pq := by
  intro ns
  induction ns with
  | nil => intro pq tw htw; exact absurd htw (List.not_mem_nil tw)
  | cons tw0 t ih =>
    intro pq tw htw hn
    rw [List.foldl_cons]
    rcases List.mem_cons.mp htw with htw | htw
    · subst htw
      rw [if_neg hn]
      refine primPush_mem_mono v inM2 t _ _ ?_
      exact mem_pqPushP.mpr (Or.inl rfl)
    · exact ih _ tw htw hn

theorem primPush_length (v : Nat) (inM2 : List Nat) :
    ∀ (ns : Nbrs) (pq : List (Int × Nat × Nat)),
      (ns.foldl (fun q tw =>
        if tw.1 ∈ inM2 then q else pqPushP (tw.2, v, tw.1) q) pq).length
        ≤ pq.length + ns.length := by
  intro ns
  induction ns with
  | nil => intro pq; exact Nat.le_refl _
  | cons tw t ih =>
    intro pq
    rw [List.foldl_cons]
    by_cases h : tw.1 ∈ inM2
    · rw [if_pos h]
      have := ih pq
      simp only [List.length_cons]
      omega
    · rw [if_neg h]
      have h1 := ih (pqPushP (tw.2, v, tw.1) pq)
      rw [length_pqPushP] at h1
      simp only [List.length_cons]
      omega

theorem primPush_sorted (v : Nat) (inM2 : List Nat) :
    ∀ (ns : Nbrs) {pq : List (Int × Nat × Nat)},
      List.Pairwise (fun x y => pqLeP x y = true) pq →
      List.Pairwise (fun x y => pqLeP x y = true)
        (ns.foldl (fun q tw =>
          if tw.1 ∈ inM2 then q else pqPushP (tw.2, v, tw.1) q) pq) := by
  intro ns
  induction ns with
  | nil => intro pq h; exact h
  | cons tw t ih =>
    intro pq h
    rw [List.foldl_cons]
    by_cases hc : tw.1 ∈ inM2
    · rw [if_pos hc]
      exact ih h
    · rw [if_neg hc]
      exact ih (pqPushP_sorted _ h)

theorem usum_skip {s : List Nat} {v : Nat} :
    ∀ {t : Adj}, v ∉ keys t → usum t (v :: s) = usum t s := by
  intro t
  induction t with
  | nil => intro _; rfl
  | cons p t2 ih =>
    intro hv
    have hpv : p.1 ≠ v := by
      intro h
      exact hv (h ▸ List.mem_cons_self p.1 (keys t2))
    have hv2 : v ∉ keys t2 := fun h => hv (List.mem_cons_of_mem _ h)
    show (if p.1 ∈ v :: s then 0 else p.2.length) + usum t2 (v :: s)
      = (if p.1 ∈ s then 0 else p.2.length) + usum t2 s
    rw [ih hv2]
    congr 1
    by_cases hp : p.1 ∈ s
    · rw [if_pos hp, if_pos (List.mem_cons_of_mem _ hp)]
    · rw [if_neg hp, if_neg ?_]
      intro h
      rcases List.mem_cons.mp h with h | h
      · exact hpv h
      · exact hp h

theorem usum_settle {a : Adj} (hs : SortedA a) {s : List Nat} {v : Nat}
    (hv : v ∈ keys a) (hvs : v ∉ s) :
    usum a s = usum a (v :: s) + (adjOf a v).length := by
  induction a with
  | nil => cases hv
  | cons p t ih =>
    obtain ⟨k, ns⟩ := p
    have hst : SortedA t := sortedA_tail hs
    by_cases hpv : k = v
    · have hvt : v ∉ keys t := by
        intro hmem
        have hlt := sortedA_head_lt hs v hmem
        omega
      have hlk : lookupA v ((k, ns) :: t) = some ns := by
        show (if v = k then some ns else lookupA v t) = some ns
        rw [if_pos hpv.symm]
      have hadj : adjOf ((k, ns) :: t) v = ns := by
        unfold adjOf
        rw [hlk]
        rfl
      show (if k ∈ s then 0 else ns.length) + usum t s
        = ((if k ∈ v :: s then 0 else ns.length) + usum t (v :: s))
          + (adjOf ((k, ns) :: t) v).length
      rw [hadj, if_neg (by rw [hpv]; exact hvs),
        if_pos (by rw [hpv]; exact List.mem_cons_self _ _), usum_skip hvt]
      omega
    · have hvt : v ∈ keys t := by
        rcases mem_keys_cons.mp hv with h | h
        · exact absurd h.symm hpv
        · exact h
      have hlk : lookupA v ((k, ns) :: t) = lookupA v t := by
        show (if v = k then some ns else lookupA v t) = lookupA v t
        rw [if_neg (fun h => hpv h.symm)]
      have hadj : adjOf ((k, ns) :: t) v = adjOf t v := by
        unfold adjOf
        rw [hlk]
      show (if k ∈ s then 0 else ns.length) + usum t s
        = ((if k ∈ v :: s then 0 else ns.length) + usum t (v :: s))
          + (adjOf ((k, ns) :: t) v).length
      rw [hadj, ih hst hvt]
      have hif : (if k ∈ v :: s then 0 else ns.length)
          = (if k ∈ s then 0 else ns.length) := by
        by_cases hp : k ∈ s
        · rw [if_pos hp, if_pos (List.mem_cons_of_mem _ hp)]
        · rw [if_neg hp, if_neg ?_]
          intro h
          rcases List.mem_cons.mp h with h | h
          · exact hpv h
          · exact hp h
      omega

theorem usum_le_totalDeg (a : Adj) (s : List Nat) : usum a s ≤ totalDeg a := by
  unfold usum totalDeg
  induction a with
  | nil => exact Nat.le_refl _
  | cons p t ih =>
    rw [List.map_cons, List.map_cons, List.sum_cons, List.sum_cons]
    by_cases h : p.1 ∈ s
    · rw [if_pos h]
      omega
    · rw [if_neg h]
      omega

theorem usum_nil : ∀ a : Adj, usum a [] = totalDeg a := by
  intro a
  induction a with
  | nil => rfl
  | cons p t ih =>
    show (if p.1 ∈ ([] : List Nat) then 0 else p.2.length) + usum t []
      = p.2.length + totalDeg t
    rw [if_neg (List.not_mem_nil p.1), ih]

theorem lightConn_adj {a : Adj} (hs : SortedA a)
    (hsym : ∀ u v w, (v, w) ∈ adjOf a u → (u, w) ∈ adjOf a v)
    {u v : Nat} {w c : Int} (huv : u ≠ v) (hadj : (v, w) ∈ adjOf a u)
    (hwc : w ≤ c) : lightConn a c u v := by
  rcases collectEdges_covers_w hs hsym huv hadj with h | h
  · obtain ⟨ie, hie, hsnd⟩ := mem_iff_enum_snd.mp h
    refine Relation.EqvGen.rel _ _ ⟨ie, ⟨hie, ?_⟩, ?_⟩
    · have hweq : ie.2.1 = w := by rw [hsnd]
      omega
    · rw [hsnd]
      exact Or.inl ⟨rfl, rfl⟩
  · obtain ⟨ie, hie, hsnd⟩ := mem_iff_enum_snd.mp h
    refine Relation.EqvGen.rel _ _ ⟨ie, ⟨hie, ?_⟩, ?_⟩
    · have hweq : ie.2.1 = w := by rw [hsnd]
      omega
    · rw [hsnd]
      exact Or.inr ⟨rfl, rfl⟩

theorem hitCount_full {a : Adj} {c : Int} {s : List Nat}
    (h : ∀ x, x ∈ s ↔ x ∈ keys a) : hitCount a c s = lightClasses a c := by
  unfold hitCount lightClasses
  have hset : {v : Nat | v ∈ s} = {v : Nat | v ∈ keys a} := Set.ext h
  rw [hset]

theorem hitCount_singleton (a : Adj) (c : Int) (v : Nat) :
    hitCount a c [v] = 1 := by
  unfold hitCount
  have hset : {x : Nat | x ∈ [v]} = {v} := by
    ext x
    simp
  rw [hset, Set.image_singleton, Set.ncard_singleton]

theorem hitCount_insert_hit {a : Adj} {c : Int} {s : List Nat} {v : Nat}
    (h : ∃ u ∈ s, lightConn a c u v) :
    hitCount a c (v :: s) = hitCount a c s := by
  obtain ⟨u, hu, hconn⟩ := h
  unfold hitCount
  refine congrArg Set.ncard (Set.Subset.antisymm ?_ ?_)
  · rintro S ⟨x, hx, rfl⟩
    rcases List.mem_cons.mp hx with hx | hx
    · subst hx
      refine ⟨u, hu, ?_⟩
      ext z
      simp only [Set.mem_setOf_eq]
      constructor
      · rintro ⟨hz, hc2⟩
        exact ⟨hz, Relation.EqvGen.trans _ _ _ (Relation.EqvGen.symm _ _ hconn) hc2⟩
      · rintro ⟨hz, hc2⟩
        exact ⟨hz, Relation.EqvGen.trans _ _ _ hconn hc2⟩
    · exact ⟨x, hx, rfl⟩
  · rintro S ⟨x, hx, rfl⟩
    exact ⟨x, List.mem_cons_of_mem _ hx, rfl⟩

theorem hitCount_insert_new {a : Adj} {c : Int} {s : List Nat} {v : Nat}
    (hvk : v ∈ keys a) (h : ∀ u ∈ s, ¬ lightConn a c u v) :
    hitCount a c (v :: s) = hitCount a c s + 1 := by
  unfold hitCount
  have hset : {x : Nat | x ∈ v :: s} = insert v {x : Nat | x ∈ s} := by
    ext z
    simp [List.mem_cons]
  rw [hset, Set.image_insert_eq]
  have hnm : (fun x => {u | u ∈ keys a ∧ lightConn a c x u}) v
      ∉ (fun x => {u | u ∈ keys a ∧ lightConn a c x u}) '' {x : Nat | x ∈ s} := by
    rintro ⟨u, hu, heq⟩
    have hvm : v ∈ {z | z ∈ keys a ∧ lightConn a c v z} :=
      ⟨hvk, Relation.EqvGen.refl v⟩
    have heq2 : {z | z ∈ keys a ∧ lightConn a c u z}
        = {z | z ∈ keys a ∧ lightConn a c v z} := heq
    rw [← heq2] at hvm
    exact h u hu hvm.2
  have hfin : ((fun x => {u | u ∈ keys a ∧ lightConn a c x u})
      '' {x : Nat | x ∈ s}).Finite :=
    Set.Finite.image _ (s.finite_toSet)
  rw [Set.ncard_insert_of_not_mem hnm hfin]

theorem prim_heavy_new {a : Adj} (hs : SortedA a)
    (hsym : ∀ u v w, (v, w) ∈ adjOf a u → (u, w) ∈ adjOf a v)
    {inM : List Nat} {pq2 : List (Int × Nat × Nat)} {w : Int} {u v : Nat} {c : Int}
    (hsort : List.Pairwise (fun x y => pqLeP x y = true) ((w, u, v) :: pq2))
    (hcomp : ∀ u2 ∈ inM, ∀ vw ∈ adjOf a u2, vw.1 ∉ inM →
      (vw.2, u2, vw.1) ∈ (w, u, v) :: pq2)
    (hv : v ∉ inM) (hcw : c < w) :
    ∀ z ∈ inM, ¬ lightConn a c z v := by
  intro z hz hconn
  have hconn2 : Relation.EqvGen
      (eStepP (fun ie => ie ∈ (collectEdges a).enum ∧ ie.2.1 ≤ c)) z v := hconn
  obtain ⟨p, q, hR, hside⟩ :=
    @eqvGen_crossing _ (fun t => t ∈ inM) _ _ hconn2 hz hv
  obtain ⟨ie, ⟨hie, hwc⟩, ho⟩ := hR
  have hieC : ie.2 ∈ collectEdges a := List.snd_mem_of_mem_enumFrom hie
  have hpred := collectEdges_pred hs ie.2 hieC
  have hkey : ∃ y1 y2, y1 ∈ inM ∧ y2 ∉ inM ∧ (y2, ie.2.1) ∈ adjOf a y1 := by
    rcases ho with ⟨h1, h2⟩ | ⟨h1, h2⟩ <;> rcases hside with ⟨hU, hnU⟩ | ⟨hU, hnU⟩
    · exact ⟨ie.2.2.1, ie.2.2.2, by rw [h1]; exact hU, by rw [h2]; exact hnU,
        hpred.1⟩
    · exact ⟨ie.2.2.2, ie.2.2.1, by rw [h2]; exact hU, by rw [h1]; exact hnU,
        hsym _ _ _ hpred.1⟩
    · exact ⟨ie.2.2.2, ie.2.2.1, by rw [h1]; exact hU, by rw [h2]; exact hnU,
        hsym _ _ _ hpred.1⟩
    · exact ⟨ie.2.2.1, ie.2.2.2, by rw [h2]; exact hU, by rw [h1]; exact hnU,
        hpred.1⟩
  obtain ⟨y1, y2, hy1, hy2, hadj⟩ := hkey
  have hpq := hcomp y1 hy1 (y2, ie.2.1) hadj hy2
  rcases List.mem_cons.mp hpq with he | he
  · have hweq : ie.2.1 = w := congrArg Prod.fst he
    omega
  · have hle := (List.pairwise_cons.mp hsort).1 _ he
    unfold pqLeP at hle
    simp only [decide_eq_true_eq] at hle
    omega

theorem primLoop_nil (a : Adj) (fuel : Nat) (inM : List Nat)
    (es : List (Nat × Nat)) (tot : Int) :
    primLoop a (fuel + 1) [] inM es tot = some (es, tot) := rfl

theorem primLoop_cons (a : Adj) (fuel : Nat) (w : Int) (u v : Nat)
    (pq : List (Int × Nat × Nat)) (inM : List Nat) (es : List (Nat × Nat))
    (tot : Int) :
    primLoop a (fuel + 1) ((w, u, v) :: pq) inM es tot
      = if v ∈ inM then primLoop a fuel pq inM es tot
        else primLoop a fuel
          ((adjOf a v).foldl (fun q tw =>
            if tw.1 ∈ v :: inM then q else pqPushP (tw.2, v, tw.1) q) pq)
          (v :: inM) (es ++ [(u, v)]) (tot + w) := rfl

theorem pairConn_mono {es es2 : List (Nat × Nat)} (h : ∀ p ∈ es, p ∈ es2)
    {x y : Nat} (hc : pairConn es x y) : pairConn es2 x y := by
  refine eqvGen_mono_closure ?_ x y hc
  rintro i j (hij | hij)
  · exact Relation.EqvGen.rel i j (Or.inl (h _ hij))
  · exact Relation.EqvGen.rel i j (Or.inr (h _ hij))

theorem primLoop_master (a : Adj) (hs : SortedA a) (hc : ClosedA a)
    (hsym : ∀ u v w, (v, w) ∈ adjOf a u → (u, w) ∈ adjOf a v) :
    ∀ (fuel : Nat) (pq : List (Int × Nat × Nat)) (inM : List Nat)
      (es : List (Nat × Nat)) (tot : Int) (W : List Int),
      pq.length + 2 * usum a inM < fuel →
      List.Pairwise (fun x y => pqLeP x y = true) pq →
      (∀ e ∈ pq, e.2.1 ∈ inM ∧ (e.2.2, e.1) ∈ adjOf a e.2.1) →
      (∀ u ∈ inM, ∀ vw ∈ adjOf a u, vw.1 ∉ inM → (vw.2, u, vw.1) ∈ pq) →
      inM.Nodup → (∀ x ∈ inM, x ∈ keys a) →
      (∀ x ∈ inM, ∀ y ∈ inM, pairConn es x y) →
      (∀ p ∈ es, p.1 ∈ inM ∧ p.2 ∈ inM) →
      es.length + 1 = inM.length →
      W.length = es.length →
      (∀ p ∈ es.zip W, (p.1.2, p.2) ∈ adjOf a p.1.1 ∧ p.1.1 ≠ p.1.2) →
      (∀ c : Int, ((W.filter (fun x => decide (x ≤ c))).length
        + hitCount a c inM = inM.length)) →
      ∃ (D : List (Int × Nat × Nat)) (inMF : List Nat),
        primLoop a fuel pq inM es tot
          = some (es ++ D.map (fun e => (e.2.1, e.2.2)),
              tot + (D.map (fun e => e.1)).sum) ∧
        inMF.Nodup ∧ (∀ x ∈ inM, x ∈ inMF) ∧ (∀ x ∈ inMF, x ∈ keys a) ∧
        (∀ x ∈ inMF, ∀ y ∈ inMF,
          pairConn (es ++ D.map (fun e => (e.2.1, e.2.2))) x y) ∧
        (es ++ D.map (fun e => (e.2.1, e.2.2))).length + 1 = inMF.length ∧
        (∀ p ∈ (es ++ D.map (fun e => (e.2.1, e.2.2))).zip
            (W ++ D.map (fun e => e.1)),
          (p.1.2, p.2) ∈ adjOf a p.1.1 ∧ p.1.1 ≠ p.1.2) ∧
        (∀ c : Int, (((W ++ D.map (fun e => e.1)).filter
            (fun x => decide (x ≤ c))).length
          + hitCount a c inMF = inMF.length)) ∧
        (∀ u ∈ inMF, ∀ vw ∈ adjOf a u, vw.1 ∈ inMF) := by
  intro fuel
  induction fuel with
  | zero =>
    intro pq inM es tot W hfuel
    omega
  | succ fuel ih =>
    intro pq inM es tot W hfuel hsort hval hcomp hnd hsub hspan hends hlen
      hWlen hzip hcount
    rcases pq with _ | ⟨⟨w, u, v⟩, pq2⟩
    · refine ⟨[], inM, ?_, hnd, fun x hx => hx, hsub, ?_, ?_, ?_, ?_, ?_⟩
      · rw [primLoop_nil, List.map_nil, List.append_nil, List.map_nil,
          List.sum_nil, Int.add_zero]
      · intro x hx y hy
        rw [List.map_nil, List.append_nil]
        exact hspan x hx y hy
      · rw [List.map_nil, List.append_nil]
        exact hlen
      · intro p hp
        rw [List.map_nil, List.append_nil, List.map_nil, List.append_nil] at hp
        exact hzip p hp
      · intro c
        rw [List.map_nil, List.append_nil]
        exact hcount c
      · intro u2 hu2 vw hvw
        by_contra hn
        exact absurd (hcomp u2 hu2 vw hvw hn) (List.not_mem_nil _)
    · rw [primLoop_cons]
      by_cases hv : v ∈ inM
      · rw [if_pos hv]
        refine ih pq2 inM es tot W ?_ (List.pairwise_cons.mp hsort).2 ?_ ?_
          hnd hsub hspan hends hlen hWlen hzip hcount
        · have : ((w, u, v) :: pq2).length = pq2.length + 1 := rfl
          omega
        · intro e he
          exact hval e (List.mem_cons_of_mem _ he)
        · intro u2 hu2 vw hvw hvn
          rcases List.mem_cons.mp (hcomp u2 hu2 vw hvw hvn) with he | he
          · exfalso
            have : vw.1 = v := congrArg (fun t => t.2.2) he
            rw [this] at hvn
            exact hvn hv
          · exact he
      · rw [if_neg hv]
        have hhead := hval (w, u, v) (List.mem_cons_self _ _)
        have hu : u ∈ inM := hhead.1
        have hadjv : (v, w) ∈ adjOf a u := hhead.2
        have hvk : v ∈ keys a := adjOf_closed hc hadjv
        have huv : u ≠ v := fun h => hv (h ▸ hu)
        have hsort2 : List.Pairwise (fun x y => pqLeP x y = true) pq2 :=
          (List.pairwise_cons.mp hsort).2
        have husum : usum a inM = usum a (v :: inM) + (adjOf a v).length :=
          usum_settle hs hvk hv
        have hmeasure :
            ((adjOf a v).foldl (fun q tw =>
              if tw.1 ∈ v :: inM then q else pqPushP (tw.2, v, tw.1) q)
                pq2).length + 2 * usum a (v :: inM) < fuel := by
          have h1 := primPush_length v (v :: inM) (adjOf a v) pq2
          have h2 : ((w, u, v) :: pq2).length = pq2.length + 1 := rfl
          omega
        obtain ⟨D2, inMF, heq, hndF, hgrow, hsubF, hspanF, hlenF, hzipF,
            hcountF, hcloseF⟩ :=
          ih ((adjOf a v).foldl (fun q tw =>
              if tw.1 ∈ v :: inM then q else pqPushP (tw.2, v, tw.1) q) pq2)
            (v :: inM) (es ++ [(u, v)]) (tot + w) (W ++ [w])
            hmeasure
            (primPush_sorted v (v :: inM) (adjOf a v) hsort2)
            (by
              intro e he
              rcases primPush_mem_char v (v :: inM) (adjOf a v) pq2 e he
                with he2 | ⟨tw, htw, htn, he2⟩
              · have h3 := hval e (List.mem_cons_of_mem _ he2)
                exact ⟨List.mem_cons_of_mem _ h3.1, h3.2⟩
              · rw [he2]
                exact ⟨List.mem_cons_self _ _, htw⟩)
            (by
              intro u2 hu2 vw hvw hvn
              rcases List.mem_cons.mp hu2 with hq | hq
              · subst hq
                exact primPush_covers u2 (u2 :: inM) (adjOf a u2) pq2 vw hvw hvn
              · have hvn2 : vw.1 ∉ inM := fun h =>
                  hvn (List.mem_cons_of_mem _ h)
                rcases List.mem_cons.mp (hcomp u2 hq vw hvw hvn2) with he | he
                · exfalso
                  have h3 : vw.1 = v := congrArg (fun t => t.2.2) he
                  exact hvn (h3 ▸ List.mem_cons_self v inM)
                · exact primPush_mem_mono v (v :: inM) (adjOf a v) pq2 _ he)
            (List.nodup_cons.mpr ⟨hv, hnd⟩)
            (by
              intro x hx
              rcases List.mem_cons.mp hx with hq | hq
              · exact hq ▸ hvk
              · exact hsub x hq)
            (by
              intro x hx y hy
              have hArc : pairConn (es ++ [(u, v)]) u v :=
                Relation.EqvGen.rel u v
                  (Or.inl (List.mem_append_right es (List.mem_singleton.mpr rfl)))
              have hmono : ∀ x2 y2, pairConn es x2 y2 →
                  pairConn (es ++ [(u, v)]) x2 y2 :=
                fun x2 y2 h => pairConn_mono
                  (fun p hp => List.mem_append_left _ hp) h
              rcases List.mem_cons.mp hx with hq | hq <;>
                rcases List.mem_cons.mp hy with hr | hr
              · rw [hq, hr]
                exact Relation.EqvGen.refl v
              · rw [hq]
                exact Relation.EqvGen.trans _ _ _
                  (Relation.EqvGen.symm _ _ hArc) (hmono u y (hspan u hu y hr))
              · rw [hr]
                exact Relation.EqvGen.trans _ _ _
                  (hmono x u (hspan x hq u hu)) hArc
              · exact hmono x y (hspan x hq y hr))
            (by
              intro p hp
              rcases List.mem_append.mp hp with hq | hq
              · have h3 := hends p hq
                exact ⟨List.mem_cons_of_mem _ h3.1, List.mem_cons_of_mem _ h3.2⟩
              · have h3 : p = (u, v) := List.mem_singleton.mp hq
                rw [h3]
                exact ⟨List.mem_cons_of_mem _ hu, List.mem_cons_self _ _⟩)
            (by
              rw [List.length_append]
              have h4 : ([(u, v)] : List (Nat × Nat)).length = 1 := rfl
              have h5 : (v :: inM).length = inM.length + 1 := rfl
              omega)
            (by
              rw [List.length_append, List.length_append, hWlen]
              rfl)
            (by
              intro p hp
              rw [List.zip_append hWlen.symm] at hp
              rcases List.mem_append.mp hp with hq | hq
              · exact hzip p hq
              · have h3 : p = ((u, v), w) := List.mem_singleton.mp hq
                rw [h3]
                exact ⟨hadjv, huv⟩)
            (by
              intro c
              have hfl : ((W ++ [w]).filter (fun x => decide (x ≤ c))).length
                  = (W.filter (fun x => decide (x ≤ c))).length
                    + ([w].filter (fun x => decide (x ≤ c))).length := by
                rw [List.filter_append, List.length_append]
              have hbase := hcount c
              by_cases hwc : w ≤ c
              · have hone : ([w].filter (fun x => decide (x ≤ c))).length = 1 := by
                  rw [List.filter_cons, if_pos (by simpa using hwc)]
                  rfl
                have hhit : hitCount a c (v :: inM) = hitCount a c inM :=
                  hitCount_insert_hit
                    ⟨u, hu, lightConn_adj hs hsym huv hadjv hwc⟩
                rw [hfl, hone, hhit]
                have : (v :: inM).length = inM.length + 1 := rfl
                omega
              · have hzero : ([w].filter (fun x => decide (x ≤ c))).length = 0 := by
                  rw [List.filter_cons, if_neg (by simpa using hwc)]
                  rfl
                have hnew : hitCount a c (v :: inM) = hitCount a c inM + 1 :=
                  hitCount_insert_new hvk
                    (prim_heavy_new hs hsym hsort hcomp hv (by omega))
                rw [hfl, hzero, hnew]
                have : (v :: inM).length = inM.length + 1 := rfl
                omega)
        have hlist : es ++ ((w, u, v) :: D2).map (fun e => (e.2.1, e.2.2))
            = (es ++ [(u, v)]) ++ D2.map (fun e => (e.2.1, e.2.2)) := by
          simp
        have hwlist : W ++ ((w, u, v) :: D2).map (fun e => e.1)
            = (W ++ [w]) ++ D2.map (fun e => e.1) := by
          simp
        have htot : tot + (((w, u, v) :: D2).map (fun e => e.1)).sum
            = (tot + w) + (D2.map (fun e => e.1)).sum := by
          rw [List.map_cons, List.sum_cons, Int.add_assoc]
        refine ⟨(w, u, v) :: D2, inMF, ?_, hndF,
          (fun x hx => hgrow x (List.mem_cons_of_mem _ hx)), hsubF, ?_, ?_,
          ?_, ?_, hcloseF⟩
        · rw [hlist, htot]
          exact heq
        · intro x hx y hy
          rw [hlist]
          exact hspanF x hx y hy
        · rw [hlist]
          exact hlenF
        · intro p hp
          rw [hlist, hwlist] at hp
          exact hzipF p hp
        · intro c
          rw [hwlist]
          exact hcountF c

theorem closed_reach {a : Adj}
    (hsym : ∀ u v w, (v, w) ∈ adjOf a u → (u, w) ∈ adjOf a v)
    {inM : List Nat}
    (hclosed : ∀ u ∈ inM, ∀ vw ∈ adjOf a u, vw.1 ∈ inM)
    {x y : Nat} (hx : x ∈ inM) (hconn : ConnV a x y) : y ∈ inM := by
  have h : Relation.EqvGen (fun u v => ∃ w : Int, (v, w) ∈ adjOf a u) x y := hconn
  have hcl : ∀ u v, ((∃ w : Int, (v, w) ∈ adjOf a u)
      ∨ (∃ w : Int, (u, w) ∈ adjOf a v)) → u ∈ inM → v ∈ inM := by
    rintro u v (⟨w, hw⟩ | ⟨w, hw⟩) hu
    · exact hclosed u hu (v, w) hw
    · exact hclosed u hu (v, w) (hsym v u w hw)
  exact (eqvGen_same_side (fun t => t ∈ inM) hcl x y h).mp hx

theorem seedPush_mem_char (s0 : Nat) :
    ∀ (ns : Nbrs) (pq : List (Int × Nat × Nat)) (x : Int × Nat × Nat),
      x ∈ ns.foldl (fun q vw => pqPushP (vw.2, s0, vw.1) q) pq ↔
        x ∈ pq ∨ ∃ vw ∈ ns, x = (vw.2, s0, vw.1) := by
  intro ns
  induction ns with
  | nil =>
    intro pq x
    simp
  | cons vw t ih =>
    intro pq x
    rw [List.foldl_cons, ih, mem_pqPushP]
    constructor
    · rintro ((he | hm) | ⟨vw2, hm2, he2⟩)
      · exact Or.inr ⟨vw, List.mem_cons_self _ _, he⟩
      · exact Or.inl hm
      · exact Or.inr ⟨vw2, List.mem_cons_of_mem _ hm2, he2⟩
    · rintro (hm | ⟨vw2, hm2, he2⟩)
      · exact Or.inl (Or.inr hm)
      · rcases List.mem_cons.mp hm2 with h | h
        · refine Or.inl (Or.inl ?_)
          rw [he2, h]
        · exact Or.inr ⟨vw2, h, he2⟩

theorem seedPush_sorted (s0 : Nat) :
    ∀ (ns : Nbrs) {pq : List (Int × Nat × Nat)},
      List.Pairwise (fun x y => pqLeP x y = true) pq →
      List.Pairwise (fun x y => pqLeP x y = true)
        (ns.foldl (fun q vw => pqPushP (vw.2, s0, vw.1) q) pq) := by
  intro ns
  induction ns with
  | nil =>
    intro pq h
    exact h
  | cons vw t ih =>
    intro pq h
    rw [List.foldl_cons]
    exact ih (pqPushP_sorted _ h)

theorem seedPush_length (s0 : Nat) :
    ∀ (ns : Nbrs) (pq : List (Int × Nat × Nat)),
      (ns.foldl (fun q vw => pqPushP (vw.2, s0, vw.1) q) pq).length
        = pq.length + ns.length := by
  intro ns
  induction ns with
  | nil =>
    intro pq
    rfl
  | cons vw t ih =>
    intro pq
    rw [List.foldl_cons, ih, length_pqPushP]
    simp only [List.length_cons]
    omega

theorem prim_ok (g : Graph) (hw : g.Wf) (hne : g.adjList ≠ [])
    (hdir : g.directed = false)
    (hsym : ∀ u v w, (v, w) ∈ adjOf g.adjList u → (u, w) ∈ adjOf g.adjList v)
    (hconn : ∀ x y, x ∈ keys g.adjList → y ∈ keys g.adjList →
      ConnV g.adjList x y) :
    ∃ A : List (Int × Nat × Nat),
      g.mst_prim = some (A.map (fun e => (e.2.1, e.2.2)),
        (A.map (fun e => e.1)).sum) ∧
      (∀ p ∈ (A.map (fun e => (e.2.1, e.2.2))).zip (A.map (fun e => e.1)),
        (p.1.2, p.2) ∈ adjOf g.adjList p.1.1 ∧ p.1.1 ≠ p.1.2) ∧
      (∀ x y, x ∈ keys g.adjList → y ∈ keys g.adjList →
        pairConn (A.map (fun e => (e.2.1, e.2.2))) x y) ∧
      A.length + 1 = g.adjList.length ∧
      (∀ c : Int, ((A.map (fun e => e.1)).filter
          (fun x => decide (x ≤ c))).length + lightClasses g.adjList c
        = g.adjList.length) := by
  obtain ⟨hs, hcl⟩ := hw
  obtain ⟨p0, rest, ha⟩ := List.exists_cons_of_ne_nil hne
  obtain ⟨start, ns⟩ := p0
  have hstart : start ∈ keys g.adjList := by
    rw [ha]
    exact List.mem_cons_self _ _
  have hadjs : adjOf g.adjList start = ns := by
    have hmem : (start, ns) ∈ g.adjList := by
      rw [ha]
      exact List.mem_cons_self _ _
    unfold adjOf
    rw [lookupA_of_mem_sorted hs hmem]
    rfl
  have hrun : g.mst_prim
      = primLoop g.adjList (1 + 2 * totalDeg g.adjList)
          (ns.foldl (fun q vw => pqPushP (vw.2, start, vw.1) q) [])
          [start] [] 0 := by
    unfold Graph.mst_prim
    rw [ha, hdir]
    rfl
  have hseedchar := seedPush_mem_char start ns
  have hdeg : (adjOf g.adjList start).length = ns.length := by
    rw [hadjs]
  have husums : usum g.adjList []
      = usum g.adjList [start] + (adjOf g.adjList start).length :=
    usum_settle hs hstart (List.not_mem_nil start)
  have husumnil : usum g.adjList [] = totalDeg g.adjList := usum_nil _
  have hseedlen :
      (ns.foldl (fun q vw => pqPushP (vw.2, start, vw.1) q) []).length
        = 0 + ns.length := seedPush_length start ns []
  obtain ⟨D, inMF, heq, hndF, hgrow, hsubF, hspanF, hlenF, hzipF, hcountF,
      hcloseF⟩ :=
    primLoop_master g.adjList hs hcl hsym (1 + 2 * totalDeg g.adjList)
      (ns.foldl (fun q vw => pqPushP (vw.2, start, vw.1) q) [])
      [start] [] 0 []
      (by omega)
      (seedPush_sorted start ns List.Pairwise.nil)
      (by
        intro e he
        rcases (hseedchar [] e).mp he with h0 | ⟨vw, hm, he2⟩
        · exact absurd h0 (List.not_mem_nil _)
        · rw [he2]
          refine ⟨List.mem_cons_self _ _, ?_⟩
          show (vw.1, vw.2) ∈ adjOf g.adjList start
          rw [hadjs]
          exact hm)
      (by
        intro u2 hu2 vw hvw hvn
        have h2 : u2 = start := List.mem_singleton.mp hu2
        subst h2
        refine (hseedchar [] (vw.2, u2, vw.1)).mpr
          (Or.inr ⟨(vw.1, vw.2), ?_, rfl⟩)
        rw [← hadjs]
        exact hvw)
      (List.nodup_cons.mpr ⟨List.not_mem_nil _, List.nodup_nil⟩)
      (by
        intro x hx
        rw [List.mem_singleton.mp hx]
        exact hstart)
      (by
        intro x hx y hy
        rw [List.mem_singleton.mp hx, List.mem_singleton.mp hy]
        exact Relation.EqvGen.refl start)
      (by
        intro p hp
        exact absurd hp (List.not_mem_nil _))
      rfl
      rfl
      (by
        intro p hp
        exact absurd hp (List.not_mem_nil _))
      (by
        intro c
        rw [hitCount_singleton]
        rfl)
  have hstartF : start ∈ inMF := hgrow start (List.mem_cons_self _ _)
  have hkeysF : ∀ x, x ∈ inMF ↔ x ∈ keys g.adjList := by
    intro x
    constructor
    · exact hsubF x
    · intro hx
      exact closed_reach hsym hcloseF hstartF (hconn start x hstart hx)
  have hlenkeys : inMF.length = g.adjList.length := by
    have h1 := nodup_length_eq_of_mem_iff hndF (sortedA_nodup hs) hkeysF
    have h2 : (keys g.adjList).length = g.adjList.length := List.length_map _ _
    omega
  rw [List.nil_append, Int.zero_add] at heq
  refine ⟨D, hrun.trans heq, ?_, ?_, ?_, ?_⟩
  · intro p hp
    refine hzipF p ?_
    rw [List.nil_append, List.nil_append]
    exact hp
  · intro x y hx hy
    have h3 := hspanF x ((hkeysF x).mpr hx) y ((hkeysF y).mpr hy)
    rw [List.nil_append] at h3
    exact h3
  · have h3 := hlenF
    rw [List.nil_append] at h3
    have h4 : (D.map (fun e => (e.2.1, e.2.2))).length = D.length :=
      List.length_map _ _
    omega
  · intro c
    have h3 := hcountF c
    rw [List.nil_append, hitCount_full hkeysF, hlenkeys] at h3
    exact h3

theorem cut_tstar (k : Nat × (Int × Nat × Nat) → Int × Nat × Nat × Nat)
    (L0 : List (Nat × (Int × Nat × Nat))) (U : Nat → Prop)
    {ie : Nat × (Int × Nat × Nat)} (hie : ie ∈ L0)
    (hcross : (U ie.2.2.1 ∧ ¬ U ie.2.2.2) ∨ (U ie.2.2.2 ∧ ¬ U ie.2.2.1))
    (hmin : ∀ je ∈ L0,
      ((U je.2.2.1 ∧ ¬ U je.2.2.2) ∨ (U je.2.2.2 ∧ ¬ U je.2.2.1)) →
      ¬ keyLt (k je) (k ie)) :
    TstarMem k L0 ie := by
  refine ⟨hie, ?_⟩
  intro hconn
  have main : ∀ s t, eConnP (lighterP k L0 ie) s t → U s → ¬ U t → False := by
    intro s t hst hs hnt
    have hst2 : Relation.EqvGen (eStepP (lighterP k L0 ie)) s t := hst
    obtain ⟨p, q, hR, hside⟩ := @eqvGen_crossing _ U _ _ hst2 hs hnt
    obtain ⟨je, ⟨hjm, hjk⟩, ho⟩ := hR
    refine hmin je hjm ?_ hjk
    rcases ho with ⟨h1, h2⟩ | ⟨h1, h2⟩ <;>
      rcases hside with ⟨hU2, hnU2⟩ | ⟨hU2, hnU2⟩
    · exact Or.inl ⟨by rw [h1]; exact hU2, by rw [h2]; exact hnU2⟩
    · exact Or.inr ⟨by rw [h2]; exact hU2, by rw [h1]; exact hnU2⟩
    · exact Or.inr ⟨by rw [h1]; exact hU2, by rw [h2]; exact hnU2⟩
    · exact Or.inl ⟨by rw [h2]; exact hU2, by rw [h1]; exact hnU2⟩
  rcases hcross with ⟨hU, hnU⟩ | ⟨hU, hnU⟩
  · exact main _ _ hconn hU hnU
  · exact main _ _ (Relation.EqvGen.symm _ _ hconn) hU hnU

theorem dsuRel_of_roots_one {n : Nat} {par : List Nat} (hwf : DsuWf n par)
    (hcard : (rootsBelow n par).card = 1) {x y : Nat}
    (hx : x < n) (hy : y < n) : dsuRel par x y := by
  obtain ⟨rx, hrx⟩ := exists_root hwf x
  obtain ⟨ry, hry⟩ := exists_root hwf y
  have hmx : rx ∈ rootsBelow n par := by
    simp only [rootsBelow, Finset.mem_filter, Finset.mem_range]
    exact ⟨root_lt hwf hx hrx, rootedAt_root hrx⟩
  have hmy : ry ∈ rootsBelow n par := by
    simp only [rootsBelow, Finset.mem_filter, Finset.mem_range]
    exact ⟨root_lt hwf hy hry, rootedAt_root hry⟩
  have hxy : rx = ry := Finset.card_le_one.mp (le_of_eq hcard) rx hmx ry hmy
  refine ⟨rx, hrx, ?_⟩
  rw [hxy]
  exact hry

theorem enum_getD {α : Type} {l : List α} {j : Nat} {e : α} (d : α)
    (h : (j, e) ∈ l.enum) : l.getD j d = e :=
  (getD_of_getElem? d (List.mem_enum_iff_getElem?.mp h)).1

theorem pairwise_fst_lt_inj {α : Type} :
    ∀ {l : List (Nat × α)},
      List.Pairwise (fun x y : Nat × α => x.1 < y.1) l →
      ∀ x ∈ l, ∀ y ∈ l, x.1 = y.1 → x = y := by
  intro l
  induction l with
  | nil =>
    intro _ x hx
    exact absurd hx (List.not_mem_nil _)
  | cons a t ih =>
    intro hp x hx y hy hxy
    obtain ⟨ha, ht⟩ := List.pairwise_cons.mp hp
    rcases List.mem_cons.mp hx with hx | hx <;>
      rcases List.mem_cons.mp hy with hy | hy
    · rw [hx, hy]
    · exfalso
      have := ha y hy
      rw [hx] at hxy
      omega
    · exfalso
      have := ha x hx
      rw [hy] at hxy
      omega
    · exact ih ht x hx y hy hxy

theorem split_pairwise_lt {α : Type} {l : List α}
    {P suf : List (Nat × α)} {ie : Nat × α}
    (h : l.enum = P ++ ie :: suf) : ∀ je ∈ P, je.1 < ie.1 := by
  have hp := enumFrom_pairwise_fst_lt 0 l
  have hp2 : List.Pairwise (fun x y : Nat × α => x.1 < y.1) (P ++ ie :: suf) := by
    rw [← h]
    exact hp
  intro je hje
  exact (List.pairwise_append.mp hp2).2.2 je hje ie (List.mem_cons_self _ _)

theorem cheaperAt_none_true (edges : List (Int × Nat × Nat))
    {ch : List (Option Nat)} {s : Nat} (w : Int)
    (hj : ch.getD s none = none) : cheaperAt edges ch s w = true := by
  unfold cheaperAt
  rw [hj]

theorem cheaperAt_some (edges : List (Int × Nat × Nat))
    {ch : List (Option Nat)} {s : Nat} (w : Int) {j : Nat}
    (hj : ch.getD s none = some j) :
    cheaperAt edges ch s w = decide ((edges.getD j (0, 0, 0)).1 > w) := by
  unfold cheaperAt
  rw [hj]

theorem chmin_update (a : Adj) (par0 : List Nat)
    (edges : List (Int × Nat × Nat))
    {P suf : List (Nat × (Int × Nat × Nat))} {ie : Nat × (Int × Nat × Nat)}
    {ch : List (Option Nat)}
    (hsplit : edges.enum = P ++ ie :: suf)
    (hinv : ChInv a par0 P ch)
    {s : Nat} (hc : cheaperAt edges ch s ie.2.1 = true) :
    ∀ ke ∈ P ++ [ie], CrossAt a par0 s ke →
      ¬ keyLt (ke.2.1, ke.1, 0, 0) (ie.2.1, ie.1, 0, 0) := by
  intro ke hke hkcr
  rcases List.mem_append.mp hke with hkeP | hkeI
  · cases hj0 : ch.getD s none with
    | none => exact absurd hkcr (hinv.2 s hj0 ke hkeP)
    | some j0 =>
      obtain ⟨je0, hje0P, hje0j, hje0cr, hje0min⟩ := hinv.1 s j0 hj0
      have hgd : edges.getD j0 (0, 0, 0) = je0.2 := by
        rw [← hje0j]
        exact enum_getD _
          (by rw [hsplit]; exact List.mem_append_left _ hje0P)
      have hw0 : ie.2.1 < je0.2.1 := by
        rw [cheaperAt_some edges ie.2.1 hj0, hgd] at hc
        simpa using hc
      intro hklt
      exact hje0min ke hkeP hkcr (keyLt_trans hklt (Or.inl hw0))
  · have hki : ke = ie := List.mem_singleton.mp hkeI
    rw [hki]
    exact keyLt_irrefl _

theorem chmin_keep (a : Adj) (par0 : List Nat)
    (edges : List (Int × Nat × Nat))
    {P suf : List (Nat × (Int × Nat × Nat))} {ie : Nat × (Int × Nat × Nat)}
    {ch : List (Option Nat)}
    (hsplit : edges.enum = P ++ ie :: suf)
    (hinv : ChInv a par0 P ch)
    {s j : Nat} (hc : cheaperAt edges ch s ie.2.1 = false)
    (hj : ch.getD s none = some j) :
    ∃ je ∈ P ++ [ie], je.1 = j ∧ CrossAt a par0 s je ∧
      ∀ ke ∈ P ++ [ie], CrossAt a par0 s ke →
        ¬ keyLt (ke.2.1, ke.1, 0, 0) (je.2.1, je.1, 0, 0) := by
  obtain ⟨je0, hje0P, hje0j, hje0cr, hje0min⟩ := hinv.1 s j hj
  have hgd : edges.getD j (0, 0, 0) = je0.2 := by
    rw [← hje0j]
    exact enum_getD _ (by rw [hsplit]; exact List.mem_append_left _ hje0P)
  have hw0 : je0.2.1 ≤ ie.2.1 := by
    rw [cheaperAt_some edges ie.2.1 hj, hgd] at hc
    simp only [decide_eq_false_iff_not, gt_iff_lt, not_lt] at hc
    exact hc
  have hidx0 : je0.1 < ie.1 := split_pairwise_lt hsplit je0 hje0P
  refine ⟨je0, List.mem_append_left _ hje0P, hje0j, hje0cr, ?_⟩
  intro ke hke hkcr
  rcases List.mem_append.mp hke with hkeP | hkeI
  · exact hje0min ke hkeP hkcr
  · have hki : ke = ie := List.mem_singleton.mp hkeI
    rw [hki]
    intro hklt
    unfold keyLt at hklt
    dsimp only at hklt
    omega

theorem boruvkaScan_master (a : Adj) (n : Nat) (hn : 0 < n)
    (hna : n = a.length)
    (edges : List (Int × Nat × Nat))
    (hends : ∀ e ∈ edges, e.2.1 ∈ keys a ∧ e.2.2 ∈ keys a)
    (par0 : List Nat) :
    ∀ (suf P : List (Nat × (Int × Nat × Nat))) (d : DSU)
      (ch : List (Option Nat)),
      edges.enum = P ++ suf →
      DsuWf n d.parent →
      (∀ x r, RootedAt par0 x r ↔ RootedAt d.parent x r) →
      ch.length = n →
      ChInv a par0 P ch →
      ∃ (d2 : DSU) (ch2 : List (Option Nat)),
        suf.foldl (boruvkaScanStep a n edges) (some (d, ch)) = some (d2, ch2) ∧
        DsuWf n d2.parent ∧
        (∀ x r, RootedAt par0 x r ↔ RootedAt d2.parent x r) ∧
        ch2.length = n ∧
        ChInv a par0 edges.enum ch2 := by
  intro suf
  induction suf with
  | nil =>
    intro P d ch hsplit hwf hpt hlen hinv
    rw [List.append_nil] at hsplit
    refine ⟨d, ch, rfl, hwf, hpt, hlen, ?_⟩
    rw [hsplit]
    exact hinv
  | cons ie suf ih =>
    intro P d ch hsplit hwf hpt hlen hinv
    rw [List.foldl_cons]
    have hie_enum : ie ∈ edges.enum := by
      rw [hsplit]
      exact List.mem_append_right _ (List.mem_cons_self _ _)
    have hie_edges : ie.2 ∈ edges := List.snd_mem_of_mem_enumFrom hie_enum
    have hiu_lt : vIndex a ie.2.2.1 < n := by
      rw [hna]
      exact vIndex_lt (hends _ hie_edges).1
    have hiv_lt : vIndex a ie.2.2.2 < n := by
      rw [hna]
      exact vIndex_lt (hends _ hie_edges).2
    obtain ⟨r1, par1, hfind1, hroot1, hwf1, hiff1, hroots1⟩ :=
      findSet_spec (vIndex a ie.2.2.1) hwf hn
    obtain ⟨r2, par2, hfind2, hroot2, hwf2, hiff2, hroots2⟩ :=
      findSet_spec (vIndex a ie.2.2.2) hwf1 hn
    have hpt2 : ∀ x r, RootedAt par0 x r ↔ RootedAt par2 x r :=
      fun x r => (hpt x r).trans ((hiff1 x r).trans (hiff2 x r))
    have hr1p0 : RootedAt par0 (vIndex a ie.2.2.1) r1 := (hpt _ _).mpr hroot1
    have hr2p0 : RootedAt par0 (vIndex a ie.2.2.2) r2 :=
      (hpt _ _).mpr ((hiff1 _ _).mpr hroot2)
    have hr1_lt : r1 < n := root_lt hwf hiu_lt hroot1
    have hr2_lt : r2 < n := root_lt hwf1 hiv_lt hroot2
    have hsplit2 : edges.enum = (P ++ [ie]) ++ suf := by
      rw [hsplit, List.append_cons]
    by_cases hr : r1 = r2
    · have hstep : boruvkaScanStep a n edges (some (d, ch)) ie
          = some (⟨par2, d.rnk⟩, ch) := by
        simp only [boruvkaScanStep, hfind1, hfind2]
        rw [if_pos hr]
      rw [hstep]
      have hnocross : ∀ i, ¬ CrossAt a par0 i ie := by
        intro i hcr
        rcases hcr with ⟨h1, h2⟩ | ⟨h1, h2⟩
        · have hi : i = r1 := (rootedAt_unique hr1p0 h1).symm
          refine h2 ?_
          rw [hi, hr]
          exact hr2p0
        · have hi : i = r2 := (rootedAt_unique hr2p0 h1).symm
          refine h2 ?_
          rw [hi, ← hr]
          exact hr1p0
      refine ih (P ++ [ie]) ⟨par2, d.rnk⟩ ch hsplit2 hwf2 hpt2 hlen ⟨?_, ?_⟩
      · intro i j hj
        obtain ⟨je, hjeP, hjej, hjecr, hjemin⟩ := hinv.1 i j hj
        refine ⟨je, List.mem_append_left _ hjeP, hjej, hjecr, ?_⟩
        intro ke hke hkcr
        rcases List.mem_append.mp hke with hke | hke
        · exact hjemin ke hke hkcr
        · have hki : ke = ie := List.mem_singleton.mp hke
          rw [hki] at hkcr
          exact absurd hkcr (hnocross i)
      · intro i hi je hje hcr
        rcases List.mem_append.mp hje with hje | hje
        · exact hinv.2 i hi je hje hcr
        · have hki : je = ie := List.mem_singleton.mp hje
          rw [hki] at hcr
          exact absurd hcr (hnocross i)
    · have hcr1 : CrossAt a par0 r1 ie :=
        Or.inl ⟨hr1p0, fun h => hr (rootedAt_unique h hr2p0)⟩
      have hcr2 : CrossAt a par0 r2 ie :=
        Or.inr ⟨hr2p0, fun h => hr (rootedAt_unique hr1p0 h)⟩
      have hcrO : ∀ i, i ≠ r1 → i ≠ r2 → ¬ CrossAt a par0 i ie := by
        intro i h1 h2 hcr
        rcases hcr with ⟨ha2, hb2⟩ | ⟨ha2, hb2⟩
        · exact h1 (rootedAt_unique ha2 hr1p0)
        · exact h2 (rootedAt_unique ha2 hr2p0)
      have hstep : boruvkaScanStep a n edges (some (d, ch)) ie
          = some (⟨par2, d.rnk⟩,
              if cheaperAt edges
                  (if cheaperAt edges ch r1 ie.2.1 = true
                   then ch.set r1 (some ie.1) else ch) r2 ie.2.1 = true
              then (if cheaperAt edges ch r1 ie.2.1 = true
                    then ch.set r1 (some ie.1) else ch).set r2 (some ie.1)
              else (if cheaperAt edges ch r1 ie.2.1 = true
                    then ch.set r1 (some ie.1) else ch)) := by
        simp only [boruvkaScanStep, hfind1, hfind2]
        rw [if_neg hr]
      rw [hstep]
      by_cases hc1 : cheaperAt edges ch r1 ie.2.1 = true
      · rw [if_pos hc1]
        have hch1r2 : (ch.set r1 (some ie.1)).getD r2 none
            = ch.getD r2 none := by
          rw [getD_set]
          rw [if_neg ?_]
          rintro ⟨h, _⟩
          exact hr h.symm
        have hcheq : cheaperAt edges (ch.set r1 (some ie.1)) r2 ie.2.1
            = cheaperAt edges ch r2 ie.2.1 := by
          unfold cheaperAt
          rw [hch1r2]
        rw [hcheq]
        by_cases hc2 : cheaperAt edges ch r2 ie.2.1 = true
        · rw [if_pos hc2]
          have hgd : ∀ i, ((ch.set r1 (some ie.1)).set r2 (some ie.1)).getD i none
              = if i = r2 then some ie.1
                else if i = r1 then some ie.1 else ch.getD i none := by
            intro i
            rw [getD_set, getD_set, List.length_set]
            by_cases hi2 : i = r2
            · rw [if_pos ⟨hi2, by omega⟩, if_pos hi2]
            · rw [if_neg (fun h => hi2 h.1), if_neg hi2]
              by_cases hi1 : i = r1
              · rw [if_pos ⟨hi1, by omega⟩, if_pos hi1]
              · rw [if_neg (fun h => hi1 h.1), if_neg hi1]
          refine ih (P ++ [ie]) ⟨par2, d.rnk⟩ _ hsplit2 hwf2 hpt2
            (by rw [List.length_set, List.length_set]; exact hlen) ⟨?_, ?_⟩
          · intro i j hj
            rw [hgd i] at hj
            by_cases hi2 : i = r2
            · rw [if_pos hi2] at hj
              have hji : j = ie.1 := (Option.some_inj.mp hj).symm
              refine ⟨ie, List.mem_append_right _ (List.mem_singleton.mpr rfl),
                hji.symm, ?_, ?_⟩
              · rw [hi2]
                exact hcr2
              · rw [hi2]
                exact chmin_update a par0 edges hsplit hinv hc2
            · rw [if_neg hi2] at hj
              by_cases hi1 : i = r1
              · rw [if_pos hi1] at hj
                have hji : j = ie.1 := (Option.some_inj.mp hj).symm
                refine ⟨ie, List.mem_append_right _ (List.mem_singleton.mpr rfl),
                  hji.symm, ?_, ?_⟩
                · rw [hi1]
                  exact hcr1
                · rw [hi1]
                  exact chmin_update a par0 edges hsplit hinv hc1
              · rw [if_neg hi1] at hj
                obtain ⟨je, hjeP, hjej, hjecr, hjemin⟩ := hinv.1 i j hj
                refine ⟨je, List.mem_append_left _ hjeP, hjej, hjecr, ?_⟩
                intro ke hke hkcr
                rcases List.mem_append.mp hke with hke | hke
                · exact hjemin ke hke hkcr
                · have hki : ke = ie := List.mem_singleton.mp hke
                  rw [hki] at hkcr
                  exact absurd hkcr (hcrO i hi1 hi2)
          · intro i hi je hje hcr3
            rw [hgd i] at hi
            by_cases hi2 : i = r2
            · rw [if_pos hi2] at hi
              exact Option.noConfusion hi
            · rw [if_neg hi2] at hi
              by_cases hi1 : i = r1
              · rw [if_pos hi1] at hi
                exact Option.noConfusion hi
              · rw [if_neg hi1] at hi
                rcases List.mem_append.mp hje with hje | hje
                · exact hinv.2 i hi je hje hcr3
                · have hki : je = ie := List.mem_singleton.mp hje
                  rw [hki] at hcr3
                  exact absurd hcr3 (hcrO i hi1 hi2)
        · rw [if_neg hc2]
          have hc2f : cheaperAt edges ch r2 ie.2.1 = false :=
            Bool.not_eq_true _ ▸ (by simpa using hc2)
          have hgd : ∀ i, (ch.set r1 (some ie.1)).getD i none
              = if i = r1 then some ie.1 else ch.getD i none := by
            intro i
            rw [getD_set]
            by_cases hi1 : i = r1
            · rw [if_pos ⟨hi1, by omega⟩, if_pos hi1]
            · rw [if_neg (fun h => hi1 h.1), if_neg hi1]
          refine ih (P ++ [ie]) ⟨par2, d.rnk⟩ _ hsplit2 hwf2 hpt2
            (by rw [List.length_set]; exact hlen) ⟨?_, ?_⟩
          · intro i j hj
            rw [hgd i] at hj
            by_cases hi1 : i = r1
            · rw [if_pos hi1] at hj
              have hji : j = ie.1 := (Option.some_inj.mp hj).symm
              refine ⟨ie, List.mem_append_right _ (List.mem_singleton.mpr rfl),
                hji.symm, ?_, ?_⟩
              · rw [hi1]
                exact hcr1
              · rw [hi1]
                exact chmin_update a par0 edges hsplit hinv hc1
            · rw [if_neg hi1] at hj
              by_cases hi2 : i = r2
              · subst hi2
                exact chmin_keep a par0 edges hsplit hinv hc2f hj
              · obtain ⟨je, hjeP, hjej, hjecr, hjemin⟩ := hinv.1 i j hj
                refine ⟨je, List.mem_append_left _ hjeP, hjej, hjecr, ?_⟩
                intro ke hke hkcr
                rcases List.mem_append.mp hke with hke | hke
                · exact hjemin ke hke hkcr
                · have hki : ke = ie := List.mem_singleton.mp hke
                  rw [hki] at hkcr
                  exact absurd hkcr (hcrO i hi1 hi2)
          · intro i hi je hje hcr3
            rw [hgd i] at hi
            by_cases hi1 : i = r1
            · rw [if_pos hi1] at hi
              exact Option.noConfusion hi
            · rw [if_neg hi1] at hi
              by_cases hi2 : i = r2
              · subst hi2
                exact absurd (cheaperAt_none_true edges ie.2.1 hi)
                  (by rw [hc2f]; exact Bool.false_ne_true)
              · rcases List.mem_append.mp hje with hje | hje
                · exact hinv.2 i hi je hje hcr3
                · have hki : je = ie := List.mem_singleton.mp hje
                  rw [hki] at hcr3
                  exact absurd hcr3 (hcrO i hi1 hi2)
      · rw [if_neg hc1]
        have hc1f : cheaperAt edges ch r1 ie.2.1 = false := by
          simpa using hc1
        by_cases hc2 : cheaperAt edges ch r2 ie.2.1 = true
        · rw [if_pos hc2]
          have hgd : ∀ i, (ch.set r2 (some ie.1)).getD i none
              = if i = r2 then some ie.1 else ch.getD i none := by
            intro i
            rw [getD_set]
            by_cases hi2 : i = r2
            · rw [if_pos ⟨hi2, by omega⟩, if_pos hi2]
            · rw [if_neg (fun h => hi2 h.1), if_neg hi2]
          refine ih (P ++ [ie]) ⟨par2, d.rnk⟩ _ hsplit2 hwf2 hpt2
            (by rw [List.length_set]; exact hlen) ⟨?_, ?_⟩
          · intro i j hj
            rw [hgd i] at hj
            by_cases hi2 : i = r2
            · rw [if_pos hi2] at hj
              have hji : j = ie.1 := (Option.some_inj.mp hj).symm
              refine ⟨ie, List.mem_append_right _ (List.mem_singleton.mpr rfl),
                hji.symm, ?_, ?_⟩
              · rw [hi2]
                exact hcr2
              · rw [hi2]
                exact chmin_update a par0 edges hsplit hinv hc2
            · rw [if_neg hi2] at hj
              by_cases hi1 : i = r1
              · subst hi1
                exact chmin_keep a par0 edges hsplit hinv hc1f hj
              · obtain ⟨je, hjeP, hjej, hjecr, hjemin⟩ := hinv.1 i j hj
                refine ⟨je, List.mem_append_left _ hjeP, hjej, hjecr, ?_⟩
                intro ke hke hkcr
                rcases List.mem_append.mp hke with hke | hke
                · exact hjemin ke hke hkcr
                · have hki : ke = ie := List.mem_singleton.mp hke
                  rw [hki] at hkcr
                  exact absurd hkcr (hcrO i hi1 hi2)
          · intro i hi je hje hcr3
            rw [hgd i] at hi
            by_cases hi2 : i = r2
            · rw [if_pos hi2] at hi
              exact Option.noConfusion hi
            · rw [if_neg hi2] at hi
              by_cases hi1 : i = r1
              · subst hi1
                exact absurd (cheaperAt_none_true edges ie.2.1 hi)
                  (by rw [hc1f]; exact Bool.false_ne_true)
              · rcases List.mem_append.mp hje with hje | hje
                · exact hinv.2 i hi je hje hcr3
                · have hki : je = ie := List.mem_singleton.mp hje
                  rw [hki] at hcr3
                  exact absurd hcr3 (hcrO i hi1 hi2)
        · rw [if_neg hc2]
          have hc2f : cheaperAt edges ch r2 ie.2.1 = false := by
            simpa using hc2
          refine ih (P ++ [ie]) ⟨par2, d.rnk⟩ ch hsplit2 hwf2 hpt2 hlen ⟨?_, ?_⟩
          · intro i j hj
            by_cases hi1 : i = r1
            · subst hi1
              exact chmin_keep a par0 edges hsplit hinv hc1f hj
            · by_cases hi2 : i = r2
              · subst hi2
                exact chmin_keep a par0 edges hsplit hinv hc2f hj
              · obtain ⟨je, hjeP, hjej, hjecr, hjemin⟩ := hinv.1 i j hj
                refine ⟨je, List.mem_append_left _ hjeP, hjej, hjecr, ?_⟩
                intro ke hke hkcr
                rcases List.mem_append.mp hke with hke | hke
                · exact hjemin ke hke hkcr
                · have hki : ke = ie := List.mem_singleton.mp hke
                  rw [hki] at hkcr
                  exact absurd hkcr (hcrO i hi1 hi2)
          · intro i hi je hje hcr3
            by_cases hi1 : i = r1
            · subst hi1
              exact absurd (cheaperAt_none_true edges ie.2.1 hi)
                (by rw [hc1f]; exact Bool.false_ne_true)
            · by_cases hi2 : i = r2
              · subst hi2
                exact absurd (cheaperAt_none_true edges ie.2.1 hi)
                  (by rw [hc2f]; exact Bool.false_ne_true)
              · rcases List.mem_append.mp hje with hje | hje
                · exact hinv.2 i hi je hje hcr3
                · have hki : je = ie := List.mem_singleton.mp hje
                  rw [hki] at hcr3
                  exact absurd hcr3 (hcrO i hi1 hi2)

theorem boruvkaCommit_master (a : Adj) (n : Nat) (hn : 0 < n)
    (hna : n = a.length)
    (edges : List (Int × Nat × Nat))
    (hends : ∀ e ∈ edges, e.2.1 ∈ keys a ∧ e.2.2 ∈ keys a)
    (par0 : List Nat)
    (ch : List (Option Nat))
    (hch : ChInv a par0 edges.enum ch)
    (A0 : List (Nat × (Int × Nat × Nat))) :
    ∀ (L : List Nat) (d : DSU) (B : List (Nat × (Int × Nat × Nat)))
      (es : List (Nat × Nat)) (tot : Int) (nt : Nat) (anyU : Bool),
      DsuWf n d.parent →
      (∀ p q, p ∈ keys a → q ∈ keys a →
        (dsuRel d.parent (vIndex a p) (vIndex a q) ↔
          eConnP (fun ke => ke ∈ A0 ++ B) p q)) →
      (A0 ++ B).Nodup →
      (∀ ke ∈ B, TstarMem (fun ie => (ie.2.1, ie.1, 0, 0)) edges.enum ke) →
      (rootsBelow n d.parent).card = nt →
      (anyU = false →
        (B = [] ∧ (∀ x r, RootedAt par0 x r ↔ RootedAt d.parent x r))) →
      ∃ (d2 : DSU) (B2 : List (Nat × (Int × Nat × Nat))) (anyU2 : Bool),
        L.foldl (boruvkaCommitStep a n edges ch) (some (d, es, tot, nt, anyU))
          = some (d2, es ++ B2.map (fun ke => (ke.2.2.1, ke.2.2.2)),
              tot + (B2.map (fun ke => ke.2.1)).sum, nt - B2.length, anyU2) ∧
        DsuWf n d2.parent ∧
        (∀ p q, p ∈ keys a → q ∈ keys a →
          (dsuRel d2.parent (vIndex a p) (vIndex a q) ↔
            eConnP (fun ke => ke ∈ A0 ++ (B ++ B2)) p q)) ∧
        (A0 ++ (B ++ B2)).Nodup ∧
        (∀ ke ∈ B ++ B2,
          TstarMem (fun ie => (ie.2.1, ie.1, 0, 0)) edges.enum ke) ∧
        (rootsBelow n d2.parent).card = nt - B2.length ∧
        B2.length ≤ nt ∧
        (anyU = true → anyU2 = true) ∧
        (anyU2 = false →
          (B2 = [] ∧ (∀ x r, RootedAt par0 x r ↔ RootedAt d2.parent x r))) ∧
        (∀ i ∈ L, (ch.getD i none).isSome → anyU2 = true) ∧
        (anyU = false → anyU2 = true → B2 ≠ []) := by
  intro L
  induction L with
  | nil =>
    intro d B es tot nt anyU hwf hINV hnd hT hcard hfalse
    refine ⟨d, [], anyU, by simp, hwf,
      (by rw [List.append_nil]; exact hINV),
      (by rw [List.append_nil]; exact hnd),
      (by rw [List.append_nil]; exact hT),
      (by simpa using hcard),
      Nat.zero_le _,
      (fun h => h),
      (fun h => ⟨rfl, (hfalse h).2⟩),
      (by
        intro i hi
        exact absurd hi (List.not_mem_nil _)),
      (by
        intro h1 h2
        rw [h1] at h2
        exact Bool.noConfusion h2)⟩
  | cons i L ih =>
    intro d B es tot nt anyU hwf hINV hnd hT hcard hfalse
    rw [List.foldl_cons]
    cases hgi : ch.getD i none with
    | none =>
      have hstep : boruvkaCommitStep a n edges ch
          (some (d, es, tot, nt, anyU)) i = some (d, es, tot, nt, anyU) := by
        simp only [boruvkaCommitStep, hgi]
      rw [hstep]
      obtain ⟨d2, B2, anyU2, heq, hwfF, hINVF, hndF, hTF, hcardF, hlenF,
          hmono, hfalseF, hsomeF, hneF⟩ :=
        ih d B es tot nt anyU hwf hINV hnd hT hcard hfalse
      refine ⟨d2, B2, anyU2, heq, hwfF, hINVF, hndF, hTF, hcardF, hlenF,
        hmono, hfalseF, ?_, hneF⟩
      intro i2 hi2 hsome2
      rcases List.mem_cons.mp hi2 with hi2 | hi2
      · exfalso
        rw [hi2, hgi] at hsome2
        exact Bool.noConfusion hsome2
      · exact hsomeF i2 hi2 hsome2
    | some j =>
      obtain ⟨je, hje_enum, hjej, hjecr, hjemin⟩ := hch.1 i j hgi
      have hgd : edges.getD j (0, 0, 0) = je.2 := by
        rw [← hjej]
        exact enum_getD _ hje_enum
      have hje_edges : je.2 ∈ edges := List.snd_mem_of_mem_enumFrom hje_enum
      have hu : je.2.2.1 ∈ keys a := (hends _ hje_edges).1
      have hv : je.2.2.2 ∈ keys a := (hends _ hje_edges).2
      have hun : vIndex a je.2.2.1 < n := by
        rw [hna]
        exact vIndex_lt hu
      have hvn : vIndex a je.2.2.2 < n := by
        rw [hna]
        exact vIndex_lt hv
      obtain ⟨s1, par1, hf1, hr1, hwf1, heqv1, hroots1⟩ :=
        findSet_spec (vIndex a je.2.2.1) hwf hn
      obtain ⟨s2, par2, hf2, hr2, hwf2, heqv2, hroots2⟩ :=
        findSet_spec (vIndex a je.2.2.2) hwf1 hn
      have hr1p2 : RootedAt par2 (vIndex a je.2.2.1) s1 :=
        (heqv2 _ _).mp ((heqv1 _ _).mp hr1)
      have hr2p2 : RootedAt par2 (vIndex a je.2.2.2) s2 := (heqv2 _ _).mp hr2
      have hr2d : RootedAt d.parent (vIndex a je.2.2.2) s2 := (heqv1 _ _).mpr hr2
      have hs1_root : IsRootP par2 s1 := rootedAt_root hr1p2
      have hs2_root : IsRootP par2 s2 := rootedAt_root hr2p2
      have hs1_lt : s1 < n := root_lt hwf hun hr1
      have hs2_lt : s2 < n := root_lt hwf1 hvn hr2
      have hRel12 : ∀ x y, dsuRel d.parent x y ↔ dsuRel par2 x y := by
        intro x y
        rw [dsuRel_congr heqv1 x y, dsuRel_congr heqv2 x y]
      have hRoots12 : ∀ x, IsRootP d.parent x ↔ IsRootP par2 x := by
        intro x
        rw [hroots1 x, hroots2 x]
      have hRB12 : rootsBelow n d.parent = rootsBelow n par2 :=
        rootsBelow_congr hRoots12
      have heqv12 : ∀ x r, RootedAt d.parent x r ↔ RootedAt par2 x r :=
        fun x r => (heqv1 x r).trans (heqv2 x r)
      have hINV2 : ∀ p q, p ∈ keys a → q ∈ keys a →
          (dsuRel par2 (vIndex a p) (vIndex a q) ↔
            eConnP (fun ke => ke ∈ A0 ++ B) p q) := by
        intro p q hp hq
        rw [← hRel12, hINV p q hp hq]
      have hstep : boruvkaCommitStep a n edges ch
          (some (d, es, tot, nt, anyU)) i
          = (if s1 = s2 then some (⟨par2, d.rnk⟩, es, tot, nt, anyU)
             else match unionSets n ⟨par2, d.rnk⟩ s1 s2 with
               | none => none
               | some (b, d3) =>
                 if b then some (d3, es ++ [(je.2.2.1, je.2.2.2)],
                   tot + je.2.1, nt - 1, true)
                 else some (d3, es, tot, nt, anyU)) := by
        simp only [boruvkaCommitStep, hgi, hgd, hf1, hf2]
      by_cases hs : s1 = s2
      · rw [hstep, if_pos hs]
        obtain ⟨d2, B2, anyU2, heq, hwfF, hINVF, hndF, hTF, hcardF, hlenF,
            hmono, hfalseF, hsomeF, hneF⟩ :=
          ih ⟨par2, d.rnk⟩ B es tot nt anyU hwf2 hINV2 hnd hT
            (by rw [← hRB12]; exact hcard)
            (fun h => ⟨(hfalse h).1,
              fun x r => ((hfalse h).2 x r).trans (heqv12 x r)⟩)
        refine ⟨d2, B2, anyU2, heq, hwfF, hINVF, hndF, hTF, hcardF, hlenF,
          hmono, hfalseF, ?_, hneF⟩
        intro i2 hi2 hsome2
        rcases List.mem_cons.mp hi2 with hi2 | hi2
        · cases hanyU : anyU with
          | true => exact hmono hanyU
          | false =>
            exfalso
            obtain ⟨hB, hpt0⟩ := hfalse hanyU
            rcases hjecr with ⟨h1, h2⟩ | ⟨h1, h2⟩
            · have hs1i : s1 = i := rootedAt_unique hr1 ((hpt0 _ _).mp h1)
              refine h2 ((hpt0 _ _).mpr ?_)
              rw [← hs1i, hs]
              exact hr2d
            · have hs2i : s2 = i := rootedAt_unique hr2d ((hpt0 _ _).mp h1)
              refine h2 ((hpt0 _ _).mpr ?_)
              rw [← hs2i, ← hs]
              exact hr1
        · exact hsomeF i2 hi2 hsome2
      · rw [hstep, if_neg hs]
        obtain ⟨hfalseU, htrueU⟩ :=
          unionSets_at_roots (d := ⟨par2, d.rnk⟩) hwf2 hs1_root hs2_root
            hs1_lt hs2_lt
        obtain ⟨d3, x0, y0, huni, hpar3, hxy⟩ := htrueU hs
        rw [huni]
        dsimp only
        rw [if_pos rfl]
        have key : DsuWf n d3.parent ∧
            ((rootsBelow n d3.parent).card + 1 = (rootsBelow n par2).card) ∧
            (∀ x y, dsuRel d3.parent x y ↔ (dsuRel par2 x y ∨
              (dsuRel par2 x s1 ∧ dsuRel par2 y s2) ∨
              (dsuRel par2 x s2 ∧ dsuRel par2 y s1))) := by
          rcases hxy with ⟨hx0, hy0⟩ | ⟨hx0, hy0⟩
          · have hp3 : d3.parent = par2.set s2 s1 := by
              rw [hx0] at hpar3
              rw [hy0] at hpar3
              exact hpar3
            refine ⟨?_, ?_, ?_⟩
            · rw [hp3]
              exact (set_union_spec hwf2 hs1_root hs2_root hs hs1_lt hs2_lt).1
            · rw [hp3]
              exact rootsBelow_union hwf2 hs1_root hs2_root hs hs1_lt hs2_lt
            · intro x y
              rw [hp3, union_dsuRel hwf2 hs1_root hs2_root hs hs1_lt hs2_lt x y]
          · have hp3 : d3.parent = par2.set s1 s2 := by
              rw [hx0] at hpar3
              rw [hy0] at hpar3
              exact hpar3
            have hs21 : s2 ≠ s1 := fun h => hs h.symm
            refine ⟨?_, ?_, ?_⟩
            · rw [hp3]
              exact (set_union_spec hwf2 hs2_root hs1_root hs21 hs2_lt hs1_lt).1
            · rw [hp3]
              exact rootsBelow_union hwf2 hs2_root hs1_root hs21 hs2_lt hs1_lt
            · intro x y
              rw [hp3, union_dsuRel hwf2 hs2_root hs1_root hs21 hs2_lt hs1_lt x y]
              constructor
              · rintro (h | h | h)
                · exact Or.inl h
                · exact Or.inr (Or.inr h)
                · exact Or.inr (Or.inl h)
              · rintro (h | h | h)
                · exact Or.inl h
                · exact Or.inr (Or.inr h)
                · exact Or.inr (Or.inl h)
        obtain ⟨hwf3, hcount3, hchar3⟩ := key
        have hINV3 : ∀ p q, p ∈ keys a → q ∈ keys a →
            (dsuRel d3.parent (vIndex a p) (vIndex a q) ↔
              eConnP (fun ke => ke ∈ A0 ++ B ∨ ke = je) p q) := by
          intro p q hp hq
          rw [hchar3]
          have m1 : dsuRel par2 (vIndex a p) s1 ↔
              eConnP (fun ke => ke ∈ A0 ++ B) p je.2.2.1 := by
            rw [dsuRel_root_iff hr1p2, ← hRel12, hINV p je.2.2.1 hp hu]
          have m2 : dsuRel par2 (vIndex a q) s2 ↔
              eConnP (fun ke => ke ∈ A0 ++ B) q je.2.2.2 := by
            rw [dsuRel_root_iff hr2p2, ← hRel12, hINV q je.2.2.2 hq hv]
          have m3 : dsuRel par2 (vIndex a p) s2 ↔
              eConnP (fun ke => ke ∈ A0 ++ B) p je.2.2.2 := by
            rw [dsuRel_root_iff hr2p2, ← hRel12, hINV p je.2.2.2 hp hv]
          have m4 : dsuRel par2 (vIndex a q) s1 ↔
              eConnP (fun ke => ke ∈ A0 ++ B) q je.2.2.1 := by
            rw [dsuRel_root_iff hr1p2, ← hRel12, hINV q je.2.2.1 hq hu]
          rw [← hRel12, hINV p q hp hq, m1, m2, m3, m4,
            @eConnP_add _ je p q]
          constructor
          · rintro (h | ⟨h1, h2⟩ | ⟨h1, h2⟩)
            · exact Or.inl h
            · exact Or.inr (Or.inl ⟨h1, Relation.EqvGen.symm _ _ h2⟩)
            · exact Or.inr (Or.inr ⟨h1, Relation.EqvGen.symm _ _ h2⟩)
          · rintro (h | ⟨h1, h2⟩ | ⟨h1, h2⟩)
            · exact Or.inl h
            · exact Or.inr (Or.inl ⟨h1, Relation.EqvGen.symm _ _ h2⟩)
            · exact Or.inr (Or.inr ⟨h1, Relation.EqvGen.symm _ _ h2⟩)
        have hINV4 : ∀ p q, p ∈ keys a → q ∈ keys a →
            (dsuRel d3.parent (vIndex a p) (vIndex a q) ↔
              eConnP (fun ke => ke ∈ A0 ++ (B ++ [je])) p q) := by
          intro p q hp hq
          rw [hINV3 p q hp hq]
          refine eConnP_congr ?_ p q
          intro ke
          constructor
          · rintro (h | h)
            · rw [← List.append_assoc]
              exact List.mem_append_left _ h
            · rw [← List.append_assoc]
              exact List.mem_append_right _ (List.mem_singleton.mpr h)
          · intro h
            rw [← List.append_assoc] at h
            rcases List.mem_append.mp h with h | h
            · exact Or.inl h
            · exact Or.inr (List.mem_singleton.mp h)
        have hnotin : je ∉ A0 ++ B := by
          intro hmem
          have hconn : eConnP (fun ke => ke ∈ A0 ++ B) je.2.2.1 je.2.2.2 :=
            Relation.EqvGen.rel _ _ ⟨je, hmem, Or.inl ⟨rfl, rfl⟩⟩
          have hd2 : dsuRel d.parent (vIndex a je.2.2.1) (vIndex a je.2.2.2) :=
            (hINV _ _ hu hv).mpr hconn
          obtain ⟨r, hxr, hyr⟩ := hd2
          exact hs ((rootedAt_unique hr1 hxr).trans
            (rootedAt_unique hr2d hyr).symm)
        have hnd4 : (A0 ++ (B ++ [je])).Nodup := by
          rw [← List.append_assoc]
          refine List.nodup_append.mpr ⟨hnd, List.nodup_singleton _, ?_⟩
          intro x hx1 hx2
          exact hnotin ((List.mem_singleton.mp hx2) ▸ hx1)
        have hT4 : ∀ ke ∈ B ++ [je],
            TstarMem (fun ie => (ie.2.1, ie.1, 0, 0)) edges.enum ke := by
          intro ke hke
          rcases List.mem_append.mp hke with hke | hke
          · exact hT ke hke
          · rw [List.mem_singleton.mp hke]
            refine cut_tstar _ _ (fun t => RootedAt par0 (vIndex a t) i)
              hje_enum hjecr ?_
            intro ke2 hke2 hcr2
            exact hjemin ke2 hke2 hcr2
        have hcardpar2 : (rootsBelow n par2).card = nt := by
          rw [← hRB12]
          exact hcard
        have hcard3 : (rootsBelow n d3.parent).card = nt - 1 := by
          omega
        have hnt2 : 2 ≤ nt := by
          have hm1 : s1 ∈ rootsBelow n par2 := by
            simp only [rootsBelow, Finset.mem_filter, Finset.mem_range]
            exact ⟨hs1_lt, hs1_root⟩
          have hm2 : s2 ∈ rootsBelow n par2 := by
            simp only [rootsBelow, Finset.mem_filter, Finset.mem_range]
            exact ⟨hs2_lt, hs2_root⟩
          have h2 := Finset.one_lt_card.mpr ⟨s1, hm1, s2, hm2, hs⟩
          omega
        obtain ⟨d2, B2, anyU2, heq, hwfF, hINVF, hndF, hTF, hcardF, hlenF,
            hmono, hfalseF, hsomeF, hneF⟩ :=
          ih d3 (B ++ [je]) (es ++ [(je.2.2.1, je.2.2.2)]) (tot + je.2.1)
            (nt - 1) true hwf3 hINV4 hnd4 hT4 hcard3
            (fun h => Bool.noConfusion h)
        have hBeq : (B ++ [je]) ++ B2 = B ++ je :: B2 := by
          simp
        rw [hBeq] at hINVF hndF hTF
        have hlist : es ++ (je :: B2).map (fun ke => (ke.2.2.1, ke.2.2.2))
            = (es ++ [(je.2.2.1, je.2.2.2)])
              ++ B2.map (fun ke => (ke.2.2.1, ke.2.2.2)) := by
          simp
        have htot : tot + ((je :: B2).map (fun ke => ke.2.1)).sum
            = (tot + je.2.1) + (B2.map (fun ke => ke.2.1)).sum := by
          rw [List.map_cons, List.sum_cons, Int.add_assoc]
        have hntlen : nt - (je :: B2).length = (nt - 1) - B2.length := by
          simp only [List.length_cons]
          omega
        refine ⟨d2, je :: B2, anyU2, ?_, hwfF, hINVF, hndF, hTF, ?_, ?_,
          (fun _ => hmono rfl), ?_, ?_, (fun _ _ => List.cons_ne_nil _ _)⟩
        · rw [hlist, htot, hntlen]
          exact heq
        · rw [hntlen]
          exact hcardF
        · simp only [List.length_cons]
          omega
        · intro h
          exact absurd (hmono rfl) (by rw [h]; exact Bool.false_ne_true)
        · intro i2 hi2 hsome2
          rcases List.mem_cons.mp hi2 with hi2 | hi2
          · exact hmono rfl
          · exact hsomeF i2 hi2 hsome2

theorem rootsBelow_pos {n : Nat} {par : List Nat} (hwf : DsuWf n par)
    (hn : 0 < n) : 0 < (rootsBelow n par).card := by
  obtain ⟨r, hr⟩ := exists_root hwf 0
  refine Finset.card_pos.mpr ⟨r, ?_⟩
  simp only [rootsBelow, Finset.mem_filter, Finset.mem_range]
  exact ⟨root_lt hwf hn hr, rootedAt_root hr⟩

theorem boruvkaLoop_succ (a : Adj) (n : Nat) (edges : List (Int × Nat × Nat))
    (fuel : Nat) (d : DSU) (es : List (Nat × Nat)) (tot : Int) (nt : Nat) :
    boruvkaLoop a n edges (fuel + 1) d es tot nt
      = if nt > 1 then
          match boruvkaScan a n edges d (List.replicate n none) with
          | none => none
          | some (dsu1, ch) =>
            match boruvkaCommit a n edges ch dsu1 es tot nt false with
            | none => none
            | some (dsu2, es2, tot2, nt2, anyU) =>
              if anyU then boruvkaLoop a n edges fuel dsu2 es2 tot2 nt2
              else some (es2, tot2)
        else some (es, tot) := rfl

theorem boruvkaLoop_master (a : Adj) (hs : SortedA a) (hc : ClosedA a)
    (hn : 0 < a.length)
    (hconn : ∀ x y, x ∈ keys a → y ∈ keys a → ConnV a x y) :
    ∀ (fuel : Nat) (d : DSU) (A : List (Nat × (Int × Nat × Nat)))
      (es : List (Nat × Nat)) (tot : Int) (nt : Nat),
      nt ≤ fuel →
      DsuWf a.length d.parent →
      (∀ p q, p ∈ keys a → q ∈ keys a →
        (dsuRel d.parent (vIndex a p) (vIndex a q) ↔
          eConnP (fun ke => ke ∈ A) p q)) →
      A.Nodup →
      (∀ ke ∈ A, TstarMem (fun ie => (ie.2.1, ie.1, 0, 0))
        (collectEdges a).enum ke) →
      (rootsBelow a.length d.parent).card = nt →
      A.length + nt = a.length →
      ∃ B : List (Nat × (Int × Nat × Nat)),
        boruvkaLoop a a.length (collectEdges a) fuel d es tot nt
          = some (es ++ B.map (fun ke => (ke.2.2.1, ke.2.2.2)),
              tot + (B.map (fun ke => ke.2.1)).sum) ∧
        (A ++ B).Nodup ∧
        (∀ ke ∈ A ++ B, TstarMem (fun ie => (ie.2.1, ie.1, 0, 0))
          (collectEdges a).enum ke) ∧
        (A ++ B).length + 1 = a.length ∧
        (∀ p q, p ∈ keys a → q ∈ keys a →
          eConnP (fun ke => ke ∈ A ++ B) p q) := by
  have hends : ∀ e ∈ collectEdges a, e.2.1 ∈ keys a ∧ e.2.2 ∈ keys a := by
    intro e he
    have hp := collectEdges_pred hs e he
    exact ⟨adjOf_mem_keys hp.1, adjOf_closed hc hp.1⟩
  intro fuel
  induction fuel with
  | zero =>
    intro d A es tot nt hfuel hwf hINV hnd hT hcard hlen
    exfalso
    have := rootsBelow_pos hwf hn
    omega
  | succ fuel ih =>
    intro d A es tot nt hfuel hwf hINV hnd hT hcard hlen
    rw [boruvkaLoop_succ]
    by_cases hnt : nt > 1
    · rw [if_pos hnt]
      obtain ⟨d1, ch2, hscan_eq, hwf1, hpt1, hlen1, hchinv⟩ :=
        boruvkaScan_master a a.length hn rfl (collectEdges a) hends d.parent
          (collectEdges a).enum [] d (List.replicate a.length none)
          (List.nil_append _).symm hwf (fun x r => Iff.rfl)
          (List.length_replicate _ _)
          ⟨by
            intro i j hj
            rw [getD_replicate_none] at hj
            exact Option.noConfusion hj,
           by
            intro i hi je hje
            exact absurd hje (List.not_mem_nil _)⟩
      have hscan : boruvkaScan a a.length (collectEdges a) d
          (List.replicate a.length none) = some (d1, ch2) := by
        unfold boruvkaScan
        exact hscan_eq
      rw [hscan]
      dsimp only
      have hroots_iff : ∀ x, IsRootP d.parent x ↔ IsRootP d1.parent x := by
        intro x
        constructor
        · intro h
          exact rootedAt_root ((hpt1 x x).mp (rootedAt_self h))
        · intro h
          exact rootedAt_root ((hpt1 x x).mpr (rootedAt_self h))
      obtain ⟨d2, B2, anyU2, hcommit_eq, hwf2, hINV2, hnd2, hT2, hcard2,
          hlen2, hmono2, hfalse2, hsome2, hne2⟩ :=
        boruvkaCommit_master a a.length hn rfl (collectEdges a) hends
          d.parent ch2 hchinv A (List.range a.length) d1 [] es tot nt false
          hwf1
          (by
            intro p q hp hq
            rw [← dsuRel_congr hpt1 (vIndex a p) (vIndex a q),
              hINV p q hp hq]
            refine eConnP_congr ?_ p q
            intro ke
            rw [List.append_nil])
          (by rw [List.append_nil]; exact hnd)
          (by
            intro ke hke
            exact absurd hke (List.not_mem_nil _))
          (by
            rw [← rootsBelow_congr hroots_iff]
            exact hcard)
          (fun _ => ⟨rfl, hpt1⟩)
      have hcommit : boruvkaCommit a a.length (collectEdges a) ch2 d1
          es tot nt false
          = some (d2, es ++ B2.map (fun ke => (ke.2.2.1, ke.2.2.2)),
              tot + (B2.map (fun ke => ke.2.1)).sum, nt - B2.length, anyU2) := by
        unfold boruvkaCommit
        exact hcommit_eq
      rw [hcommit]
      dsimp only
      rw [List.nil_append] at hINV2 hnd2 hT2
      cases hanyU2 : anyU2 with
      | false =>
        exfalso
        obtain ⟨r1, hm1, r2, hm2, hne⟩ := Finset.one_lt_card.mp (by omega :
          1 < (rootsBelow a.length d.parent).card)
        have hr1d : r1 < a.length ∧ IsRootP d.parent r1 := by
          simpa [rootsBelow] using hm1
        have hr2d : r2 < a.length ∧ IsRootP d.parent r2 := by
          simpa [rootsBelow] using hm2
        have hkl : (keys a).length = a.length := List.length_map _ _
        have hx1 : keyAt a r1 ∈ keys a := keyAt_mem hr1d.1
        have hx2 : keyAt a r2 ∈ keys a := keyAt_mem hr2d.1
        have hv1 : vIndex a (keyAt a r1) = r1 :=
          vIndex_keyAt (sortedA_nodup hs) (by omega)
        have hv2 : vIndex a (keyAt a r2) = r2 :=
          vIndex_keyAt (sortedA_nodup hs) (by omega)
        have hU1 : RootedAt d.parent (vIndex a (keyAt a r1)) r1 := by
          rw [hv1]
          exact rootedAt_self hr1d.2
        have hU2 : ¬ RootedAt d.parent (vIndex a (keyAt a r2)) r1 := by
          rw [hv2]
          intro h
          exact hne (rootedAt_unique (rootedAt_self hr2d.2) h).symm
        have hcv : Relation.EqvGen
            (fun u v => ∃ w : Int, (v, w) ∈ adjOf a u)
            (keyAt a r1) (keyAt a r2) := hconn _ _ hx1 hx2
        obtain ⟨u2, v2, ⟨w2, hadj⟩, hside⟩ :=
          @eqvGen_crossing _
            (fun t => RootedAt d.parent (vIndex a t) r1) _ _ hcv hU1 hU2
        have huv2 : u2 ≠ v2 := by
          intro h
          rw [h] at hside
          rcases hside with ⟨h1, h2⟩ | ⟨h1, h2⟩ <;> exact h2 h1
        obtain ⟨w3, hor⟩ := collectEdges_covers huv2 hadj
        have hcross : ∀ t ∈ collectEdges a,
            (t.2.1 = u2 ∧ t.2.2 = v2) ∨ (t.2.1 = v2 ∧ t.2.2 = u2) →
            ∃ ie ∈ (collectEdges a).enum, CrossAt a d.parent r1 ie := by
          intro t ht hto
          obtain ⟨ie, hie, hsnd⟩ := mem_iff_enum_snd.mp ht
          refine ⟨ie, hie, ?_⟩
          have he1 : ie.2.2.1 = t.2.1 := by rw [hsnd]
          have he2 : ie.2.2.2 = t.2.2 := by rw [hsnd]
          rcases hto with ⟨ht1, ht2⟩ | ⟨ht1, ht2⟩ <;>
            rcases hside with ⟨hU, hnU⟩ | ⟨hU, hnU⟩
          · exact Or.inl ⟨by rw [he1, ht1]; exact hU,
              by rw [he2, ht2]; exact hnU⟩
          · exact Or.inr ⟨by rw [he2, ht2]; exact hU,
              by rw [he1, ht1]; exact hnU⟩
          · exact Or.inr ⟨by rw [he2, ht2]; exact hU,
              by rw [he1, ht1]; exact hnU⟩
          · exact Or.inl ⟨by rw [he1, ht1]; exact hU,
              by rw [he2, ht2]; exact hnU⟩
        have hcrex : ∃ ie ∈ (collectEdges a).enum,
            CrossAt a d.parent r1 ie := by
          rcases hor with hcv2 | hcv2
          · exact hcross _ hcv2 (Or.inl ⟨rfl, rfl⟩)
          · exact hcross _ hcv2 (Or.inr ⟨rfl, rfl⟩)
        obtain ⟨ie, hie, hiecr⟩ := hcrex
        cases hslot : ch2.getD r1 none with
        | none => exact hchinv.2 r1 hslot ie hie hiecr
        | some j =>
          have hsome : (ch2.getD r1 none).isSome := by
            rw [hslot]
            rfl
          have := hsome2 r1 (List.mem_range.mpr hr1d.1) hsome
          rw [hanyU2] at this
          exact Bool.noConfusion this
      | true =>
        rw [if_pos rfl]
        have hB2ne : B2 ≠ [] := hne2 rfl hanyU2
        have hB2len : 0 < B2.length := List.length_pos.mpr hB2ne
        obtain ⟨B3, hloop_eq, hnd3, hT3, hlen3, hconn3⟩ :=
          ih d2 (A ++ B2) (es ++ B2.map (fun ke => (ke.2.2.1, ke.2.2.2)))
            (tot + (B2.map (fun ke => ke.2.1)).sum) (nt - B2.length)
            (by omega) hwf2 hINV2 hnd2
            (by
              intro ke hke
              rcases List.mem_append.mp hke with hke | hke
              · exact hT ke hke
              · exact hT2 ke hke)
            hcard2
            (by
              rw [List.length_append]
              omega)
        refine ⟨B2 ++ B3, ?_, ?_, ?_, ?_, ?_⟩
        · rw [hloop_eq]
          rw [List.map_append, List.map_append, ← List.append_assoc,
            List.sum_append, Int.add_assoc]
        · rw [← List.append_assoc]
          exact hnd3
        · intro ke hke
          refine hT3 ke ?_
          rw [List.append_assoc]
          exact hke
        · rw [← List.append_assoc]
          exact hlen3
        · intro p q hp hq
          have h3 := hconn3 p q hp hq
          refine eConnP_congr ?_ p q |>.mp h3
          intro ke
          rw [List.append_assoc]
    · rw [if_neg hnt]
      have hcardpos := rootsBelow_pos hwf hn
      have hnt1 : nt = 1 := by omega
      refine ⟨[], by simp, ?_, ?_, ?_, ?_⟩
      · rw [List.append_nil]
        exact hnd
      · rw [List.append_nil]
        exact hT
      · rw [List.append_nil]
        omega
      · intro p q hp hq
        have hp_lt : vIndex a p < a.length := vIndex_lt hp
        have hq_lt : vIndex a q < a.length := vIndex_lt hq
        have hd2 : dsuRel d.parent (vIndex a p) (vIndex a q) :=
          dsuRel_of_roots_one hwf (by omega) hp_lt hq_lt
        have h3 := (hINV p q hp hq).mp hd2
        refine eConnP_congr ?_ p q |>.mp h3
        intro ke
        rw [List.append_nil]

theorem boruvka_ok (g : Graph) (hw : g.Wf) (hne : g.adjList ≠ [])
    (hdir : g.directed = false)
    (hconn : ∀ x y, x ∈ keys g.adjList → y ∈ keys g.adjList →
      ConnV g.adjList x y) :
    ∃ A : List (Int × Nat × Nat),
      g.mst_boruvka = some (A.map (fun e => (e.2.1, e.2.2)),
        (A.map (fun e => e.1)).sum) ∧
      (∀ p ∈ (A.map (fun e => (e.2.1, e.2.2))).zip (A.map (fun e => e.1)),
        (p.1.2, p.2) ∈ adjOf g.adjList p.1.1 ∧ p.1.1 ≠ p.1.2) ∧
      (∀ x y, x ∈ keys g.adjList → y ∈ keys g.adjList →
        pairConn (A.map (fun e => (e.2.1, e.2.2))) x y) ∧
      A.length + 1 = g.adjList.length ∧
      (∀ c : Int, ((A.map (fun e => e.1)).filter
          (fun x => decide (x ≤ c))).length + lightClasses g.adjList c
        = g.adjList.length) := by
  obtain ⟨hs, hcl⟩ := hw
  have hn : 0 < g.adjList.length := List.length_pos.mpr hne
  have hinit : ∀ p q, p ∈ keys g.adjList → q ∈ keys g.adjList →
      (dsuRel (DSU.init g.adjList.length).parent
        (vIndex g.adjList p) (vIndex g.adjList q) ↔
        eConnP (fun ke => ke ∈ ([] : List (Nat × (Int × Nat × Nat)))) p q) := by
    intro p q hp hq
    constructor
    · intro hd
      have hij : vIndex g.adjList p = vIndex g.adjList q := dsuRel_init.mp hd
      have hpq : p = q := by
        have h1 := keyAt_vIndex hp
        have h2 := keyAt_vIndex hq
        rw [← h1, ← h2, hij]
      rw [hpq]
      exact Relation.EqvGen.refl q
    · intro hc2
      have hpq : p = q :=
        eConnP_empty (fun ie h => absurd h (List.not_mem_nil _)) hc2
      rw [hpq]
      exact dsuRel_refl (dsuWf_init g.adjList.length) _
  obtain ⟨B, hloop, hndB, hTB, hlenB, hconnB⟩ :=
    boruvkaLoop_master g.adjList hs hcl hn hconn (g.adjList.length + 1)
      (DSU.init g.adjList.length) [] [] 0 g.adjList.length
      (by omega) (dsuWf_init _) hinit List.nodup_nil
      (fun ke hke => absurd hke (List.not_mem_nil _))
      (by
        show (rootsBelow _ (List.range _)).card = _
        rw [rootsBelow_init, Finset.card_range])
      (by simp)
  rw [List.nil_append] at hndB hTB hlenB
  have hconnB2 : ∀ p q, p ∈ keys g.adjList → q ∈ keys g.adjList →
      eConnP (fun ke => ke ∈ B) p q := by
    intro p q hp hq
    have h3 := hconnB p q hp hq
    refine eConnP_congr ?_ p q |>.mp h3
    intro ke
    rw [List.nil_append]
  have hrun : g.mst_boruvka
      = boruvkaLoop g.adjList g.adjList.length (collectEdges g.adjList)
          (g.adjList.length + 1) (DSU.init g.adjList.length) [] 0
          g.adjList.length := by
    unfold Graph.mst_boruvka
    rw [hdir]
    rw [if_neg Bool.false_ne_true, if_neg (by omega)]
  rw [List.nil_append, Int.zero_add] at hloop
  have hmap1 : (B.map Prod.snd).map (fun e => (e.2.1, e.2.2))
      = B.map (fun ke => (ke.2.2.1, ke.2.2.2)) := by
    rw [List.map_map]
    rfl
  have hmap2 : (B.map Prod.snd).map (fun e => e.1)
      = B.map (fun ke => ke.2.1) := by
    rw [List.map_map]
    rfl
  have hBsnd : ∀ ke ∈ B, ke.2 ∈ collectEdges g.adjList := by
    intro ke hke
    exact List.snd_mem_of_mem_enumFrom (hTB ke hke).1
  refine ⟨B.map Prod.snd, ?_, ?_, ?_, ?_, ?_⟩
  · rw [hrun, hloop, hmap1, hmap2]
  · intro p hp
    rw [hmap1, hmap2, List.zip_map'] at hp
    obtain ⟨ke, hke, hpe⟩ := List.mem_map.mp hp
    have hpred := collectEdges_pred hs ke.2 (hBsnd ke hke)
    rw [← hpe]
    exact hpred
  · intro x y hx hy
    rw [hmap1]
    have h3 := hconnB2 x y hx hy
    refine eqvGen_mono_closure ?_ x y h3
    rintro i j ⟨ke, hke, ho⟩
    have hpair : (ke.2.2.1, ke.2.2.2)
        ∈ B.map (fun ke => (ke.2.2.1, ke.2.2.2)) :=
      List.mem_map.mpr ⟨ke, hke, rfl⟩
    rcases ho with ⟨h1e, h2e⟩ | ⟨h1e, h2e⟩
    · exact Relation.EqvGen.rel i j (Or.inl (h1e ▸ h2e ▸ hpair))
    · exact Relation.EqvGen.rel i j (Or.inr (h1e ▸ h2e ▸ hpair))
  · rw [List.length_map]
    exact hlenB
  · -- per-threshold counting against the canonical run for the
    -- (weight, scan index) key
    have hL0ends : ∀ ie ∈ (collectEdges g.adjList).enum,
        ie.2.2.1 ∈ keys g.adjList ∧ ie.2.2.2 ∈ keys g.adjList := by
      intro ie hie
      have hmemL : ie.2 ∈ collectEdges g.adjList :=
        List.snd_mem_of_mem_enumFrom hie
      have hp := collectEdges_pred hs ie.2 hmemL
      exact ⟨adjOf_mem_keys hp.1, adjOf_closed hcl hp.1⟩
    have hinj : ∀ x ∈ (collectEdges g.adjList).enum,
        ∀ y ∈ (collectEdges g.adjList).enum,
        (fun ie : Nat × (Int × Nat × Nat) => (ie.2.1, ie.1, 0, 0)) x
          = (fun ie : Nat × (Int × Nat × Nat) => (ie.2.1, ie.1, 0, 0)) y →
        x = y := by
      intro x hx y hy hk
      refine pairwise_fst_lt_inj (enumFrom_pairwise_fst_lt 0 _) x hx y hy ?_
      exact congrArg (fun t : Int × Nat × Nat × Nat => t.2.1) hk
    have hmemLE : ∀ je, je ∈ sortByKey
        (fun ie => (ie.2.1, ie.1, 0, 0)) (collectEdges g.adjList).enum ↔
        je ∈ (collectEdges g.adjList).enum := by
      intro je
      exact (sortByKey_perm _ _).mem_iff
    have hsorted := sortByKey_sorted_strict
      (fun ie : Nat × (Int × Nat × Nat) => (ie.2.1, ie.1, 0, 0))
      hinj (enum_nodup _)
    have hcov : ∀ t ∈ collectEdges g.adjList,
        ∃ ie ∈ (collectEdges g.adjList).enum, ie.2 = t := by
      intro t ht
      exact mem_iff_enum_snd.mp ht
    obtain ⟨Acan, d2, hceq, hwf2, hsubl, hmemA, hcount, hfin⟩ :=
      greedy_canonical g.adjList hn
        (fun ie => (ie.2.1, ie.1, 0, 0))
        ((collectEdges g.adjList).enum)
        (sortByKey (fun ie => (ie.2.1, ie.1, 0, 0))
          (collectEdges g.adjList).enum)
        hL0ends hmemLE hsorted
    have hndLE : (sortByKey (fun ie : Nat × (Int × Nat × Nat) =>
        (ie.2.1, ie.1, 0, 0)) (collectEdges g.adjList).enum).Nodup :=
      (sortByKey_perm _ _).nodup_iff.mpr (enum_nodup _)
    have hndAcan : Acan.Nodup := hsubl.nodup hndLE
    have hcard1 : (rootsBelow g.adjList.length d2.parent).card = 1 := by
      have hcard := roots_card_eq_ncard_classes hs hwf2
        (fun x y => eConnP
          (fun je => je ∈ (collectEdges g.adjList).enum) x y)
        (fun x y h => Relation.EqvGen.symm _ _ h)
        (fun x y z h1 h2 => Relation.EqvGen.trans _ _ _ h1 h2)
        (fun x _ => Relation.EqvGen.refl x)
        hfin
      have hkne : keys g.adjList ≠ [] := by
        intro hk
        have h0 : (keys g.adjList).length = 0 := by
          rw [hk]
          rfl
        have h1 : (keys g.adjList).length = g.adjList.length :=
          List.length_map _ _
        omega
      have hone := ncard_classes_one
        (fun x y => eConnP
          (fun je => je ∈ (collectEdges g.adjList).enum) x y)
        hkne
        (fun x y hx hy => eConnP_mono (fun ie hT => hT.1)
          (connv_to_tstar hs (fun ie => (ie.2.1, ie.1, 0, 0))
            ((collectEdges g.adjList).enum) hcov x y (hconn x y hx hy)))
      rw [hcard]
      exact hone
    have hlenAcan : Acan.length + 1 = g.adjList.length := by omega
    have hmemB : ∀ x, x ∈ B ↔ x ∈ Acan := by
      have hsub : ∀ x ∈ B, x ∈ Acan := by
        intro x hx
        exact (hmemA x).mpr (hTB x hx)
      have hsubperm := List.Nodup.subperm hndB hsub
      have hperm := hsubperm.perm_of_length_le (by omega)
      intro x
      exact hperm.mem_iff
    intro c
    obtain ⟨Acanc, d2c, hsublc, hmemAc, hcountc, hwf2c, hfinc⟩ :=
      greedy_canonical_filtered g.adjList hn
        (fun ie => (ie.2.1, ie.1, 0, 0))
        ((collectEdges g.adjList).enum)
        (sortByKey (fun ie => (ie.2.1, ie.1, 0, 0))
          (collectEdges g.adjList).enum)
        hL0ends hmemLE hsorted (fun ie => rfl) c
    have hndAcanc : Acanc.Nodup := hsublc.nodup (List.Nodup.filter _ hndLE)
    have hmemiff : ∀ x,
        x ∈ B.filter (fun ke => decide (ke.2.1 ≤ c)) ↔ x ∈ Acanc := by
      intro x
      rw [List.mem_filter, hmemB x, hmemA x, hmemAc x]
      simp
    have hlenc : (B.filter (fun ke => decide (ke.2.1 ≤ c))).length
        = Acanc.length :=
      nodup_length_eq_of_mem_iff (List.Nodup.filter _ hndB) hndAcanc hmemiff
    have hcardc : (rootsBelow g.adjList.length d2c.parent).card
        = lightClasses g.adjList c := by
      have hcard := roots_card_eq_ncard_classes hs hwf2c
        (fun x y => eConnP
          (fun je => je ∈ (collectEdges g.adjList).enum ∧ je.2.1 ≤ c) x y)
        (fun x y h => Relation.EqvGen.symm _ _ h)
        (fun x y z h1 h2 => Relation.EqvGen.trans _ _ _ h1 h2)
        (fun x _ => Relation.EqvGen.refl x)
        hfinc
      rw [hcard]
      rfl
    rw [hmap2, length_filter_map, hlenc]
    omega

/-- C1: on a well-formed, nonempty, undirected graph whose adjacency is
mirror-symmetric and which is connected, `mst_prim`, `mst_kruskal` and
`mst_boruvka` all succeed, return the same total weight, and each
returns an edge list of exactly `V - 1` stored non-loop edges whose
weights sum to that total and which connects every pair of registered
vertices — a spanning tree of the graph. -/
theorem claim_C1 (g : Graph) (hw : g.Wf) (hne : g.adjList ≠ [])
    (hdir : g.directed = false)
    (hsym : ∀ u v w, (v, w) ∈ adjOf g.adjList u → (u, w) ∈ adjOf g.adjList v)
    (hconn : ∀ x y, x ∈ keys g.adjList → y ∈ keys g.adjList →
      ConnV g.adjList x y) :
    ∃ (esP esK esB : List (Nat × Nat)) (tot : Int),
      g.mst_prim = some (esP, tot) ∧
      g.mst_kruskal = some (esK, tot) ∧
      g.mst_boruvka = some (esB, tot) ∧
      esP.length + 1 = g.adjList.length ∧
      esK.length + 1 = g.adjList.length ∧
      esB.length + 1 = g.adjList.length ∧
      WeightedEdges g.adjList esP tot ∧
      WeightedEdges g.adjList esK tot ∧
      WeightedEdges g.adjList esB tot ∧
      (∀ x y, x ∈ keys g.adjList → y ∈ keys g.adjList →
        pairConn esP x y ∧ pairConn esK x y ∧ pairConn esB x y) := by
  obtain ⟨AP, hPeq, hPzip, hPspan, hPlen, hPcnt⟩ :=
    prim_ok g hw hne hdir hsym hconn
  obtain ⟨AK, hKeq, hKcol, hKspan, hKlen0, hKcnt⟩ := kruskal_ok g hw hne hdir
  obtain ⟨AB, hBeq, hBzip, hBspan, hBlen, hBcnt⟩ :=
    boruvka_ok g hw hne hdir hconn
  have hKlen := hKlen0 hconn
  have hsumK : (AK.map (fun ie => ie.2.1)).sum
      = (AP.map (fun e => e.1)).sum := by
    refine sum_eq_of_le_counts ?_
    intro c
    have h1 := hPcnt c
    have h2 := hKcnt c
    omega
  have hsumB : (AB.map (fun e => e.1)).sum
      = (AP.map (fun e => e.1)).sum := by
    refine sum_eq_of_le_counts ?_
    intro c
    have h1 := hPcnt c
    have h2 := hBcnt c
    omega
  refine ⟨AP.map (fun e => (e.2.1, e.2.2)),
    AK.map (fun ie => (ie.2.2.1, ie.2.2.2)),
    AB.map (fun e => (e.2.1, e.2.2)), (AP.map (fun e => e.1)).sum,
    hPeq, ?_, ?_, ?_, ?_, ?_, ?_, ?_, ?_, ?_⟩
  · rw [hKeq, hsumK]
  · rw [hBeq, hsumB]
  · rw [List.length_map]
    exact hPlen
  · rw [List.length_map]
    exact hKlen
  · rw [List.length_map]
    exact hBlen
  · exact ⟨AP.map (fun e => e.1),
      by rw [List.length_map, List.length_map], hPzip, rfl⟩
  · refine ⟨AK.map (fun ie => ie.2.1),
      by rw [List.length_map, List.length_map], ?_, hsumK.symm⟩
    intro p hp
    rw [List.zip_map'] at hp
    obtain ⟨ie, hie, hpe⟩ := List.mem_map.mp hp
    have hpred := collectEdges_pred hw.sorted ie.2 (hKcol ie hie)
    rw [← hpe]
    exact hpred
  · exact ⟨AB.map (fun e => e.1),
      by rw [List.length_map, List.length_map], hBzip, hsumB.symm⟩
  · intro x y hx hy
    exact ⟨hPspan x y hx hy, hKspan x y (hconn x y hx hy), hBspan x y hx hy⟩

/-- Witness for C1 on the two-vertex graph `gW` with its single edge of
weight `5`. -/
theorem claim_C1_witness :
    ∃ (esP esK esB : List (Nat × Nat)) (tot : Int),
      gW.mst_prim = some (esP, tot) ∧
      gW.mst_kruskal = some (esK, tot) ∧
      gW.mst_boruvka = some (esB, tot) ∧
      esP.length + 1 = gW.adjList.length ∧
      esK.length + 1 = gW.adjList.length ∧
      esB.length + 1 = gW.adjList.length ∧
      WeightedEdges gW.adjList esP tot ∧
      WeightedEdges gW.adjList esK tot ∧
      WeightedEdges gW.adjList esB tot ∧
      (∀ x y, x ∈ keys gW.adjList → y ∈ keys gW.adjList →
        pairConn esP x y ∧ pairConn esK x y ∧ pairConn esB x y) :=
  claim_C1 gW (by decide) (by decide) rfl
    (by
      intro u v w h
      by_cases hu1 : u = 1
      · subst hu1
        have h2 : (v, w) ∈ [((2 : Nat), (5 : Int))] := h
        have h3 := List.mem_singleton.mp h2
        have hv : v = 2 := congrArg Prod.fst h3
        have hw5 : w = 5 := congrArg Prod.snd h3
        subst hv
        subst hw5
        decide
      · by_cases hu2 : u = 2
        · subst hu2
          have h2 : (v, w) ∈ [((1 : Nat), (5 : Int))] := h
          have h3 := List.mem_singleton.mp h2
          have hv : v = 1 := congrArg Prod.fst h3
          have hw5 : w = 5 := congrArg Prod.snd h3
          subst hv
          subst hw5
          decide
        · exfalso
          have hnone : lookupA u gW.adjList = none := by
            show (if u = 1 then some [((2 : Nat), (5 : Int))]
              else if u = 2 then some [((1 : Nat), (5 : Int))]
              else none) = none
            rw [if_neg hu1, if_neg hu2]
          have h2 : adjOf gW.adjList u = [] := by
            unfold adjOf
            rw [hnone]
            rfl
          rw [h2] at h
          exact absurd h (List.not_mem_nil _))
    (by
      intro x y hx hy
      have hx2 : x = 1 ∨ x = 2 := by
        have h2 : x ∈ [1, 2] := hx
        simpa using h2
      have hy2 : y = 1 ∨ y = 2 := by
        have h2 : y ∈ [1, 2] := hy
        simpa using h2
      have hstep : ∃ w : Int, ((2 : Nat), w) ∈ adjOf gW.adjList 1 :=
        ⟨5, by decide⟩
      rcases hx2 with hx2 | hx2 <;> rcases hy2 with hy2 | hy2 <;>
        subst hx2 <;> subst hy2
      · exact Relation.EqvGen.refl 1
      · exact Relation.EqvGen.rel _ _ hstep
      · exact Relation.EqvGen.symm _ _ (Relation.EqvGen.rel _ _ hstep)
      · exact Relation.EqvGen.refl 2)

end Lab1
